import Mathlib

/-!
Telnet client: control-sequence interpreter, delimited reader, prompt scanner.

A shallow embedding of `telnet.go` and a verification of its specification.

Bytes are natural numbers (a byte is a number below 256; nothing below depends
on the bound).  Go's multiple return values are tuples, `err == nil` is
`none`.  The `for` loops of the program are structural recursions on a fuel
counter and return `none` only when the counter runs out; the functions named
after the source supply a counter computed from the unread input, and the
theorems show that it always suffices.

The connection is read through a `bufio.Reader`.  It is modelled by the bytes
already buffered together with the segments the transport will still deliver,
one per successful transport read; once the segments are used up a transport
read fails (the peer closed the connection or the read deadline passed).
-/

namespace Telnet

/-! ## Protocol constants -/

/-- IAC, interpret as command. -/
def IAC : Nat := 255
/-- SB, subnegotiation of the indicated option follows. -/
def SB : Nat := 250
/-- SE, end of subnegotiation parameters. -/
def SE : Nat := 240
/-- WILL, the desire to begin performing an option. -/
def WILL : Nat := 251
/-- WONT, the refusal to perform an option. -/
def WONT : Nat := 252
/-- DO, the request that the other party perform an option. -/
def DO : Nat := 253
/-- DONT, the demand that the other party stop performing an option. -/
def DONT : Nat := 254

/-- Errors a call can return: a failed read on the connection (end of stream
or deadline) and a failed write. -/
inductive Error where
  | read : Error
  | write : Error
deriving DecidableEq

/-! ## The buffered reader (`bufio.Reader` over the connection) -/

/-- The bytes delivered by one successful read on the transport: a read that
succeeds delivers at least one byte. -/
structure Chunk where
  head : Nat
  tail : List Nat
deriving DecidableEq

/-- The bytes of a segment, in order. -/
def Chunk.bytes (c : Chunk) : List Nat := c.head :: c.tail

/-- State of the `bufio.Reader`: `buf` holds the bytes read from the transport
and not yet consumed, `chunks` the segments that the following transport reads
deliver.  With no segment left a transport read returns an error. -/
structure Reader where
  buf : List Nat
  chunks : List Chunk
deriving DecidableEq

namespace Reader

/-- All bytes the reader can still hand out, buffered or yet to arrive. -/
def pending (r : Reader) : List Nat := r.buf ++ (r.chunks.map Chunk.bytes).flatten

/-- A reader whose whole input has already been buffered. -/
def ofBytes (l : List Nat) : Reader := { buf := l, chunks := [] }

/-- The call `Buffered()`: the number of bytes that can be read from the buffer. -/
def Buffered (r : Reader) : Nat := r.buf.length

/-- The call `ReadByte()` of bufio: the next buffered byte; an empty buffer is
filled by one transport read first, and the transport error is returned (with
byte 0) when that read fails. -/
def ReadByte (r : Reader) : (Nat × Option Error) × Reader :=
  match r.buf with
  | b :: rest => ((b, none), { r with buf := rest })
  | [] =>
    match r.chunks with
    | [] => ((0, some Error.read), r)
    | c :: cs => ((c.head, none), { buf := c.tail, chunks := cs })

/-- The filling loop of `Peek(n)`: transport reads are issued while fewer than
`n` bytes are buffered and no read has failed. -/
def peekFill (n : Nat) : List Nat → List Chunk → (List Nat × List Chunk) × Option Error
  | buf, [] => ((buf, []), if buf.length < n then some Error.read else none)
  | buf, c :: cs =>
    if buf.length < n then peekFill n (buf ++ c.bytes) cs else ((buf, c :: cs), none)

/-- The call `Peek(n)` of bufio, for `n` within the buffer size: the next `n`
bytes without consuming them; when the transport fails before `n` bytes are
there, the bytes available and the error. -/
def Peek (n : Nat) (r : Reader) : (List Nat × Option Error) × Reader :=
  match peekFill n r.buf r.chunks with
  | ((buf, cs), err) => ((buf.take n, err), { buf := buf, chunks := cs })

/-- The loop of `Discard` once the buffer is empty and `remain > 0` bytes are
still to skip: each round fills the buffer by one transport read and skips. -/
def discardChunks : Nat → List Chunk → (Nat × Reader) × Option Error
  | remain, [] => ((remain, { buf := [], chunks := [] }), some Error.read)
  | remain, c :: cs =>
    if remain ≤ c.bytes.length then
      ((0, { buf := c.bytes.drop remain, chunks := cs }), none)
    else discardChunks (remain - c.bytes.length) cs

/-- The call `Discard(n)` of bufio: skips the next `n` bytes and returns the
number skipped; fewer than `n` are skipped only together with an error. -/
def Discard (n : Nat) (r : Reader) : (Nat × Option Error) × Reader :=
  if n = 0 then ((0, none), r)
  else if n ≤ r.buf.length then ((n, none), { r with buf := r.buf.drop n })
  else
    match discardChunks (n - r.buf.length) r.chunks with
    | ((remain, r1), err) => ((n - remain, err), r1)

end Reader

/-! ## The buffered writer (`bufio.Writer` over the connection) -/

/-- State of the writer: the bytes that reached the transport, and whether the
transport rejects writes. -/
structure Writer where
  sent : List Nat
  fails : Bool
deriving DecidableEq

/-- The method `Write`: `writer.Write(data)` followed, when that succeeded, by
`writer.Flush()`.  The data is buffered and the flush hands it to the
transport.  The payloads of the program are not empty (each ends in CRLF) and
fit the buffer; for these the flush reaches the transport and its error is the
error of the call.  The returned count is the length of the data, as on a
writer that has not failed before; no caller in the program looks at it. -/
def Write (w : Writer) (data : List Nat) : (Nat × Option Error) × Writer :=
  if w.fails then ((data.length, some Error.write), w)
  else ((data.length, none), { w with sent := w.sent ++ data })

/-! ## Control-sequence interpreter -/

/-- The loop of `skipSBSequence`: discard one byte, peek at the next two, stop
after discarding them when they are IAC SE. -/
def skipSBSequenceLoop : Nat → Reader → Option (Option Error × Reader)
  | 0, _ => none
  | fuel + 1, r =>
    match Reader.Discard 1 r with
    | ((_, some e), r1) => some (some e, r1)
    | ((_, none), r1) =>
      match Reader.Peek 2 r1 with
      | ((_, some e), r2) => some (some e, r2)
      | ((peeked, none), r2) =>
        if peeked.getD 0 0 = IAC ∧ peeked.getD 1 0 = SE then
          match Reader.Discard 2 r2 with
          | ((_, err), r3) => some (err, r3)
        else skipSBSequenceLoop fuel r2

/-- The method `skipSBSequence`. -/
def skipSBSequence (r : Reader) : Option (Option Error × Reader) :=
  skipSBSequenceLoop (r.pending.length + 1) r

/-- The method `skipCommand`: peek at the byte after an IAC; a negotiation verb
is discarded with its option byte, SB starts `skipSBSequence`, anything else
is left alone. -/
def skipCommand (r : Reader) : Option (Option Error × Reader) :=
  match Reader.Peek 1 r with
  | ((_, some e), r1) => some (some e, r1)
  | ((peeked, none), r1) =>
    if peeked.getD 0 0 = WILL ∨ peeked.getD 0 0 = WONT ∨
        peeked.getD 0 0 = DO ∨ peeked.getD 0 0 = DONT then
      match Reader.Discard 2 r1 with
      | ((_, err), r2) => some (err, r2)
    else if peeked.getD 0 0 = SB then skipSBSequence r1
    else some (none, r1)

/-- The loop of `ReadByte`: read a raw byte; stop on an error or on a byte
other than IAC; after an IAC skip the command and go round again, stopping
(with the IAC still in `b`) when skipping fails. -/
def ReadByteLoop : Nat → Reader → Option ((Nat × Option Error) × Reader)
  | 0, _ => none
  | fuel + 1, r =>
    match Reader.ReadByte r with
    | ((b, some e), r1) => some ((b, some e), r1)
    | ((b, none), r1) =>
      if b ≠ IAC then some ((b, none), r1)
      else
        match skipCommand r1 with
        | none => none
        | some (some e, r2) => some ((b, some e), r2)
        | some (none, r2) => ReadByteLoop fuel r2

/-- The method `ReadByte`: receives a byte from the remote server, avoiding
commands. -/
def ReadByte (r : Reader) : Option ((Nat × Option Error) × Reader) :=
  ReadByteLoop (r.pending.length + 1) r

/-! ## Delimited reader -/

/-- The loop `for b != delim` of `ReadUntil`; `b` is the byte read last, `data`
the caller's buffer and `n` the count so far. -/
def ReadUntilLoop (delim : Nat) :
    Nat → Nat → List Nat → Nat → Reader → Option ((Nat × Option Error) × List Nat × Reader)
  | 0, _, _, _, _ => none
  | fuel + 1, b, data, n, r =>
    if b = delim then some ((n, none), data, r)
    else
      match ReadByte r with
      | none => none
      | some ((_, some e), r1) => some ((n, some e), data, r1)
      | some ((b1, none), r1) => ReadUntilLoop delim fuel b1 (data ++ [b1]) (n + 1) r1

/-- The method `ReadUntil`: reads bytes until a specific symbol.  `var b byte`
starts at zero.  Returns the count, the error and the buffer after the call. -/
def ReadUntil (data : List Nat) (delim : Nat) (r : Reader) :
    Option ((Nat × Option Error) × List Nat × Reader) :=
  ReadUntilLoop delim (r.pending.length + 2) 0 data 0 r

/-! ## Prompt scanner -/

/-- The loop of `findNewLinePos`, with `i + 1` iterations left: index `i` is
examined, `pb` is the byte at index `i + 1` (zero at the start). -/
def findNewLinePosLoop (data : List Nat) : Nat → Nat → Int
  | 0, _ => -1
  | i + 1, pb =>
    if pb = 10 ∧ data.getD i 0 = 13 then (i : Int)
    else findNewLinePosLoop data i (data.getD i 0)

/-- The function `findNewLinePos`. -/
def findNewLinePos (data : List Nat) : Int :=
  findNewLinePosLoop data data.length 0

/-- Result of a call that may panic. -/
inductive Outcome (α : Type) where
  | ret : α → Outcome α
  | panic : Outcome α
deriving DecidableEq

/-- The slice expression `data[lo:hi]`; `none` when Go panics because the
bounds are out of range (the length is used as the upper limit). -/
def slice (data : List Nat) (lo hi : Int) : Option (List Nat) :=
  if 0 ≤ lo ∧ lo ≤ hi ∧ hi ≤ (data.length : Int) then
    some ((data.take hi.toNat).drop lo.toNat)
  else none

/-- The update of `linePos` in `ReadUntilPrompt`: `n = findNewLinePos(output)`,
and `linePos = n + 2` when `n != -1`. -/
def nextLinePos (output : List Nat) (linePos : Int) : Int :=
  if findNewLinePos output ≠ -1 then findNewLinePos output + 2 else linePos

/-- The loop of `ReadUntilPrompt`, for a callback that only reads the fragment
it is given, as the callbacks of the program do.  The callback `process` may
have effects of its own (the handshake writes to the connection); they are
threaded through a state of type `σ`.  A callback that writes to its argument,
which shares its bytes with the buffer, is covered by
`ReadUntilPromptLoopShared`. -/
def ReadUntilPromptLoop {σ : Type} (process : List Nat → σ → Bool × σ) :
    Nat → List Nat → Int → Int → Reader → σ →
      Option (Outcome ((List Nat × Option Error) × Reader × σ))
  | 0, _, _, _, _, _ => none
  | fuel + 1, output, delimPos, linePos, r, st =>
    match ReadUntil output 32 r with
    | none => none
    | some ((_, some e), output1, r1) => some (Outcome.ret ((output1, some e), r1, st))
    | some ((n, none), output1, r1) =>
      match slice output1 (nextLinePos output1 linePos) (delimPos + n) with
      | none => some Outcome.panic
      | some chunk =>
        match process chunk st with
        | (true, st1) => some (Outcome.ret ((output1, none), r1, st1))
        | (false, st1) =>
          ReadUntilPromptLoop process fuel output1 (delimPos + n)
            (nextLinePos output1 linePos) r1 st1

/-- The method `ReadUntilPrompt`: reads data until the process function stops. -/
def ReadUntilPrompt {σ : Type} (process : List Nat → σ → Bool × σ) (r : Reader) (st : σ) :
    Option (Outcome ((List Nat × Option Error) × Reader × σ)) :=
  ReadUntilPromptLoop process (r.pending.length + 1) [] 0 0 r st

/-- The clean-byte sequence: the bytes that successive `ReadByte` calls return
up to the first call that fails. -/
def readAllLoop : Nat → Reader → Option (List Nat × Reader)
  | 0, _ => none
  | fuel + 1, r =>
    match ReadByte r with
    | none => none
    | some ((_, some _), r1) => some ([], r1)
    | some ((b, none), r1) =>
      match readAllLoop fuel r1 with
      | none => none
      | some (bs, r2) => some (b :: bs, r2)

/-- The clean bytes of a reader, with the reader left behind by the failing call. -/
def readAll (r : Reader) : Option (List Nat × Reader) :=
  readAllLoop (r.pending.length + 1) r

/-! ## Patterns

The three patterns are fixed.  They are concatenations of single bytes, byte
classes and greedy repetitions `+` of a byte class; none of them can match a
byte above 127, so matching bytes agrees with Go's matching of UTF-8 text.
Matching is leftmost-first, as in Go's `regexp`: the match starts at the first
position where one exists, and a repetition takes as many bytes as the rest of
the pattern allows. -/

/-- A byte class: a list of inclusive ranges. -/
abbrev Class := List (Nat × Nat)

/-- Membership of a byte in a class. -/
def inClass (cls : Class) (b : Nat) : Bool :=
  cls.any (fun rg => decide (rg.1 ≤ b ∧ b ≤ rg.2))

/-- One element of a pattern: a byte of a class, or `+` applied to a class. -/
inductive Atom where
  | one : Class → Atom
  | plus : Class → Atom
deriving DecidableEq

/-- The class `\w`: digits, upper case, underscore, lower case. -/
def wordClass : Class := [(48, 57), (65, 90), (95, 95), (97, 122)]

/-- The class `\d`. -/
def digitClass : Class := [(48, 57)]

/-- The class `[\w\d-_]`: after `\d` the hyphen is a literal, then the underscore. -/
def nameClass : Class := wordClass ++ digitClass ++ [(45, 45), (95, 95)]

/-- The third class of the banner pattern, `\w`, `\d`, the range from slash
to underscore (47 to 95) and the tilde. -/
def pathClass : Class := wordClass ++ digitClass ++ [(47, 95), (126, 126)]

/-- A literal string as a pattern. -/
def lit (s : List Nat) : List Atom := s.map (fun c => Atom.one [(c, c)])

/-- The pattern `[\w\d-_]+ login:`. -/
def loginRe : List Atom := Atom.plus nameClass :: lit [32, 108, 111, 103, 105, 110, 58]

/-- The pattern `Password:`. -/
def passwordRe : List Atom := lit [80, 97, 115, 115, 119, 111, 114, 100, 58]

/-- The banner pattern: `[\w\d-_]+`, `@`, `[\w\d-_]+`, `:`, the path class
repeated by `+`, and the group `(\$|#)`, a choice between two single bytes,
that is one byte out of `$` and `#`. -/
def bannerRe : List Atom :=
  [Atom.plus nameClass, Atom.one [(64, 64)], Atom.plus nameClass, Atom.one [(58, 58)],
    Atom.plus pathClass, Atom.one [(36, 36), (35, 35)]]

/-- Length of the match of a pattern at the start of the input, if there is
one.  A repetition first tries to go on and gives bytes back only when the
rest of the pattern fails. -/
def matchHere : List Atom → List Nat → Option Nat
  | [], _ => some 0
  | _ :: _, [] => none
  | Atom.one cls :: rest, c :: cs =>
    if inClass cls c then (matchHere rest cs).map (fun n => n + 1) else none
  | Atom.plus cls :: rest, c :: cs =>
    if inClass cls c then
      match matchHere (Atom.plus cls :: rest) cs with
      | some n => some (n + 1)
      | none => (matchHere rest cs).map (fun n => n + 1)
    else none

/-- The call `re.Find(data)`: the leftmost match, empty when there is none. -/
def Find (re : List Atom) : List Nat → List Nat
  | [] => []
  | c :: cs =>
    match matchHere re (c :: cs) with
    | some n => (c :: cs).take n
    | none => Find re cs

/-- The call `re.ReplaceAll(data, []byte{})`, scanning with `skip` bytes of the
current match still to drop: every match is removed, and the search goes on
behind it. -/
def ReplaceAllLoop (re : List Atom) : Nat → List Nat → List Nat
  | _, [] => []
  | skip + 1, _ :: cs => ReplaceAllLoop re skip cs
  | 0, c :: cs =>
    match matchHere re (c :: cs) with
    | some (n + 1) => ReplaceAllLoop re n cs
    | _ => c :: ReplaceAllLoop re 0 cs

/-- The call `re.ReplaceAll(data, []byte{})`. -/
def ReplaceAll (re : List Atom) (data : List Nat) : List Nat :=
  ReplaceAllLoop re 0 data

/-- The call `bytes.Trim(data, " ")` for a one-byte cutset. -/
def Trim (data : List Nat) (cut : Nat) : List Nat :=
  (data.dropWhile (fun b => b == cut)).rdropWhile (fun b => b == cut)

/-! ## Banner capture, handshake, command execution -/

/-- The callback of `ReadUntilBanner`: the fragment contains a banner. -/
def bannerProcess {σ : Type} (data : List Nat) (st : σ) : Bool × σ :=
  (decide ((Find bannerRe data).length > 0), st)

/-- The method `ReadUntilBanner`: reads until the banner, then removes the
banner text and trims spaces, also when the scan failed. -/
def ReadUntilBanner (r : Reader) : Option (Outcome ((List Nat × Option Error) × Reader)) :=
  match ReadUntilPrompt bannerProcess r () with
  | none => none
  | some Outcome.panic => some Outcome.panic
  | some (Outcome.ret ((output, err), r1, _)) =>
    some (Outcome.ret ((Trim (ReplaceAll bannerRe output) 32, err), r1))

/-- The method `findInputPrompt`: when the pattern matches in the buffer the
response and CRLF are written; the result of the write is not looked at. -/
def findInputPrompt (re : List Atom) (responce : List Nat) (buffer : List Nat) (w : Writer) :
    Bool × Writer :=
  if (Find re buffer).length = 0 then (false, w)
  else (true, (Write w (responce ++ [13, 10])).2)

/-- The fields of `TelnetClient` the scanner works with.  Address, port,
timeout and logging do not influence what is read and written. -/
structure TelnetClient where
  Login : List Nat
  Password : List Nat
  reader : Reader
  writer : Writer
deriving DecidableEq

/-- The callback of `waitWelcomeSigns`. -/
def welcomeProcess (login password : List Nat) (data : List Nat) (w : Writer) : Bool × Writer :=
  match findInputPrompt loginRe login data w with
  | (true, w1) => (false, w1)
  | (false, w1) =>
    match findInputPrompt passwordRe password data w1 with
    | (true, w2) => (false, w2)
    | (false, w2) => (decide ((Find bannerRe data).length > 0), w2)

/-- The method `waitWelcomeSigns`: waits for the first banner and answers the
login and password prompts on the way. -/
def waitWelcomeSigns (tc : TelnetClient) : Option (Outcome (Option Error × TelnetClient)) :=
  match ReadUntilPrompt (welcomeProcess tc.Login tc.Password) tc.reader tc.writer with
  | none => none
  | some Outcome.panic => some Outcome.panic
  | some (Outcome.ret ((_, err), r1, w1)) =>
    some (Outcome.ret (err, { tc with reader := r1, writer := w1 }))

/-- The method `Execute`: drops what is buffered, sends the command line and
returns the output up to the next banner. -/
def Execute (tc : TelnetClient) (name : List Nat) (args : List (List Nat)) :
    Option (Outcome ((List Nat × Option Error) × TelnetClient)) :=
  match Reader.Discard (Reader.Buffered tc.reader) tc.reader with
  | ((_, some e), r1) => some (Outcome.ret (([], some e), { tc with reader := r1 }))
  | ((_, none), r1) =>
    match Write tc.writer (name ++ [32] ++ List.intercalate [32] args ++ [13, 10]) with
    | (_, w1) =>
      match ReadUntilBanner r1 with
      | none => none
      | some Outcome.panic => some Outcome.panic
      | some (Outcome.ret ((stdout, err), r2)) =>
        some (Outcome.ret ((stdout, err), { tc with reader := r2, writer := w1 }))


/-! ## Vocabulary of the specification -/

/-- The list contains the byte `a` immediately followed by the byte `b`. -/
def hasPair (a b : Nat) : List Nat → Bool
  | [] => false
  | x :: t => (x == a && t.head? == some b) || hasPair a b t

/-- The results of `k` successive calls of `ReadByte`, whatever each of them
returns. -/
def readCalls : Nat → Reader → Option (List (Nat × Option Error))
  | 0, _ => some []
  | k + 1, r =>
    match ReadByte r with
    | none => none
    | some (x, r1) =>
      match readCalls k r1 with
      | none => none
      | some xs => some (x :: xs)

/-- The bytes that a list of `ReadByte` results hands out as data, that is
without an error. -/
def dataBytes (xs : List (Nat × Option Error)) : List Nat :=
  (xs.filter (fun x => x.2.isNone)).map Prod.fst

/-- A CR LF pair starts at index `k` of the data. -/
def crlfAt (data : List Nat) (k : Nat) : Prop :=
  data.getD k 0 = 13 ∧ data.getD (k + 1) 0 = 10

/-- The Line Fragment of the specification: `f` is the suffix of `p` after its
last CRLF, or all of `p` if `p` has none. -/
def IsLineFragment (p f : List Nat) : Prop :=
  (hasPair 13 10 p = false ∧ f = p) ∨
    (∃ pre, p = pre ++ 13 :: 10 :: f ∧ hasPair 13 10 f = false)

/-- The fragment that `ReadUntilPrompt` cuts out of its output, `output[linePos:]`
with `linePos` as the scan computes it (`delimPos` is the end of the output). -/
def lineFragment (output : List Nat) : List Nat :=
  output.drop (nextLinePos output 0).toNat

/-- What a caller can observe of a result of `ReadUntilPrompt`: the reader is
replaced by the bytes it still has to deliver. -/
def observe {σ : Type} :
    Option (Outcome ((List Nat × Option Error) × Reader × σ)) →
      Option (Outcome ((List Nat × Option Error) × List Nat × σ))
  | none => none
  | some Outcome.panic => some Outcome.panic
  | some (Outcome.ret (x, r, st)) => some (Outcome.ret (x, r.pending, st))

/-- The class of an element of a pattern. -/
def Atom.cls : Atom → Class
  | Atom.one c => c
  | Atom.plus c => c

/-- The language of a pattern: a byte of the class for `one`, a non-empty run
of bytes of the class for `plus`, one after the other. -/
def Lang : List Atom → List Nat → Prop
  | [], s => s = []
  | Atom.one cls :: rest, s => ∃ c t, s = c :: t ∧ inClass cls c = true ∧ Lang rest t
  | Atom.plus cls :: rest, s =>
    ∃ run t, run ≠ [] ∧ (∀ c ∈ run, inClass cls c = true) ∧ s = run ++ t ∧ Lang rest t

/-- The pattern matches somewhere in the data. -/
def Matches (re : List Atom) (data : List Nat) : Prop :=
  ∃ pre m post, data = pre ++ m ++ post ∧ Lang re m

/-! ## Observing the scan: the variables of each iteration, the fragments classified -/

/-- Values of the variables of `ReadUntilPrompt` at the statement
`chunk = output[linePos:delimPos]` of one iteration. -/
structure Pass where
  output : List Nat
  delimPos : Int
  linePos : Int
deriving DecidableEq

/-- The loop of `ReadUntilPrompt` run with a recorder: next to the result of
`ReadUntilPromptLoop` it lists, for every iteration that reaches the slice, the
variables at that statement. -/
def ReadUntilPromptTraced {σ : Type} (process : List Nat → σ → Bool × σ) :
    Nat → List Nat → Int → Int → Reader → σ →
      List Pass × Option (Outcome ((List Nat × Option Error) × Reader × σ))
  | 0, _, _, _, _, _ => ([], none)
  | fuel + 1, output, delimPos, linePos, r, st =>
    match ReadUntil output 32 r with
    | none => ([], none)
    | some ((_, some e), output1, r1) => ([], some (Outcome.ret ((output1, some e), r1, st)))
    | some ((n, none), output1, r1) =>
      match slice output1 (nextLinePos output1 linePos) (delimPos + n) with
      | none => ([⟨output1, delimPos + n, nextLinePos output1 linePos⟩], some Outcome.panic)
      | some chunk =>
        match process chunk st with
        | (true, st1) =>
          ([⟨output1, delimPos + n, nextLinePos output1 linePos⟩],
            some (Outcome.ret ((output1, none), r1, st1)))
        | (false, st1) =>
          match ReadUntilPromptTraced process fuel output1 (delimPos + n)
              (nextLinePos output1 linePos) r1 st1 with
          | (ps, res) => (⟨output1, delimPos + n, nextLinePos output1 linePos⟩ :: ps, res)

/-- The iterations of one call of `ReadUntilPrompt`, in order: the variables at
the slice of each. -/
def ReadUntilPromptPasses {σ : Type} (process : List Nat → σ → Bool × σ) (r : Reader) (st : σ) :
    List Pass :=
  (ReadUntilPromptTraced process (r.pending.length + 1) [] 0 0 r st).1

/-- A classifier that behaves as `process` and also notes, in order, every
fragment it is called with. -/
def record {σ : Type} (process : List Nat → σ → Bool × σ) (data : List Nat)
    (s : σ × List (List Nat)) : Bool × (σ × List (List Nat)) :=
  ((process data s.1).1, ((process data s.1).2, s.2 ++ [data]))

/-! ## The scan with a classifier that writes to its argument -/

/-- What a fragment holds once the classifier has returned: `chunk` is the
fragment handed over and `chunk1` what the classifier left in its argument.  A
callee cannot change the length of the caller's slice, so the result has the
length of `chunk`: bytes of `chunk1` beyond it are dropped and bytes it does
not cover are kept.  (A byte written behind the fragment, within the capacity
of the buffer, lies behind the end of the buffer and is overwritten by the
next `append` before the buffer reaches it.) -/
def overwrite (chunk chunk1 : List Nat) : List Nat :=
  chunk1.take chunk.length ++ chunk.drop chunk1.length

/-- The buffer once the classifier has returned.  In `chunk = output[lo:hi]` the
fragment shares its bytes with `output`, so what the classifier wrote to its
argument is in the buffer at the indices from `lo` on. -/
def writeBack (output : List Nat) (lo : Int) (chunk chunk1 : List Nat) : List Nat :=
  output.take lo.toNat ++ overwrite chunk chunk1 ++ output.drop (lo.toNat + chunk.length)

/-- The loop of `ReadUntilPrompt` for a classifier that may write to the
fragment it is given: `process` returns its verdict and the bytes it leaves in
its argument, and the buffer is continued with these bytes.  The classifier is
a callee that returns, that reaches the buffer only through the bytes of its
argument and only during the call (it does not keep the slice), and that does
not read from the connection; its other effects are threaded through the
state of type `σ`. -/
def ReadUntilPromptLoopShared {σ : Type} (process : List Nat → σ → (Bool × List Nat) × σ) :
    Nat → List Nat → Int → Int → Reader → σ →
      Option (Outcome ((List Nat × Option Error) × Reader × σ))
  | 0, _, _, _, _, _ => none
  | fuel + 1, output, delimPos, linePos, r, st =>
    match ReadUntil output 32 r with
    | none => none
    | some ((_, some e), output1, r1) => some (Outcome.ret ((output1, some e), r1, st))
    | some ((n, none), output1, r1) =>
      match slice output1 (nextLinePos output1 linePos) (delimPos + n) with
      | none => some Outcome.panic
      | some chunk =>
        match process chunk st with
        | ((true, chunk1), st1) =>
          some (Outcome.ret
            ((writeBack output1 (nextLinePos output1 linePos) chunk chunk1, none), r1, st1))
        | ((false, chunk1), st1) =>
          ReadUntilPromptLoopShared process fuel
            (writeBack output1 (nextLinePos output1 linePos) chunk chunk1) (delimPos + n)
            (nextLinePos output1 linePos) r1 st1

/-- The method `ReadUntilPrompt` for a classifier that may write to the fragment
it is given. -/
def ReadUntilPromptShared {σ : Type} (process : List Nat → σ → (Bool × List Nat) × σ)
    (r : Reader) (st : σ) : Option (Outcome ((List Nat × Option Error) × Reader × σ)) :=
  ReadUntilPromptLoopShared process (r.pending.length + 1) [] 0 0 r st

/-- A classifier that does not write to its argument, as one that may. -/
def noWrite {σ : Type} (process : List Nat → σ → Bool × σ) (data : List Nat) (st : σ) :
    (Bool × List Nat) × σ :=
  (((process data st).1, data), (process data st).2)

/-- One iteration of `ReadUntilPrompt` that reaches the classifier: the
variables at the statement `chunk = output[linePos:delimPos]`, the number of
input bytes not yet read at that point, the verdict of the classifier, and the
buffer once the classifier has returned. -/
structure Visit where
  output : List Nat
  delimPos : Int
  linePos : Int
  unread : Nat
  accepted : Bool
  after : List Nat
deriving DecidableEq

/-- The loop `ReadUntilPromptLoopShared` run with a recorder: next to its result
it lists the iterations that reach the classifier. -/
def ReadUntilPromptTracedShared {σ : Type} (process : List Nat → σ → (Bool × List Nat) × σ) :
    Nat → List Nat → Int → Int → Reader → σ →
      List Visit × Option (Outcome ((List Nat × Option Error) × Reader × σ))
  | 0, _, _, _, _, _ => ([], none)
  | fuel + 1, output, delimPos, linePos, r, st =>
    match ReadUntil output 32 r with
    | none => ([], none)
    | some ((_, some e), output1, r1) => ([], some (Outcome.ret ((output1, some e), r1, st)))
    | some ((n, none), output1, r1) =>
      match slice output1 (nextLinePos output1 linePos) (delimPos + n) with
      | none => ([], some Outcome.panic)
      | some chunk =>
        match process chunk st with
        | ((true, chunk1), st1) =>
          ([⟨output1, delimPos + n, nextLinePos output1 linePos, r1.pending.length, true,
              writeBack output1 (nextLinePos output1 linePos) chunk chunk1⟩],
            some (Outcome.ret
              ((writeBack output1 (nextLinePos output1 linePos) chunk chunk1, none), r1, st1)))
        | ((false, chunk1), st1) =>
          match ReadUntilPromptTracedShared process fuel
              (writeBack output1 (nextLinePos output1 linePos) chunk chunk1) (delimPos + n)
              (nextLinePos output1 linePos) r1 st1 with
          | (vs, res) =>
            (⟨output1, delimPos + n, nextLinePos output1 linePos, r1.pending.length, false,
                writeBack output1 (nextLinePos output1 linePos) chunk chunk1⟩ :: vs, res)

/-- The iterations of one call of `ReadUntilPromptShared` that reach the
classifier, in order. -/
def ReadUntilPromptVisits {σ : Type} (process : List Nat → σ → (Bool × List Nat) × σ)
    (r : Reader) (st : σ) : List Visit :=
  (ReadUntilPromptTracedShared process (r.pending.length + 1) [] 0 0 r st).1

/-! ## The buffered reader: what each call does to the pending bytes -/

namespace Reader

theorem pending_ofBytes (l : List Nat) : (ofBytes l).pending = l := by
  simp [pending, ofBytes]

theorem bufio_ReadByte_nil {r : Reader} (h : r.pending = []) :
    r.ReadByte = ((0, some Error.read), r) := by
  obtain ⟨buf, chunks⟩ := r
  cases buf with
  | cons b t => simp [pending] at h
  | nil =>
    cases chunks with
    | nil => rfl
    | cons c cs => simp [pending, Chunk.bytes] at h

theorem bufio_ReadByte_cons {r : Reader} {b : Nat} {t : List Nat} (h : r.pending = b :: t) :
    ∃ r1, r.ReadByte = ((b, none), r1) ∧ r1.pending = t := by
  obtain ⟨buf, chunks⟩ := r
  cases buf with
  | cons b0 t0 =>
    simp only [pending, List.cons_append, List.cons.injEq] at h
    exact ⟨⟨t0, chunks⟩, by simp [ReadByte, h.1], by simpa [pending] using h.2⟩
  | nil =>
    cases chunks with
    | nil => simp [pending] at h
    | cons c cs =>
      simp only [pending, Chunk.bytes, List.map_cons, List.flatten_cons, List.nil_append,
        List.cons_append, List.cons.injEq] at h
      exact ⟨⟨c.tail, cs⟩, by simp [ReadByte, h.1], by simpa [pending] using h.2⟩

theorem peekFill_spec (n : Nat) (cs : List Chunk) : ∀ buf : List Nat,
    (peekFill n buf cs).1.1 ++ ((peekFill n buf cs).1.2.map Chunk.bytes).flatten
        = buf ++ (cs.map Chunk.bytes).flatten ∧
      (peekFill n buf cs).2
        = (if (buf ++ (cs.map Chunk.bytes).flatten).length < n then some Error.read else none) ∧
      (peekFill n buf cs).1.1.take n = (buf ++ (cs.map Chunk.bytes).flatten).take n := by
  induction cs with
  | nil => intro buf; simp [peekFill]
  | cons c cs ih =>
    intro buf
    by_cases hlt : buf.length < n
    · have h := ih (buf ++ c.bytes)
      simp only [peekFill, hlt, if_true, List.map_cons, List.flatten_cons]
      simpa [List.append_assoc] using h
    · have hle : n ≤ buf.length := Nat.le_of_not_lt hlt
      simp only [peekFill, hlt, if_false, List.map_cons, List.flatten_cons]
      have h2 : ¬ ((buf ++ (c.bytes ++ (List.map Chunk.bytes cs).flatten)).length < n) := by
        rw [List.length_append]; omega
      refine ⟨trivial, ?_, ?_⟩
      · rw [if_neg h2]
      · rw [List.take_append_of_le_length hle]

theorem Peek_spec (n : Nat) (r : Reader) :
    ∃ r1, r.Peek n
        = ((r.pending.take n, if r.pending.length < n then some Error.read else none), r1) ∧
      r1.pending = r.pending := by
  obtain ⟨h1, h2, h3⟩ := peekFill_spec n r.chunks r.buf
  refine ⟨⟨(peekFill n r.buf r.chunks).1.1, (peekFill n r.buf r.chunks).1.2⟩, ?_, ?_⟩
  · simp only [Peek, pending]
    rw [← h2, ← h3]
  · simpa [pending] using h1

theorem discardChunks_spec (cs : List Chunk) : ∀ remain : Nat, 0 < remain →
    (discardChunks remain cs).1.2.pending = ((cs.map Chunk.bytes).flatten).drop remain ∧
      (discardChunks remain cs).2
        = (if ((cs.map Chunk.bytes).flatten).length < remain then some Error.read else none) ∧
      (discardChunks remain cs).1.1 = remain - ((cs.map Chunk.bytes).flatten).length := by
  induction cs with
  | nil => intro remain hpos; simp [discardChunks, pending]; omega
  | cons c cs ih =>
    intro remain hpos
    by_cases hle : remain ≤ c.bytes.length
    · simp only [discardChunks, hle, if_true, List.map_cons, List.flatten_cons, pending,
        List.map_nil, List.flatten_nil, List.append_nil]
      have h2 : ¬ ((c.bytes ++ (List.map Chunk.bytes cs).flatten).length < remain) := by
        rw [List.length_append]; omega
      have h4 : remain - c.bytes.length = 0 := by omega
      refine ⟨?_, ?_, ?_⟩
      · rw [List.drop_append_eq_append_drop, h4]; simp
      · rw [if_neg h2]
      · rw [List.length_append]; omega
    · have hpos2 : 0 < remain - c.bytes.length := by omega
      obtain ⟨i1, i2, i3⟩ := ih (remain - c.bytes.length) hpos2
      have hge : c.bytes.length ≤ remain := by omega
      simp only [discardChunks, hle, if_false, List.map_cons, List.flatten_cons, List.length_append]
      refine ⟨?_, ?_, ?_⟩
      · rw [i1, List.drop_append_eq_append_drop, List.drop_of_length_le hge]; simp
      · rw [i2]
        by_cases hx : (List.map Chunk.bytes cs).flatten.length < remain - c.bytes.length
        · have : c.bytes.length + (List.map Chunk.bytes cs).flatten.length < remain := by omega
          rw [if_pos hx, if_pos this]
        · have : ¬ (c.bytes.length + (List.map Chunk.bytes cs).flatten.length < remain) := by omega
          rw [if_neg hx, if_neg this]
      · rw [i3]; omega

theorem Discard_spec (n : Nat) (r : Reader) :
    ∃ r1, r.Discard n
        = ((min n r.pending.length, if r.pending.length < n then some Error.read else none), r1) ∧
      r1.pending = r.pending.drop n := by
  by_cases h0 : n = 0
  · subst h0; exact ⟨r, by simp [Discard], by simp⟩
  · by_cases hle : n ≤ r.buf.length
    · refine ⟨{ r with buf := r.buf.drop n }, ?_, ?_⟩
      · have h1 : n ≤ r.pending.length := by
          simp only [pending, List.length_append]; omega
        have h2 : ¬ (r.pending.length < n) := by omega
        simp only [Discard, h0, hle, if_true, if_false, if_neg h2, Nat.min_eq_left h1]
      · have h4 : n - r.buf.length = 0 := by omega
        simp only [pending]
        rw [List.drop_append_eq_append_drop, h4]; simp
    · have hpos : 0 < n - r.buf.length := by omega
      obtain ⟨i1, i2, i3⟩ := discardChunks_spec r.chunks (n - r.buf.length) hpos
      refine ⟨(discardChunks (n - r.buf.length) r.chunks).1.2, ?_, ?_⟩
      · simp only [Discard, h0, hle, if_false]
        have hlen : r.pending.length = r.buf.length + ((r.chunks.map Chunk.bytes).flatten).length := by
          simp only [pending, List.length_append]
        refine Prod.ext (Prod.ext ?_ ?_) rfl
        · simp only [i3, hlen]; omega
        · simp only [i2, hlen]
          by_cases hx : (List.map Chunk.bytes r.chunks).flatten.length < n - r.buf.length
          · have : r.buf.length + (List.map Chunk.bytes r.chunks).flatten.length < n := by omega
            rw [if_pos hx, if_pos this]
          · have : ¬ (r.buf.length + (List.map Chunk.bytes r.chunks).flatten.length < n) := by omega
            rw [if_neg hx, if_neg this]
      · have hge : r.buf.length ≤ n := by omega
        rw [i1]; simp only [pending]
        rw [List.drop_append_eq_append_drop, List.drop_of_length_le hge]; simp

end Reader

/-! ## Control-sequence interpreter: the result depends on the pending bytes only -/

open Reader

theorem skipSBSequenceLoop_sim (n : Nat) : ∀ (r1 r2 : Reader) (e : Option Error) (r1' : Reader),
    r1.pending = r2.pending → skipSBSequenceLoop n r1 = some (e, r1') →
    ∃ r2', skipSBSequenceLoop n r2 = some (e, r2') ∧ r2'.pending = r1'.pending := by
  induction n with
  | zero => intro r1 r2 e r1' _ h; simp [skipSBSequenceLoop] at h
  | succ n ih =>
    intro r1 r2 e r1' hp h
    obtain ⟨a1, ha1, hpa1⟩ := Discard_spec 1 r1
    obtain ⟨a2, ha2, hpa2⟩ := Discard_spec 1 r2
    obtain ⟨b1, hb1, hpb1⟩ := Peek_spec 2 a1
    obtain ⟨b2, hb2, hpb2⟩ := Peek_spec 2 a2
    obtain ⟨c1, hc1, hpc1⟩ := Discard_spec 2 b1
    obtain ⟨c2, hc2, hpc2⟩ := Discard_spec 2 b2
    have e1 : a1.pending = a2.pending := by rw [hpa1, hpa2, hp]
    have e2 : b1.pending = b2.pending := by rw [hpb1, hpb2, e1]
    have e3 : c1.pending = c2.pending := by rw [hpc1, hpc2, e2]
    rw [hp] at ha1; rw [e1] at hb1; rw [e2] at hc1
    simp only [skipSBSequenceLoop] at h ⊢
    rw [ha1] at h; rw [ha2]
    by_cases hl1 : r2.pending.length < 1
    · simp only [hl1, if_true, Option.some.injEq, Prod.mk.injEq] at h ⊢
      exact ⟨a2, ⟨h.1, rfl⟩, by rw [← h.2, e1]⟩
    · simp only [hl1, if_false] at h ⊢
      rw [hb1] at h; rw [hb2]
      by_cases hl2 : a2.pending.length < 2
      · simp only [hl2, if_true, Option.some.injEq, Prod.mk.injEq] at h ⊢
        exact ⟨b2, ⟨h.1, rfl⟩, by rw [← h.2, e2]⟩
      · simp only [hl2, if_false] at h ⊢
        by_cases hse : (List.take 2 a2.pending).getD 0 0 = IAC ∧ (List.take 2 a2.pending).getD 1 0 = SE
        · simp only [hse, and_self, if_true, hc1, hc2, Option.some.injEq, Prod.mk.injEq] at h ⊢
          exact ⟨c2, ⟨h.1, rfl⟩, by rw [← h.2, e3]⟩
        · simp only [hse, if_false] at h ⊢
          exact ih b1 b2 e r1' e2 h



theorem skipSBSequenceLoop_total (n : Nat) : ∀ r : Reader, r.pending.length < n →
    ∃ e r', skipSBSequenceLoop n r = some (e, r') ∧ r'.pending.length ≤ r.pending.length ∧
      (e = none ∨ e = some Error.read) := by
  induction n with
  | zero => intro r h; omega
  | succ n ih =>
    intro r hlen
    obtain ⟨a, ha, hpa⟩ := Discard_spec 1 r
    obtain ⟨b, hb, hpb⟩ := Peek_spec 2 a
    obtain ⟨c, hc, hpc⟩ := Discard_spec 2 b
    have la : a.pending.length = r.pending.length - 1 := by rw [hpa, List.length_drop]
    have lb : b.pending.length = a.pending.length := by rw [hpb]
    have lc : c.pending.length = b.pending.length - 2 := by rw [hpc, List.length_drop]
    simp only [skipSBSequenceLoop]
    rw [ha]
    by_cases hl1 : r.pending.length < 1
    · simp only [hl1, if_true]
      exact ⟨_, a, rfl, by omega, Or.inr rfl⟩
    · simp only [hl1, if_false]
      rw [hb]
      by_cases hl2 : a.pending.length < 2
      · simp only [hl2, if_true]
        exact ⟨_, b, rfl, by omega, Or.inr rfl⟩
      · simp only [hl2, if_false]
        by_cases hse : (List.take 2 a.pending).getD 0 0 = IAC ∧ (List.take 2 a.pending).getD 1 0 = SE
        · simp only [hse, and_self, if_true, hc]
          have hl3 : ¬ (b.pending.length < 2) := by omega
          simp only [hl3, if_false]
          exact ⟨_, c, rfl, by omega, Or.inl rfl⟩
        · simp only [hse, if_false]
          obtain ⟨e, r', h1, h2, h3⟩ := ih b (by omega)
          exact ⟨e, r', h1, by omega, h3⟩

theorem skipSBSequence_total (r : Reader) :
    ∃ e r', skipSBSequence r = some (e, r') ∧ r'.pending.length ≤ r.pending.length ∧
      (e = none ∨ e = some Error.read) :=
  skipSBSequenceLoop_total _ r (Nat.lt_succ_self _)

theorem skipSBSequence_sim {r1 r2 : Reader} {e : Option Error} {r1' : Reader}
    (hp : r1.pending = r2.pending) (h : skipSBSequence r1 = some (e, r1')) :
    ∃ r2', skipSBSequence r2 = some (e, r2') ∧ r2'.pending = r1'.pending := by
  unfold skipSBSequence at h ⊢
  rw [← hp]
  exact skipSBSequenceLoop_sim _ r1 r2 e r1' hp h

theorem skipCommand_total (r : Reader) :
    ∃ e r', skipCommand r = some (e, r') ∧ r'.pending.length ≤ r.pending.length ∧
      (e = none ∨ e = some Error.read) := by
  obtain ⟨a, ha, hpa⟩ := Peek_spec 1 r
  obtain ⟨c, hc, hpc⟩ := Discard_spec 2 a
  have lc : c.pending.length = a.pending.length - 2 := by rw [hpc, List.length_drop]
  have la : a.pending.length = r.pending.length := by rw [hpa]
  simp only [skipCommand]
  rw [ha]
  by_cases hl1 : r.pending.length < 1
  · simp only [hl1, if_true]
    exact ⟨_, a, rfl, by omega, Or.inr rfl⟩
  · simp only [hl1, if_false]
    split_ifs with h1 h2
    · rw [hc]
      refine ⟨_, c, rfl, by omega, ?_⟩
      by_cases hl2 : a.pending.length < 2
      · simp [hl2]
      · simp [hl2]
    · obtain ⟨e, r', h3, h4, h5⟩ := skipSBSequence_total a
      exact ⟨e, r', h3, by omega, h5⟩
    · exact ⟨none, a, rfl, by omega, Or.inl rfl⟩

theorem skipCommand_sim {r1 r2 : Reader} {e : Option Error} {r1' : Reader}
    (hp : r1.pending = r2.pending) (h : skipCommand r1 = some (e, r1')) :
    ∃ r2', skipCommand r2 = some (e, r2') ∧ r2'.pending = r1'.pending := by
  obtain ⟨a1, ha1, hpa1⟩ := Peek_spec 1 r1
  obtain ⟨a2, ha2, hpa2⟩ := Peek_spec 1 r2
  obtain ⟨c1, hc1, hpc1⟩ := Discard_spec 2 a1
  obtain ⟨c2, hc2, hpc2⟩ := Discard_spec 2 a2
  have e1 : a1.pending = a2.pending := by rw [hpa1, hpa2, hp]
  have e3 : c1.pending = c2.pending := by rw [hpc1, hpc2, e1]
  rw [hp] at ha1; rw [e1] at hc1
  simp only [skipCommand] at h ⊢
  rw [ha1] at h; rw [ha2]
  by_cases hl1 : r2.pending.length < 1
  · simp only [hl1, if_true, Option.some.injEq, Prod.mk.injEq] at h ⊢
    exact ⟨a2, ⟨h.1, rfl⟩, by rw [← h.2, e1]⟩
  · simp only [hl1, if_false] at h ⊢
    split_ifs at h ⊢ with h1 h2
    · rw [hc1] at h; rw [hc2]
      simp only [Option.some.injEq, Prod.mk.injEq] at h ⊢
      exact ⟨c2, ⟨h.1, rfl⟩, by rw [← h.2, e3]⟩
    · exact skipSBSequence_sim e1 h
    · simp only [Option.some.injEq, Prod.mk.injEq] at h ⊢
      exact ⟨a2, ⟨h.1, rfl⟩, by rw [← h.2, e1]⟩

theorem ReadByteLoop_sim (n : Nat) : ∀ (r1 r2 : Reader) (x : Nat × Option Error) (r1' : Reader),
    r1.pending = r2.pending → ReadByteLoop n r1 = some (x, r1') →
    ∃ r2', ReadByteLoop n r2 = some (x, r2') ∧ r2'.pending = r1'.pending := by
  induction n with
  | zero => intro r1 r2 x r1' _ h; simp [ReadByteLoop] at h
  | succ n ih =>
    intro r1 r2 x r1' hp h
    cases hpend : r2.pending with
    | nil =>
      have h1 := bufio_ReadByte_nil (hp.trans hpend)
      have h2 := bufio_ReadByte_nil hpend
      simp only [ReadByteLoop, h1, Option.some.injEq, Prod.mk.injEq] at h
      simp only [ReadByteLoop, h2, Option.some.injEq, Prod.mk.injEq]
      exact ⟨r2, ⟨h.1, rfl⟩, by rw [← h.2, hp]⟩
    | cons b t =>
      obtain ⟨a1, ha1, hpa1⟩ := bufio_ReadByte_cons (hp.trans hpend)
      obtain ⟨a2, ha2, hpa2⟩ := bufio_ReadByte_cons hpend
      have e1 : a1.pending = a2.pending := by rw [hpa1, hpa2]
      simp only [ReadByteLoop, ha1] at h
      simp only [ReadByteLoop, ha2]
      by_cases hb : b = IAC
      · simp only [hb, ne_eq, not_true_eq_false, if_false] at h ⊢
        cases hs : skipCommand a1 with
        | none => rw [hs] at h; simp at h
        | some y =>
          obtain ⟨e, a1'⟩ := y
          obtain ⟨a2', hs2, hpa2'⟩ := skipCommand_sim e1 hs
          rw [hs] at h; rw [hs2]
          cases e with
          | some err =>
            simp only [Option.some.injEq, Prod.mk.injEq] at h ⊢
            exact ⟨a2', ⟨h.1, rfl⟩, by rw [← h.2, hpa2']⟩
          | none =>
            simp only at h ⊢
            exact ih a1' a2' x r1' hpa2'.symm h
      · simp only [ne_eq, hb, not_false_eq_true, if_true, Option.some.injEq, Prod.mk.injEq] at h ⊢
        exact ⟨a2, ⟨h.1, rfl⟩, by rw [← h.2, e1]⟩

theorem ReadByteLoop_total (n : Nat) : ∀ r : Reader, r.pending.length < n →
    ∃ b e r', ReadByteLoop n r = some ((b, e), r') ∧
      r'.pending.length ≤ r.pending.length ∧
      (e = none → r'.pending.length < r.pending.length ∧ b ≠ IAC) ∧
      (e = none ∨ e = some Error.read) := by
  induction n with
  | zero => intro r h; omega
  | succ n ih =>
    intro r hlen
    cases hpend : r.pending with
    | nil =>
      have h1 := bufio_ReadByte_nil hpend
      simp only [ReadByteLoop, h1]
      exact ⟨0, _, r, rfl, by rw [hpend], (fun h => by cases h), Or.inr rfl⟩
    | cons b t =>
      obtain ⟨a, ha, hpa⟩ := bufio_ReadByte_cons hpend
      have la : a.pending.length = t.length := by rw [hpa]
      simp only [List.length_cons]
      simp only [ReadByteLoop, ha]
      by_cases hb : b = IAC
      · simp only [hb, ne_eq, not_true_eq_false, if_false]
        obtain ⟨e, a', hs, hl, he⟩ := skipCommand_total a
        rw [hs]
        cases e with
        | some err =>
          exact ⟨_, _, a', rfl, by omega, (fun h => by cases h), he⟩
        | none =>
          simp only
          rw [hpend, List.length_cons] at hlen
          obtain ⟨b', e', r', h1, h2, h3, h4⟩ := ih a' (by omega)
          exact ⟨b', e', r', h1, by omega, fun h => ⟨by have := (h3 h).1; omega, (h3 h).2⟩, h4⟩
      · simp only [ne_eq, hb, not_false_eq_true, if_true]
        exact ⟨b, none, a, rfl, by omega, fun _ => ⟨by omega, hb⟩, Or.inl rfl⟩

theorem ReadByteLoop_fuel (n : Nat) : ∀ (m : Nat) (r : Reader),
    r.pending.length < n → r.pending.length < m → ReadByteLoop n r = ReadByteLoop m r := by
  induction n with
  | zero => intro m r h; omega
  | succ n ih =>
    intro m r hn hm
    cases m with
    | zero => omega
    | succ m =>
      cases hpend : r.pending with
      | nil =>
        have h1 := bufio_ReadByte_nil hpend
        simp only [ReadByteLoop, h1]
      | cons b t =>
        obtain ⟨a, ha, hpa⟩ := bufio_ReadByte_cons hpend
        have la : a.pending.length = t.length := by rw [hpa]
        rw [hpend, List.length_cons] at hn hm
        simp only [ReadByteLoop, ha]
        by_cases hb : b = IAC
        · simp only [hb, ne_eq, not_true_eq_false, if_false]
          obtain ⟨e, a', hs, hl, he⟩ := skipCommand_total a
          rw [hs]
          cases e with
          | some err => rfl
          | none => exact ih m a' (by omega) (by omega)
        · simp only [ne_eq, hb, not_false_eq_true, if_true]

theorem ReadByte_total (r : Reader) :
    ∃ b e r', ReadByte r = some ((b, e), r') ∧
      r'.pending.length ≤ r.pending.length ∧
      (e = none → r'.pending.length < r.pending.length ∧ b ≠ IAC) ∧
      (e = none ∨ e = some Error.read) :=
  ReadByteLoop_total _ r (Nat.lt_succ_self _)

theorem ReadByte_sim {r1 r2 : Reader} {x : Nat × Option Error} {r1' : Reader}
    (hp : r1.pending = r2.pending) (h : ReadByte r1 = some (x, r1')) :
    ∃ r2', ReadByte r2 = some (x, r2') ∧ r2'.pending = r1'.pending := by
  unfold ReadByte at h ⊢
  rw [← hp]
  exact ReadByteLoop_sim _ r1 r2 x r1' hp h



/-! ## Control-sequence interpreter: what a call does on a given input -/

theorem hasPair_cons_cons {a b x y : Nat} {t : List Nat} :
    hasPair a b (x :: y :: t) = ((x == a && y == b) || hasPair a b (y :: t)) := by
  simp [hasPair]

theorem skipSBSequenceLoop_closed (body : List Nat) : ∀ (n x : Nat) (post : List Nat) (r : Reader),
    r.pending = x :: (body ++ IAC :: SE :: post) → hasPair IAC SE body = false →
    body.length < n →
    ∃ r', skipSBSequenceLoop n r = some (none, r') ∧ r'.pending = post := by
  induction body with
  | nil =>
    intro n x post r hp _ hn
    obtain ⟨a, ha, hpa⟩ := Discard_spec 1 r
    obtain ⟨b, hb, hpb⟩ := Peek_spec 2 a
    obtain ⟨c, hc, hpc⟩ := Discard_spec 2 b
    rw [hp] at ha hpa
    simp only [List.nil_append, List.drop_succ_cons, List.drop_zero] at hpa
    rw [hpa] at hb hpb; rw [hpb] at hc hpc
    cases n with
    | zero => simp at hn
    | succ n =>
      simp only [skipSBSequenceLoop]
      rw [ha]
      simp only [List.nil_append, List.length_cons, Nat.lt_one_iff, Nat.add_one_ne_zero, if_false]
      rw [hb]
      have h2 : ¬ (post.length + 1 + 1 < 2) := by omega
      simp only [List.length_cons, h2, if_false, List.take_succ_cons, List.take_zero,
        List.getD_cons_zero, List.getD_cons_succ, and_self, if_true]
      rw [hc]
      simp only [List.length_cons, h2, if_false]
      exact ⟨c, rfl, by simpa using hpc⟩
  | cons y body ih =>
    intro n x post r hp hno hn
    obtain ⟨a, ha, hpa⟩ := Discard_spec 1 r
    obtain ⟨b, hb, hpb⟩ := Peek_spec 2 a
    rw [hp] at ha hpa
    simp only [List.drop_succ_cons, List.drop_zero] at hpa
    rw [hpa] at hb hpb
    cases n with
    | zero => simp at hn
    | succ n =>
      simp only [List.length_cons, Nat.add_lt_add_iff_right] at hn
      simp only [skipSBSequenceLoop]
      rw [ha]
      simp only [List.length_cons, Nat.lt_one_iff, Nat.add_one_ne_zero, if_false]
      rw [hb]
      have h2 : ¬ ((y :: body ++ IAC :: SE :: post).length < 2) := by
        simp only [List.cons_append, List.length_cons, List.length_append]; omega
      simp only [h2, if_false]
      have hno2 : hasPair IAC SE body = false := by
        simp only [hasPair, Bool.or_eq_false_iff] at hno; exact hno.2
      have hne : ¬ ((List.take 2 (y :: body ++ IAC :: SE :: post)).getD 0 0 = IAC ∧
          (List.take 2 (y :: body ++ IAC :: SE :: post)).getD 1 0 = SE) := by
        cases body with
        | nil => simp [IAC, SE]
        | cons z body2 =>
          rw [hasPair_cons_cons] at hno
          simp only [Bool.or_eq_false_iff, Bool.and_eq_false_iff, beq_eq_false_iff_ne, ne_eq] at hno
          simp only [List.cons_append, List.take_succ_cons, List.take_zero, List.getD_cons_zero,
            List.getD_cons_succ, not_and]
          intro h1 h3
          rcases hno.1 with h | h
          · exact h h1
          · exact h h3
      simp only [hne, if_false]
      exact ih n y post b hpb hno2 hn

theorem skipSBSequenceLoop_open (rest : List Nat) : ∀ (n x : Nat) (r : Reader),
    r.pending = x :: rest → hasPair IAC SE rest = false → rest.length < n →
    ∃ r', skipSBSequenceLoop n r = some (some Error.read, r') ∧ r'.pending.length ≤ 1 ∧
      r'.pending = rest.drop (rest.length - 1) := by
  induction rest with
  | nil =>
    intro n x r hp _ hn
    obtain ⟨a, ha, hpa⟩ := Discard_spec 1 r
    obtain ⟨b, hb, hpb⟩ := Peek_spec 2 a
    rw [hp] at ha hpa
    simp only [List.drop_succ_cons, List.drop_zero] at hpa
    rw [hpa] at hb hpb
    cases n with
    | zero => simp at hn
    | succ n =>
      simp only [skipSBSequenceLoop]
      rw [ha]
      simp only [List.length_cons, Nat.lt_one_iff, Nat.add_one_ne_zero, if_false]
      rw [hb]
      simp only [List.length_nil, Nat.ofNat_pos, if_true]
      exact ⟨b, rfl, by simp [hpb], by simp [hpb]⟩
  | cons y rest ih =>
    intro n x r hp hno hn
    obtain ⟨a, ha, hpa⟩ := Discard_spec 1 r
    obtain ⟨b, hb, hpb⟩ := Peek_spec 2 a
    rw [hp] at ha hpa
    simp only [List.drop_succ_cons, List.drop_zero] at hpa
    rw [hpa] at hb hpb
    cases n with
    | zero => simp at hn
    | succ n =>
      simp only [List.length_cons, Nat.add_lt_add_iff_right] at hn
      simp only [skipSBSequenceLoop]
      rw [ha]
      simp only [List.length_cons, Nat.lt_one_iff, Nat.add_one_ne_zero, if_false]
      rw [hb]
      cases rest with
      | nil =>
        simp only [List.length_cons, List.length_nil, Nat.zero_add, Nat.one_lt_ofNat, if_true]
        exact ⟨b, rfl, by simp [hpb], by simp [hpb]⟩
      | cons z rest2 =>
        have h2 : ¬ ((y :: z :: rest2).length < 2) := by
          simp only [List.length_cons]; omega
        simp only [h2, if_false]
        rw [hasPair_cons_cons] at hno
        simp only [Bool.or_eq_false_iff, Bool.and_eq_false_iff, beq_eq_false_iff_ne, ne_eq] at hno
        have hne : ¬ ((List.take 2 (y :: z :: rest2)).getD 0 0 = IAC ∧
            (List.take 2 (y :: z :: rest2)).getD 1 0 = SE) := by
          simp only [List.take_succ_cons, List.take_zero, List.getD_cons_zero,
            List.getD_cons_succ, not_and]
          intro h1 h3
          rcases hno.1 with h | h
          · exact h h1
          · exact h h3
        simp only [hne, if_false]
        obtain ⟨r', h1, h3, h4⟩ := ih n y b hpb hno.2 hn
        refine ⟨r', h1, h3, ?_⟩
        rw [h4]
        simp only [List.length_cons, Nat.add_sub_cancel]
        rw [show rest2.length + 1 = (rest2.length) + 1 from rfl, List.drop_succ_cons]



theorem skipCommand_verb {r : Reader} {v o : Nat} {t : List Nat}
    (hp : r.pending = v :: o :: t) (hv : v = WILL ∨ v = WONT ∨ v = DO ∨ v = DONT) :
    ∃ r', skipCommand r = some (none, r') ∧ r'.pending = t := by
  obtain ⟨a, ha, hpa⟩ := Peek_spec 1 r
  obtain ⟨c, hc, hpc⟩ := Discard_spec 2 a
  rw [hp] at ha hpa; rw [hpa] at hc hpc
  simp only [skipCommand]
  rw [ha]
  simp only [List.length_cons, Nat.lt_one_iff, Nat.add_one_ne_zero, if_false,
    List.take_succ_cons, List.take_zero, List.getD_cons_zero, hv, if_true]
  rw [hc]
  have h2 : ¬ (t.length + 1 + 1 < 2) := by omega
  simp only [List.length_cons, h2, if_false]
  exact ⟨c, rfl, by simpa using hpc⟩

theorem skipCommand_other {r : Reader} {c : Nat} {t : List Nat}
    (hp : r.pending = c :: t)
    (hc : c ≠ WILL ∧ c ≠ WONT ∧ c ≠ DO ∧ c ≠ DONT ∧ c ≠ SB) :
    ∃ r', skipCommand r = some (none, r') ∧ r'.pending = c :: t := by
  obtain ⟨a, ha, hpa⟩ := Peek_spec 1 r
  rw [hp] at ha hpa
  simp only [skipCommand]
  rw [ha]
  simp only [List.length_cons, Nat.lt_one_iff, Nat.add_one_ne_zero, if_false,
    List.take_succ_cons, List.take_zero, List.getD_cons_zero, hc.1, hc.2.1, hc.2.2.1,
    hc.2.2.2.1, hc.2.2.2.2, or_self]
  exact ⟨a, rfl, hpa⟩

theorem skipCommand_nil {r : Reader} (hp : r.pending = []) :
    ∃ r', skipCommand r = some (some Error.read, r') ∧ r'.pending = [] := by
  obtain ⟨a, ha, hpa⟩ := Peek_spec 1 r
  rw [hp] at ha hpa
  simp only [skipCommand]
  rw [ha]
  simp only [List.length_nil, Nat.lt_one_iff, if_true]
  exact ⟨a, rfl, hpa⟩

theorem skipCommand_SB {r : Reader} {t : List Nat} (hp : r.pending = SB :: t) :
    ∃ a, a.pending = SB :: t ∧ skipCommand r = skipSBSequence a := by
  obtain ⟨a, ha, hpa⟩ := Peek_spec 1 r
  rw [hp] at ha hpa
  refine ⟨a, hpa, ?_⟩
  simp only [skipCommand]
  rw [ha]
  simp [SB, WILL, WONT, DO, DONT]

theorem skipCommand_closed {r : Reader} {body post : List Nat}
    (hp : r.pending = SB :: (body ++ IAC :: SE :: post)) (hno : hasPair IAC SE body = false) :
    ∃ r', skipCommand r = some (none, r') ∧ r'.pending = post := by
  obtain ⟨a, hpa, ha⟩ := skipCommand_SB hp
  rw [ha]
  unfold skipSBSequence
  refine skipSBSequenceLoop_closed body _ SB post a hpa hno ?_
  rw [hpa]
  simp only [List.length_cons, List.length_append]
  omega

theorem skipCommand_open {r : Reader} {rest : List Nat}
    (hp : r.pending = SB :: rest) (hno : hasPair IAC SE rest = false) :
    ∃ r', skipCommand r = some (some Error.read, r') ∧ r'.pending.length ≤ 1 ∧
      r'.pending = rest.drop (rest.length - 1) := by
  obtain ⟨a, hpa, ha⟩ := skipCommand_SB hp
  rw [ha]
  unfold skipSBSequence
  refine skipSBSequenceLoop_open rest _ SB a hpa hno ?_
  rw [hpa]
  simp only [List.length_cons]
  omega

theorem ReadByte_nil {r : Reader} (hp : r.pending = []) :
    ReadByte r = some ((0, some Error.read), r) := by
  simp only [ReadByte, ReadByteLoop, Reader.bufio_ReadByte_nil hp]

theorem ReadByte_data {r : Reader} {b : Nat} {t : List Nat}
    (hp : r.pending = b :: t) (hb : b ≠ IAC) :
    ∃ r', ReadByte r = some ((b, none), r') ∧ r'.pending = t := by
  obtain ⟨a, ha, hpa⟩ := Reader.bufio_ReadByte_cons hp
  refine ⟨a, ?_, hpa⟩
  simp only [ReadByte, ReadByteLoop, ha, ne_eq, hb, not_false_eq_true, if_true]

theorem ReadByte_IAC {r : Reader} {t : List Nat} (hp : r.pending = IAC :: t) :
    ∃ a, a.pending = t ∧
      ReadByte r =
        (match skipCommand a with
          | none => none
          | some (some e, r2) => some ((IAC, some e), r2)
          | some (none, r2) => ReadByte r2) := by
  obtain ⟨a, ha, hpa⟩ := Reader.bufio_ReadByte_cons hp
  refine ⟨a, hpa, ?_⟩
  have hunf : ReadByte r = ReadByteLoop (r.pending.length + 1) r := rfl
  rw [hunf]
  simp only [ReadByteLoop, ha, ne_eq, not_true_eq_false, if_false]
  obtain ⟨e, a', hs, hl, _⟩ := skipCommand_total a
  rw [hs]
  cases e with
  | some err => rfl
  | none =>
    simp only
    unfold ReadByte
    apply ReadByteLoop_fuel
    · rw [hp, List.length_cons]; rw [hpa] at hl; omega
    · omega

theorem ReadByte_skip {r : Reader} {t : List Nat} (t2 : List Nat) (hp : r.pending = IAC :: t)
    (h : ∀ a : Reader, a.pending = t → ∃ r', skipCommand a = some (none, r') ∧
      r'.pending = t2) :
    ∃ r', r'.pending = t2 ∧ ReadByte r = ReadByte r' := by
  obtain ⟨a, hpa, ha⟩ := ReadByte_IAC hp
  obtain ⟨r', hs, hp'⟩ := h a hpa
  rw [hs] at ha
  exact ⟨r', hp', ha⟩



/-! ## The clean-byte sequence -/

theorem readAllLoop_fuel (n : Nat) : ∀ (m : Nat) (r : Reader),
    r.pending.length < n → r.pending.length < m → readAllLoop n r = readAllLoop m r := by
  induction n with
  | zero => intro m r h; omega
  | succ n ih =>
    intro m r hn hm
    cases m with
    | zero => omega
    | succ m =>
      obtain ⟨b, e, r', h1, h2, h3, _⟩ := ReadByte_total r
      simp only [readAllLoop, h1]
      cases e with
      | some err => rfl
      | none =>
        have := (h3 rfl).1
        simp only
        rw [ih m r' (by omega) (by omega)]

theorem readAll_unfold (r : Reader) :
    readAll r =
      (match ReadByte r with
        | none => none
        | some ((_, some _), r1) => some ([], r1)
        | some ((b, none), r1) =>
          match readAll r1 with
          | none => none
          | some (bs, r2) => some (b :: bs, r2)) := by
  have hunf : readAll r = readAllLoop (r.pending.length + 1) r := rfl
  rw [hunf]
  obtain ⟨b, e, r', h1, h2, h3, _⟩ := ReadByte_total r
  simp only [readAllLoop, h1]
  cases e with
  | some err => rfl
  | none =>
    have := (h3 rfl).1
    simp only
    unfold readAll
    rw [readAllLoop_fuel r.pending.length (r'.pending.length + 1) r' (by omega) (by omega)]

theorem readAll_total_aux (n : Nat) : ∀ r : Reader, r.pending.length < n →
    ∃ cs r', readAll r = some (cs, r') ∧ cs.length ≤ r.pending.length ∧
      r'.pending.length ≤ r.pending.length := by
  induction n with
  | zero => intro r h; omega
  | succ n ih =>
    intro r hn
    obtain ⟨b, e, r1, h1, h2, h3, _⟩ := ReadByte_total r
    rw [readAll_unfold, h1]
    cases e with
    | some err => exact ⟨[], r1, rfl, Nat.zero_le _, h2⟩
    | none =>
      have := (h3 rfl).1
      obtain ⟨cs, r', h4, h5, h6⟩ := ih r1 (by omega)
      simp only [h4]
      exact ⟨b :: cs, r', rfl, by simp only [List.length_cons]; omega, by omega⟩

theorem readAll_total (r : Reader) :
    ∃ cs r', readAll r = some (cs, r') ∧ cs.length ≤ r.pending.length ∧
      r'.pending.length ≤ r.pending.length :=
  readAll_total_aux _ r (Nat.lt_succ_self _)

theorem readAll_cons_inv {r re : Reader} {c : Nat} {cs : List Nat}
    (h : readAll r = some (c :: cs, re)) :
    ∃ r1, ReadByte r = some ((c, none), r1) ∧ readAll r1 = some (cs, re) := by
  obtain ⟨b, e, r1, h1, _, _, _⟩ := ReadByte_total r
  rw [readAll_unfold, h1] at h
  cases e with
  | some err => simp at h
  | none =>
    obtain ⟨cs', r', h4, _, _⟩ := readAll_total r1
    simp only [h4, Option.some.injEq, Prod.mk.injEq, List.cons.injEq] at h
    obtain ⟨⟨hb, hcs⟩, hr⟩ := h
    subst hb; subst hcs; subst hr
    exact ⟨r1, h1, h4⟩

theorem readAll_nil_inv {r re : Reader} (h : readAll r = some ([], re)) :
    ∃ b, ReadByte r = some ((b, some Error.read), re) := by
  obtain ⟨b, e, r1, h1, _, _, he⟩ := ReadByte_total r
  rw [readAll_unfold, h1] at h
  cases e with
  | some err =>
    simp only [Option.some.injEq, Prod.mk.injEq, true_and] at h
    subst h
    rcases he with he | he
    · cases he
    · simp only [Option.some.injEq] at he
      subst he
      exact ⟨b, h1⟩
  | none =>
    obtain ⟨cs', r', h4, _, _⟩ := readAll_total r1
    simp [h4] at h

theorem readAll_of_ReadByte_eq {r1 r2 : Reader} (h : ReadByte r1 = ReadByte r2) :
    readAll r1 = readAll r2 := by
  rw [readAll_unfold r1, readAll_unfold r2, h]

theorem readAll_sim_aux (cs : List Nat) : ∀ (r1 r2 r1' : Reader),
    r1.pending = r2.pending → readAll r1 = some (cs, r1') →
    ∃ r2', readAll r2 = some (cs, r2') ∧ r2'.pending = r1'.pending := by
  induction cs with
  | nil =>
    intro r1 r2 r1' hp h
    obtain ⟨b, hb⟩ := readAll_nil_inv h
    obtain ⟨r2', h2, hp2⟩ := ReadByte_sim hp hb
    exact ⟨r2', by rw [readAll_unfold, h2], hp2⟩
  | cons c cs ih =>
    intro r1 r2 r1' hp h
    obtain ⟨a1, hb, hrest⟩ := readAll_cons_inv h
    obtain ⟨a2, h2, hp2⟩ := ReadByte_sim hp hb
    obtain ⟨r2', h3, hp3⟩ := ih a1 a2 r1' hp2.symm hrest
    exact ⟨r2', by rw [readAll_unfold, h2]; simp only [h3], hp3⟩

theorem readAll_data (l : List Nat) : ∀ r : Reader, r.pending = l → IAC ∉ l →
    ∃ r', readAll r = some (l, r') ∧ r'.pending = [] := by
  induction l with
  | nil =>
    intro r hp _
    exact ⟨r, by rw [readAll_unfold, ReadByte_nil hp], hp⟩
  | cons b t ih =>
    intro r hp hno
    simp only [List.mem_cons, not_or] at hno
    obtain ⟨r1, h1, hp1⟩ := ReadByte_data hp (Ne.symm hno.1)
    obtain ⟨r', h2, hp2⟩ := ih r1 hp1 hno.2
    exact ⟨r', by rw [readAll_unfold, h1]; simp only [h2], hp2⟩

theorem readAll_append (pre : List Nat) : ∀ (r : Reader) (rest : List Nat),
    r.pending = pre ++ rest → IAC ∉ pre →
    ∃ r1, r1.pending = rest ∧
      readAll r = (readAll r1).map (fun x => (pre ++ x.1, x.2)) := by
  induction pre with
  | nil =>
    intro r rest hp _
    refine ⟨r, by simpa using hp, ?_⟩
    cases h : readAll r with
    | none => rfl
    | some x => simp
  | cons b t ih =>
    intro r rest hp hno
    simp only [List.mem_cons, not_or] at hno
    obtain ⟨r1, h1, hp1⟩ := ReadByte_data (by simpa using hp) (Ne.symm hno.1)
    obtain ⟨r2, hp2, h2⟩ := ih r1 rest hp1 hno.2
    refine ⟨r2, hp2, ?_⟩
    rw [readAll_unfold, h1]
    simp only [h2]
    cases h : readAll r2 with
    | none => rfl
    | some x => simp



/-! ## Delimited reader -/

theorem ReadUntilLoop_found (d : Nat) (pre : List Nat) :
    ∀ (fuel b : Nat) (data : List Nat) (n : Nat) (r : Reader) (post : List Nat) (re : Reader),
    readAll r = some (pre ++ d :: post, re) → d ∉ pre → b ≠ d → pre.length + 1 < fuel →
    ∃ r', ReadUntilLoop d fuel b data n r
        = some ((n + pre.length + 1, none), data ++ pre ++ [d], r') ∧
      readAll r' = some (post, re) := by
  induction pre with
  | nil =>
    intro fuel b data n r post re h _ hb hf
    obtain ⟨r1, h1, h2⟩ := readAll_cons_inv (by simpa using h)
    obtain ⟨f1, rfl⟩ : ∃ f1, fuel = f1 + 2 := ⟨fuel - 2, by simp at hf; omega⟩
    refine ⟨r1, ?_, h2⟩
    simp [ReadUntilLoop, hb, h1]
  | cons c pre ih =>
    intro fuel b data n r post re h hno hb hf
    simp only [List.mem_cons, not_or] at hno
    obtain ⟨r1, h1, h2⟩ := readAll_cons_inv (by simpa using h)
    obtain ⟨f1, rfl⟩ : ∃ f1, fuel = f1 + 1 := ⟨fuel - 1, by omega⟩
    simp only [List.length_cons] at hf
    obtain ⟨r', h3, h4⟩ := ih f1 c (data ++ [c]) (n + 1) r1 post re h2 hno.2
      (Ne.symm hno.1) (by omega)
    refine ⟨r', ?_, h4⟩
    simp only [ReadUntilLoop, hb, if_false, h1, h3, List.length_cons, List.append_assoc,
      List.singleton_append, List.cons_append]
    congr 3
    omega

theorem ReadUntilLoop_missing (d : Nat) (cs : List Nat) :
    ∀ (fuel b : Nat) (data : List Nat) (n : Nat) (r : Reader) (re : Reader),
    readAll r = some (cs, re) → d ∉ cs → b ≠ d → cs.length < fuel →
    ReadUntilLoop d fuel b data n r
      = some ((n + cs.length, some Error.read), data ++ cs, re) := by
  induction cs with
  | nil =>
    intro fuel b data n r re h _ hb hf
    obtain ⟨b0, h1⟩ := readAll_nil_inv h
    obtain ⟨f1, rfl⟩ : ∃ f1, fuel = f1 + 1 := ⟨fuel - 1, by simp at hf; omega⟩
    simp [ReadUntilLoop, hb, h1]
  | cons c cs ih =>
    intro fuel b data n r re h hno hb hf
    simp only [List.mem_cons, not_or] at hno
    obtain ⟨r1, h1, h2⟩ := readAll_cons_inv h
    obtain ⟨f1, rfl⟩ : ∃ f1, fuel = f1 + 1 := ⟨fuel - 1, by omega⟩
    simp only [List.length_cons] at hf
    have h3 := ih f1 c (data ++ [c]) (n + 1) r1 re h2 hno.2 (Ne.symm hno.1) (by omega)
    simp only [ReadUntilLoop, hb, if_false, h1, h3, List.length_cons, List.append_assoc,
      List.singleton_append]
    congr 3
    omega

theorem readAll_length_le {r re : Reader} {cs : List Nat} (h : readAll r = some (cs, re)) :
    cs.length ≤ r.pending.length := by
  obtain ⟨cs', r', h1, h2, _⟩ := readAll_total r
  rw [h] at h1
  simp only [Option.some.injEq, Prod.mk.injEq] at h1
  rw [h1.1]; exact h2

theorem ReadUntil_found {d : Nat} (hd : d ≠ 0) {r re : Reader} {pre post : List Nat}
    (data : List Nat) (h : readAll r = some (pre ++ d :: post, re)) (hno : d ∉ pre) :
    ∃ r', ReadUntil data d r = some ((pre.length + 1, none), data ++ pre ++ [d], r') ∧
      readAll r' = some (post, re) := by
  have hl := readAll_length_le h
  simp only [List.length_append, List.length_cons] at hl
  obtain ⟨r', h1, h2⟩ := ReadUntilLoop_found d pre (r.pending.length + 2) 0 data 0 r post re h hno
    (Ne.symm hd) (by omega)
  refine ⟨r', ?_, h2⟩
  unfold ReadUntil
  rw [h1]
  simp

theorem ReadUntil_missing {d : Nat} (hd : d ≠ 0) {r re : Reader} {cs : List Nat}
    (data : List Nat) (h : readAll r = some (cs, re)) (hno : d ∉ cs) :
    ReadUntil data d r = some ((cs.length, some Error.read), data ++ cs, re) := by
  have hl := readAll_length_le h
  have h1 := ReadUntilLoop_missing d cs (r.pending.length + 2) 0 data 0 r re h hno
    (Ne.symm hd) (by omega)
  unfold ReadUntil
  rw [h1]
  simp

theorem ReadUntil_zero (data : List Nat) (r : Reader) :
    ReadUntil data 0 r = some ((0, none), data, r) := by
  simp [ReadUntil, ReadUntilLoop]

theorem ReadUntilLoop_sim (d : Nat) (fuel : Nat) :
    ∀ (b : Nat) (data : List Nat) (n : Nat) (r1 r2 : Reader) (res : Nat × Option Error)
      (data' : List Nat) (r1' : Reader),
    r1.pending = r2.pending → ReadUntilLoop d fuel b data n r1 = some (res, data', r1') →
    ∃ r2', ReadUntilLoop d fuel b data n r2 = some (res, data', r2') ∧
      r2'.pending = r1'.pending := by
  induction fuel with
  | zero => intro b data n r1 r2 res data' r1' _ h; simp [ReadUntilLoop] at h
  | succ fuel ih =>
    intro b data n r1 r2 res data' r1' hp h
    by_cases hb : b = d
    · simp only [ReadUntilLoop, hb, if_true, Option.some.injEq, Prod.mk.injEq] at h ⊢
      exact ⟨r2, ⟨h.1, h.2.1, rfl⟩, by rw [← h.2.2, hp]⟩
    · simp only [ReadUntilLoop, hb, if_false] at h ⊢
      obtain ⟨b1, e, a1, h1, _, _, _⟩ := ReadByte_total r1
      obtain ⟨a2, h2, hp2⟩ := ReadByte_sim hp h1
      rw [h1] at h; rw [h2]
      cases e with
      | some err =>
        simp only [Option.some.injEq, Prod.mk.injEq] at h ⊢
        exact ⟨a2, ⟨h.1, h.2.1, rfl⟩, by rw [← h.2.2, hp2]⟩
      | none =>
        simp only at h ⊢
        exact ih b1 (data ++ [b1]) (n + 1) a1 a2 res data' r1' hp2.symm h

theorem ReadUntil_sim {d : Nat} {data : List Nat} {r1 r2 : Reader} {res : Nat × Option Error}
    {data' : List Nat} {r1' : Reader}
    (hp : r1.pending = r2.pending) (h : ReadUntil data d r1 = some (res, data', r1')) :
    ∃ r2', ReadUntil data d r2 = some (res, data', r2') ∧ r2'.pending = r1'.pending := by
  unfold ReadUntil at h ⊢
  rw [← hp]
  exact ReadUntilLoop_sim d _ 0 data 0 r1 r2 res data' r1' hp h



theorem readCalls_of_readAll (cs : List Nat) : ∀ (r re : Reader),
    readAll r = some (cs, re) →
    ∃ b, readCalls (cs.length + 1) r
      = some (cs.map (fun c => (c, none)) ++ [(b, some Error.read)]) := by
  induction cs with
  | nil =>
    intro r re h
    obtain ⟨b, hb⟩ := readAll_nil_inv h
    exact ⟨b, by simp [readCalls, hb]⟩
  | cons c cs ih =>
    intro r re h
    obtain ⟨r1, h1, h2⟩ := readAll_cons_inv h
    obtain ⟨b, hb⟩ := ih r1 re h2
    refine ⟨b, ?_⟩
    simp only [List.length_cons] at hb ⊢
    rw [readCalls, h1]
    simp only [hb, List.map_cons, List.cons_append]

theorem readAll_open (r : Reader) (pre rest : List Nat)
    (hp : r.pending = pre ++ IAC :: SB :: rest) (hpre : IAC ∉ pre)
    (hno : hasPair IAC SE rest = false) :
    ∃ re, readAll r = some (pre, re) ∧ re.pending = rest.drop (rest.length - 1) := by
  obtain ⟨r1, hp1, h1⟩ := readAll_append pre r _ hp hpre
  obtain ⟨a, hpa, ha⟩ := ReadByte_IAC hp1
  obtain ⟨r', hs, _, hp'⟩ := skipCommand_open hpa hno
  rw [hs] at ha
  refine ⟨r', ?_, hp'⟩
  rw [h1, readAll_unfold r1, ha]
  simp

/-! ## Claims on the control-sequence interpreter -/

/-- C1: on an input `pre ++ [255, v, o] ++ post` with `v` one of 251..254 and no
byte 255 in `pre` and `post`, reading with `ReadByte` until the first failure
returns exactly the bytes of `pre ++ post`, and the input is then used up. -/
theorem C1_negotiation_removed (pre post : List Nat) (v o : Nat) (r : Reader)
    (hv : v = 251 ∨ v = 252 ∨ v = 253 ∨ v = 254)
    (hpre : 255 ∉ pre) (hpost : 255 ∉ post)
    (hin : r.pending = pre ++ [255, v, o] ++ post) :
    ∃ re, readAll r = some (pre ++ post, re) ∧ re.pending = [] := by
  obtain ⟨r1, hp1, h1⟩ := readAll_append pre r ([255, v, o] ++ post)
    (by simpa using hin) hpre
  obtain ⟨r2, hp2, h2⟩ := ReadByte_skip post
    (show r1.pending = IAC :: (v :: o :: post) from hp1)
    (fun a ha => skipCommand_verb ha hv)
  obtain ⟨re, h5, h6⟩ := readAll_data post r2 hp2 hpost
  refine ⟨re, ?_, h6⟩
  rw [h1, readAll_of_ReadByte_eq h2, h5]
  simp

/-- Witness of C1: a DO command between two text bytes, delivered in two segments. -/
theorem C1_negotiation_removed_witness :
    ∃ re, readAll { buf := [], chunks := [⟨104, [255]⟩, ⟨253, [3, 105]⟩] }
      = some ([104] ++ [105], re) ∧ re.pending = [] :=
  C1_negotiation_removed [104] [105] 253 3 { buf := [], chunks := [⟨104, [255]⟩, ⟨253, [3, 105]⟩] }
    (by decide) (by decide) (by decide) (by decide)

/-- C2: on an input `pre ++ [255, 250] ++ body ++ [255, 240] ++ post`, where
`body` has no 255 immediately followed by 240 and `pre`, `post` have no 255,
reading with `ReadByte` until the first failure returns exactly `pre ++ post`,
and the input is then used up. -/
theorem C2_subnegotiation_removed (pre body post : List Nat) (r : Reader)
    (hpre : 255 ∉ pre) (hpost : 255 ∉ post) (hbody : hasPair 255 240 body = false)
    (hin : r.pending = pre ++ [255, 250] ++ body ++ [255, 240] ++ post) :
    ∃ re, readAll r = some (pre ++ post, re) ∧ re.pending = [] := by
  obtain ⟨r1, hp1, h1⟩ := readAll_append pre r ([255, 250] ++ body ++ [255, 240] ++ post)
    (by simpa using hin) hpre
  obtain ⟨r2, hp2, h2⟩ := ReadByte_skip post
    (show r1.pending = IAC :: (SB :: (body ++ IAC :: SE :: post)) by
      rw [hp1]; simp [IAC, SB, SE])
    (fun a ha => skipCommand_closed ha hbody)
  obtain ⟨re, h5, h6⟩ := readAll_data post r2 hp2 hpost
  refine ⟨re, ?_, h6⟩
  rw [h1, readAll_of_ReadByte_eq h2, h5]
  simp

/-- Witness of C2: a block whose body holds a lone 255 and a lone 240. -/
theorem C2_subnegotiation_removed_witness :
    ∃ re, readAll { buf := [], chunks := [⟨104, [255, 250, 240, 24]⟩, ⟨255, []⟩, ⟨255, [240, 105]⟩] }
      = some ([104] ++ [105], re) ∧ re.pending = [] :=
  C2_subnegotiation_removed [104] [240, 24, 255] [105]
    { buf := [], chunks := [⟨104, [255, 250, 240, 24]⟩, ⟨255, []⟩, ⟨255, [240, 105]⟩] }
    (by decide) (by decide) (by decide) (by decide)

/-- C3, as stated, fails: on the input `[255, 250, 1, 2]` (empty `pre`,
`rest = [1, 2]`) the first call of `ReadByte` fails, and the call after it
returns the byte 2 of `rest` as data; likewise a second `ReadUntil` appends it. -/
theorem C3_counterexample :
    readCalls 2 (Reader.ofBytes [255, 250, 1, 2]) = some [(255, some Error.read), (2, none)] ∧
      ReadUntil [] 32 (Reader.ofBytes [255, 250, 1, 2])
        = some ((0, some Error.read), [], Reader.ofBytes [2]) ∧
      ReadUntil [] 32 (Reader.ofBytes [2]) = some ((1, some Error.read), [2], Reader.ofBytes []) := by
  decide

/-- C3, amended: on an input `pre ++ [255, 250] ++ rest`, where `pre` has no 255
and `rest` has no 255 immediately followed by 240, the first `pre.length` calls
of `ReadByte` return the bytes of `pre` and the next call fails with the read
error; a call of `ReadUntil` on this input, for any delimiter and buffer,
appends only bytes of `pre`.  After the failure exactly the last byte of `rest`
is left unread (nothing when `rest` is empty); a call of `ReadByte` made then
returns that byte as data when it is not 255, and fails again when it is 255
or when `rest` is empty. -/
theorem C3_unterminated_subnegotiation (pre rest : List Nat) (r : Reader)
    (hpre : 255 ∉ pre) (hrest : hasPair 255 240 rest = false)
    (hin : r.pending = pre ++ [255, 250] ++ rest) :
    (∃ b, readCalls (pre.length + 1) r
        = some (pre.map (fun c => (c, none)) ++ [(b, some Error.read)])) ∧
      (∃ re, readAll r = some (pre, re) ∧ re.pending = rest.drop (rest.length - 1) ∧
        (∀ c, rest.getLast? = some c → c ≠ 255 →
          ∃ r2, ReadByte re = some ((c, none), r2) ∧ r2.pending = []) ∧
        (rest = [] ∨ rest.getLast? = some 255 →
          ∃ c r2, ReadByte re = some ((c, some Error.read), r2) ∧ r2.pending = [])) ∧
      (∀ (data : List Nat) (d : Nat), ∃ n e r',
        ReadUntil data d r = some ((n, e), data ++ pre.take n, r')) := by
  obtain ⟨re, h1, h2⟩ := readAll_open r pre rest
    (by rw [hin]; simp [IAC, SB]) hpre hrest
  have hlast : ∀ c, rest.getLast? = some c → re.pending = [c] := by
    intro c hc
    obtain ⟨ini, hini⟩ : ∃ ini, rest = ini ++ [c] := by
      rcases List.eq_nil_or_concat rest with hnil | ⟨ini, x, hx⟩
      · rw [hnil] at hc; cases hc
      · rw [hx, List.concat_eq_append, List.getLast?_append_of_ne_nil _ (by simp)] at hc
        simp only [List.getLast?_singleton, Option.some.injEq] at hc
        exact ⟨ini, by rw [hx, List.concat_eq_append, hc]⟩
    rw [h2, hini]
    simp
  refine ⟨readCalls_of_readAll pre r re h1, ⟨re, h1, h2, ?_, ?_⟩, ?_⟩
  · intro c hc hne
    exact ReadByte_data (hlast c hc) (by simpa [IAC] using hne)
  · rintro (hnil | h255)
    · have hp : re.pending = [] := by rw [h2, hnil]; rfl
      exact ⟨0, re, ReadByte_nil hp, hp⟩
    · obtain ⟨a, ha, hrb⟩ := ReadByte_IAC (hlast 255 h255)
      obtain ⟨r2, hs, hp2⟩ := skipCommand_nil ha
      rw [hs] at hrb
      exact ⟨IAC, r2, hrb, hp2⟩
  · intro data d
    by_cases hd : d = 0
    · subst hd
      exact ⟨0, none, r, by simp [ReadUntil_zero]⟩
    · by_cases hmem : d ∈ pre
      · obtain ⟨p1, p2, hsplit, hno⟩ := List.eq_append_cons_of_mem hmem
        rw [hsplit] at h1
        obtain ⟨r', h3, _⟩ := ReadUntil_found hd data h1 hno
        refine ⟨p1.length + 1, none, r', ?_⟩
        rw [h3, hsplit]
        simp [List.take_append_eq_append_take]
      · exact ⟨pre.length, some Error.read, re, by rw [ReadUntil_missing hd data h1 hmem]; simp⟩

/-- Witness of C3: one text byte, then a subnegotiation that is never closed;
its last byte 1 is returned by the call after the failure. -/
theorem C3_unterminated_subnegotiation_witness :
    (∃ b, readCalls ([104].length + 1) { buf := [104, 255], chunks := [⟨250, [24, 255]⟩, ⟨1, []⟩] }
        = some ([104].map (fun c => (c, none)) ++ [(b, some Error.read)])) ∧
      (∃ re, readAll { buf := [104, 255], chunks := [⟨250, [24, 255]⟩, ⟨1, []⟩] }
          = some ([104], re) ∧
        re.pending = [24, 255, 1].drop ([24, 255, 1].length - 1) ∧
        (∀ c, [24, 255, 1].getLast? = some c → c ≠ 255 →
          ∃ r2, ReadByte re = some ((c, none), r2) ∧ r2.pending = []) ∧
        (([24, 255, 1] : List Nat) = [] ∨ [24, 255, 1].getLast? = some 255 →
          ∃ c r2, ReadByte re = some ((c, some Error.read), r2) ∧ r2.pending = [])) ∧
      (∀ (data : List Nat) (d : Nat), ∃ n e r',
        ReadUntil data d { buf := [104, 255], chunks := [⟨250, [24, 255]⟩, ⟨1, []⟩] }
          = some ((n, e), data ++ [104].take n, r')) :=
  C3_unterminated_subnegotiation [104] [24, 255, 1]
    { buf := [104, 255], chunks := [⟨250, [24, 255]⟩, ⟨1, []⟩] }
    (by decide) (by decide) (by decide)

/-! ## Claims on the delimited reader -/

/-- C4, the code at delimiter 0: `var b byte` starts at 0, so `for b != delim`
is never entered; whatever the input holds, nothing is read or appended and
the call returns count 0 without error. -/
theorem C4_ReadUntil_delimiter_zero (data : List Nat) (r : Reader) :
    ReadUntil data 0 r = some ((0, none), data, r) :=
  ReadUntil_zero data r

/-- C5, the code at delimiter 0 on an input without a zero byte: the clean
bytes are `[65]`, the call returns no error and reads nothing. -/
theorem C5_ReadUntil_delimiter_zero_no_error :
    (readAll (Reader.ofBytes [65])).map Prod.fst = some [65] ∧
      ReadUntil [7] 0 (Reader.ofBytes [65]) = some ((0, none), [7], Reader.ofBytes [65]) := by
  decide


/-! ## Line boundaries -/

theorem findNewLinePosLoop_spec (data : List Nat) : ∀ i : Nat,
    (∀ k, i ≤ k → ¬ crlfAt data k) →
    (findNewLinePosLoop data i (data.getD i 0) = -1 ∧ ∀ k, ¬ crlfAt data k) ∨
      (∃ j : Nat, findNewLinePosLoop data i (data.getD i 0) = (j : Int) ∧ j < i ∧
        crlfAt data j ∧ ∀ k, j < k → ¬ crlfAt data k) := by
  intro i
  induction i with
  | zero =>
    intro h
    exact Or.inl ⟨rfl, fun k => h k (Nat.zero_le k)⟩
  | succ i ih =>
    intro h
    by_cases hc : data.getD (i + 1) 0 = 10 ∧ data.getD i 0 = 13
    · refine Or.inr ⟨i, ?_, Nat.lt_succ_self i, ⟨hc.2, hc.1⟩, fun k hk => h k hk⟩
      simp only [findNewLinePosLoop, hc, and_self, if_true]
    · have hstep : findNewLinePosLoop data (i + 1) (data.getD (i + 1) 0)
          = findNewLinePosLoop data i (data.getD i 0) := by
        simp only [findNewLinePosLoop, hc, if_false]
      rw [hstep]
      have h2 : ∀ k, i ≤ k → ¬ crlfAt data k := by
        intro k hk hcr
        rcases Nat.eq_or_lt_of_le hk with he | hl
        · subst he; exact hc ⟨hcr.2, hcr.1⟩
        · exact h k hl hcr
      rcases ih h2 with h3 | ⟨j, h3, h4, h5, h6⟩
      · exact Or.inl h3
      · exact Or.inr ⟨j, h3, Nat.lt_succ_of_lt h4, h5, h6⟩

theorem findNewLinePos_spec (data : List Nat) :
    (findNewLinePos data = -1 ∧ ∀ k, ¬ crlfAt data k) ∨
      (∃ j : Nat, findNewLinePos data = (j : Int) ∧ j + 2 ≤ data.length ∧
        crlfAt data j ∧ ∀ k, j < k → ¬ crlfAt data k) := by
  have hout : ∀ k, data.length ≤ k → ¬ crlfAt data k := by
    intro k hk hcr
    have := hcr.1
    rw [List.getD_eq_default _ _ hk] at this
    omega
  have h0 : data.getD data.length 0 = 0 := List.getD_eq_default _ _ (le_refl _)
  have hs := findNewLinePosLoop_spec data data.length hout
  rw [h0] at hs
  rcases hs with h | ⟨j, h1, h2, h3, h4⟩
  · exact Or.inl h
  · refine Or.inr ⟨j, h1, ?_, h3, h4⟩
    by_contra hlt
    have := h3.2
    rw [List.getD_eq_default _ _ (by omega)] at this
    omega

theorem crlfAt_cons_succ {x : Nat} {t : List Nat} {k : Nat} :
    crlfAt (x :: t) (k + 1) ↔ crlfAt t k := by
  simp [crlfAt]

theorem hasPair_iff_crlfAt (l : List Nat) : hasPair 13 10 l = true ↔ ∃ k, crlfAt l k := by
  induction l with
  | nil => simp [hasPair, crlfAt]
  | cons x t ih =>
    simp only [hasPair, Bool.or_eq_true, Bool.and_eq_true, beq_iff_eq]
    constructor
    · rintro (⟨hx, ht⟩ | ht)
      · refine ⟨0, hx ▸ by simp [List.getD], ?_⟩
        cases t with
        | nil => simp at ht
        | cons y t2 => simp at ht; simp [ht]
      · obtain ⟨k, hk⟩ := ih.mp ht
        exact ⟨k + 1, crlfAt_cons_succ.mpr hk⟩
    · rintro ⟨k, hk⟩
      cases k with
      | zero =>
        left
        obtain ⟨h1, h2⟩ := hk
        refine ⟨by simpa using h1, ?_⟩
        cases t with
        | nil => simp at h2
        | cons y t2 => simp at h2; simp [h2]
      | succ k => exact Or.inr (ih.mpr ⟨k, crlfAt_cons_succ.mp hk⟩)

theorem hasPair_false_iff (l : List Nat) : hasPair 13 10 l = false ↔ ∀ k, ¬ crlfAt l k := by
  rw [← Bool.not_eq_true, hasPair_iff_crlfAt]
  simp

theorem crlfAt_append_right (pre l : List Nat) (k : Nat) :
    crlfAt (pre ++ l) (pre.length + k) ↔ crlfAt l k := by
  induction pre with
  | nil => simp
  | cons x t ih =>
    simp only [List.cons_append, List.length_cons]
    rw [show t.length + 1 + k = (t.length + k) + 1 by omega, crlfAt_cons_succ]
    exact ih

theorem hasPair_append_left {l : List Nat} (x : List Nat) (h : hasPair 13 10 l = true) :
    hasPair 13 10 (l ++ x) = true := by
  induction l with
  | nil => simp [hasPair] at h
  | cons a t ih =>
    simp only [hasPair, Bool.or_eq_true, Bool.and_eq_true, beq_iff_eq] at h
    simp only [List.cons_append, hasPair, Bool.or_eq_true, Bool.and_eq_true, beq_iff_eq]
    rcases h with ⟨h1, h2⟩ | h
    · left
      refine ⟨h1, ?_⟩
      cases t with
      | nil => simp at h2
      | cons y t2 => simpa using h2
    · exact Or.inr (ih h)

theorem hasPair_append_right (pre : List Nat) {l : List Nat} (h : hasPair 13 10 l = true) :
    hasPair 13 10 (pre ++ l) = true := by
  rw [hasPair_iff_crlfAt] at h ⊢
  obtain ⟨k, hk⟩ := h
  exact ⟨pre.length + k, (crlfAt_append_right pre l k).mpr hk⟩

theorem findNewLinePos_none {l : List Nat} (h : hasPair 13 10 l = false) :
    findNewLinePos l = -1 := by
  rcases findNewLinePos_spec l with h1 | ⟨j, _, _, h3, _⟩
  · exact h1.1
  · exact absurd h3 ((hasPair_false_iff l).mp h j)

theorem findNewLinePos_split (pre f : List Nat) (h : hasPair 13 10 f = false) :
    findNewLinePos (pre ++ 13 :: 10 :: f) = (pre.length : Int) := by
  have hat : crlfAt (pre ++ 13 :: 10 :: f) pre.length := by
    have := (crlfAt_append_right pre (13 :: 10 :: f) 0).mpr (by simp [crlfAt])
    simpa using this
  rcases findNewLinePos_spec (pre ++ 13 :: 10 :: f) with h1 | ⟨j, h1, _, h3, h4⟩
  · exact absurd hat (h1.2 _)
  · rw [h1]
    have hge : pre.length ≤ j := by
      by_contra hlt
      exact h4 pre.length (by omega) hat
    rcases Nat.eq_or_lt_of_le hge with he | hl
    · rw [he]
    · exfalso
      obtain ⟨m, rfl⟩ : ∃ m, j = pre.length + m := ⟨j - pre.length, by omega⟩
      rw [crlfAt_append_right] at h3
      cases m with
      | zero => omega
      | succ m =>
        cases m with
        | zero => simp [crlfAt] at h3
        | succ m =>
          rw [crlfAt_cons_succ, crlfAt_cons_succ] at h3
          exact (hasPair_false_iff f).mp h m h3

theorem hasPair_split {l : List Nat} (h : hasPair 13 10 l = true) :
    ∃ pre f, l = pre ++ 13 :: 10 :: f ∧ hasPair 13 10 f = false := by
  induction l with
  | nil => simp [hasPair] at h
  | cons x t ih =>
    by_cases ht : hasPair 13 10 t = true
    · obtain ⟨pre, f, h1, h2⟩ := ih ht
      exact ⟨x :: pre, f, by rw [h1]; rfl, h2⟩
    · simp only [hasPair, Bool.or_eq_true, Bool.and_eq_true, beq_iff_eq] at h
      rcases h with ⟨h1, h2⟩ | h
      · cases t with
        | nil => simp at h2
        | cons y t2 =>
          simp only [List.head?_cons, Option.some.injEq] at h2
          subst h1; subst h2
          refine ⟨[], t2, rfl, ?_⟩
          simp only [Bool.not_eq_true] at ht
          simp only [hasPair, Bool.or_eq_false_iff] at ht
          exact ht.2
      · exact absurd h ht

theorem lineFragment_none {l : List Nat} (h : hasPair 13 10 l = false) : lineFragment l = l := by
  simp [lineFragment, nextLinePos, findNewLinePos_none h]

theorem lineFragment_split (pre f : List Nat) (h : hasPair 13 10 f = false) :
    lineFragment (pre ++ 13 :: 10 :: f) = f := by
  have h1 := findNewLinePos_split pre f h
  have h2 : (↑pre.length + 2 : Int).toNat = pre.length + 2 := by omega
  simp only [lineFragment, nextLinePos, h1]
  have h3 : ¬ ((pre.length : Int) = -1) := by omega
  simp only [ne_eq, h3, not_false_eq_true, if_true, h2]
  rw [List.drop_append_eq_append_drop]
  simp

theorem lineFragment_isLineFragment (l : List Nat) : IsLineFragment l (lineFragment l) := by
  cases h : hasPair 13 10 l with
  | false => exact Or.inl ⟨h, lineFragment_none h⟩
  | true =>
    obtain ⟨pre, f, h1, h2⟩ := hasPair_split h
    refine Or.inr ⟨pre, ?_, ?_⟩
    · rw [h1, lineFragment_split pre f h2]
    · rw [h1, lineFragment_split pre f h2]; exact h2

theorem IsLineFragment_unique {p f : List Nat} (h : IsLineFragment p f) : f = lineFragment p := by
  rcases h with ⟨h1, h2⟩ | ⟨pre, h1, h2⟩
  · rw [h2, lineFragment_none h1]
  · rw [h1, lineFragment_split pre f h2]

theorem nextLinePos_le (l : List Nat) : 0 ≤ nextLinePos l 0 ∧ nextLinePos l 0 ≤ (l.length : Int) := by
  unfold nextLinePos
  rcases findNewLinePos_spec l with h1 | ⟨j, h1, h2, _, _⟩
  · simp [h1.1]
  · rw [h1]
    have h3 : ¬ ((j : Int) = -1) := by omega
    simp only [ne_eq, h3, not_false_eq_true, if_true]
    omega

theorem nextLinePos_append (l x : List Nat) :
    nextLinePos (l ++ x) (nextLinePos l 0) = nextLinePos (l ++ x) 0 := by
  by_cases h : findNewLinePos (l ++ x) = -1
  · have h1 : hasPair 13 10 (l ++ x) = false := by
      rcases findNewLinePos_spec (l ++ x) with h2 | ⟨j, h2, _, _, _⟩
      · exact (hasPair_false_iff _).mpr h2.2
      · rw [h2] at h; omega
    have h3 : hasPair 13 10 l = false := by
      cases h4 : hasPair 13 10 l with
      | false => rfl
      | true => rw [hasPair_append_left x h4] at h1; cases h1
    simp [nextLinePos, h, findNewLinePos_none h3]
  · simp [nextLinePos, h]

theorem slice_lineFragment (l : List Nat) :
    slice l (nextLinePos l 0) (l.length : Int) = some (lineFragment l) := by
  obtain ⟨h1, h2⟩ := nextLinePos_le l
  simp [slice, h1, h2, lineFragment]


/-! ## Prompt scanner -/

theorem ReadUntilPromptLoop_step {σ : Type} (process : List Nat → σ → Bool × σ) (fuel : Nat)
    (output w rest : List Nat) (r re : Reader) (st : σ)
    (h : readAll r = some (w ++ 32 :: rest, re)) (hw : 32 ∉ w) :
    ∃ r1, readAll r1 = some (rest, re) ∧
      ReadUntilPromptLoop process (fuel + 1) output output.length (nextLinePos output 0) r st =
        (match process (lineFragment (output ++ w ++ [32])) st with
          | (true, st1) => some (Outcome.ret ((output ++ w ++ [32], none), r1, st1))
          | (false, st1) =>
            ReadUntilPromptLoop process fuel (output ++ w ++ [32])
              ((output ++ w ++ [32]).length : Int) (nextLinePos (output ++ w ++ [32]) 0)
              r1 st1) := by
  obtain ⟨r1, h1, h2⟩ := ReadUntil_found (by decide : (32 : Nat) ≠ 0) output h hw
  refine ⟨r1, h2, ?_⟩
  have hlen : (output.length : Int) + ((w.length + 1 : Nat) : Int)
      = ((output ++ w ++ [32]).length : Int) := by
    simp only [List.length_append, List.length_singleton, Nat.cast_add, Nat.cast_one]
    omega
  have hnl : nextLinePos (output ++ w ++ [32]) (nextLinePos output 0)
      = nextLinePos (output ++ w ++ [32]) 0 := by
    rw [List.append_assoc]; exact nextLinePos_append _ _
  simp only [ReadUntilPromptLoop, h1]
  rw [hlen, hnl, slice_lineFragment]

theorem ReadUntilPromptLoop_fail {σ : Type} (process : List Nat → σ → Bool × σ) (fuel : Nat)
    (output cs : List Nat) (dp lp : Int) (r re : Reader) (st : σ)
    (h : readAll r = some (cs, re)) (hno : 32 ∉ cs) :
    ReadUntilPromptLoop process (fuel + 1) output dp lp r st
      = some (Outcome.ret ((output ++ cs, some Error.read), re, st)) := by
  simp only [ReadUntilPromptLoop, ReadUntil_missing (by decide : (32 : Nat) ≠ 0) output h hno]

theorem ReadUntilPromptLoop_returns {σ : Type} (process : List Nat → σ → Bool × σ) (fuel : Nat) :
    ∀ (output : List Nat) (r : Reader) (st : σ) (cs : List Nat) (re : Reader),
    readAll r = some (cs, re) → cs.length < fuel →
    ∃ out e r' st', ReadUntilPromptLoop process fuel output output.length
        (nextLinePos output 0) r st = some (Outcome.ret ((out, e), r', st')) := by
  induction fuel with
  | zero => intro output r st cs re _ h; omega
  | succ fuel ih =>
    intro output r st cs re h hlen
    by_cases hmem : 32 ∈ cs
    · obtain ⟨w, rest, hsplit, hw⟩ := List.eq_append_cons_of_mem hmem
      rw [hsplit] at h
      obtain ⟨r1, h1, h2⟩ := ReadUntilPromptLoop_step process fuel output w rest r re st h hw
      rw [h2]
      rcases hp : process (lineFragment (output ++ w ++ [32])) st with ⟨b, st1⟩
      cases b with
      | true => exact ⟨_, _, _, _, rfl⟩
      | false =>
        simp only
        refine ih (output ++ w ++ [32]) r1 st1 rest re h1 ?_
        rw [hsplit] at hlen
        simp only [List.length_append, List.length_cons] at hlen
        omega
    · exact ⟨_, _, _, _, ReadUntilPromptLoop_fail process fuel output cs _ _ r re st h hmem⟩

theorem nextLinePos_nil : nextLinePos [] 0 = 0 := by decide

theorem ReadUntilPrompt_eq {σ : Type} (process : List Nat → σ → Bool × σ) (r : Reader) (st : σ) :
    ReadUntilPrompt process r st
      = ReadUntilPromptLoop process (r.pending.length + 1) [] (([] : List Nat).length : Int)
          (nextLinePos [] 0) r st := by
  rw [nextLinePos_nil]; rfl

theorem ReadUntilPrompt_returns {σ : Type} (process : List Nat → σ → Bool × σ) (r : Reader)
    (st : σ) :
    ∃ out e r' st', ReadUntilPrompt process r st = some (Outcome.ret ((out, e), r', st')) := by
  obtain ⟨cs, re, h1, h2, _⟩ := readAll_total r
  rw [ReadUntilPrompt_eq]
  exact ReadUntilPromptLoop_returns process _ [] r st cs re h1 (by omega)

theorem ReadUntilPromptLoop_sim {σ : Type} (process : List Nat → σ → Bool × σ) (fuel : Nat) :
    ∀ (output : List Nat) (dp lp : Int) (r1 r2 : Reader) (st : σ)
      (res : List Nat × Option Error) (r1' : Reader) (st' : σ),
    r1.pending = r2.pending →
    ReadUntilPromptLoop process fuel output dp lp r1 st = some (Outcome.ret (res, r1', st')) →
    ∃ r2', ReadUntilPromptLoop process fuel output dp lp r2 st
        = some (Outcome.ret (res, r2', st')) ∧ r2'.pending = r1'.pending := by
  induction fuel with
  | zero => intro output dp lp r1 r2 st res r1' st' _ h; simp [ReadUntilPromptLoop] at h
  | succ fuel ih =>
    intro output dp lp r1 r2 st res r1' st' hp h
    cases hru : ReadUntil output 32 r1 with
    | none => simp [ReadUntilPromptLoop, hru] at h
    | some y =>
      obtain ⟨⟨n, e⟩, out1, a1⟩ := y
      obtain ⟨a2, hru2, hpa⟩ := ReadUntil_sim hp hru
      simp only [ReadUntilPromptLoop, hru] at h
      simp only [ReadUntilPromptLoop, hru2]
      cases e with
      | some err =>
        simp only [Option.some.injEq, Outcome.ret.injEq, Prod.mk.injEq] at h ⊢
        exact ⟨a2, ⟨h.1, rfl, h.2.2⟩, by rw [← h.2.1, hpa]⟩
      | none =>
        simp only at h ⊢
        cases hs : slice out1 (nextLinePos out1 lp) (dp + ↑n) with
        | none => rw [hs] at h; simp at h
        | some chunk =>
          rw [hs] at h
          simp only at h ⊢
          rcases hpr : process chunk st with ⟨b, st1⟩
          rw [hpr] at h
          cases b with
          | true =>
            simp only [Option.some.injEq, Outcome.ret.injEq, Prod.mk.injEq] at h ⊢
            exact ⟨a2, ⟨h.1, rfl, h.2.2⟩, by rw [← h.2.1, hpa]⟩
          | false =>
            simp only at h ⊢
            exact ih out1 (dp + ↑n) (nextLinePos out1 lp) a1 a2 st1 res r1' st' hpa.symm h

theorem ReadUntilPrompt_sim {σ : Type} (process : List Nat → σ → Bool × σ) {r1 r2 : Reader}
    {st : σ} {res : List Nat × Option Error} {r1' : Reader} {st' : σ}
    (hp : r1.pending = r2.pending)
    (h : ReadUntilPrompt process r1 st = some (Outcome.ret (res, r1', st'))) :
    ∃ r2', ReadUntilPrompt process r2 st = some (Outcome.ret (res, r2', st')) ∧
      r2'.pending = r1'.pending := by
  unfold ReadUntilPrompt at h ⊢
  rw [← hp]
  exact ReadUntilPromptLoop_sim process _ [] 0 0 r1 r2 st res r1' st' hp h



theorem getLast?_take_ne (w : List Nat) (x : Nat) (hw : x ∉ w) (j : Nat) :
    (w.take j).getLast? ≠ some x := by
  intro h
  have hmem : x ∈ w.take j := List.mem_of_getLast?_eq_some h
  exact hw (List.mem_of_mem_take hmem)

theorem take_split_gt (w rest : List Nat) (x : Nat) (j : Nat) :
    (w ++ x :: rest).take (w.length + 1 + j) = w ++ [x] ++ rest.take j := by
  rw [List.take_append_eq_append_take]
  have h1 : w.length + 1 + j - w.length = j + 1 := by omega
  rw [List.take_of_length_le (by omega), h1]
  simp

theorem ReadUntilPromptLoop_shortest {σ : Type} (classify : List Nat → Bool) (fuel : Nat) :
    ∀ (output : List Nat) (r : Reader) (st : σ) (cs : List Nat) (re : Reader)
      (out : List Nat) (r' : Reader) (st' : σ),
    readAll r = some (cs, re) →
    ReadUntilPromptLoop (fun d s => (classify d, s)) fuel output output.length
        (nextLinePos output 0) r st = some (Outcome.ret ((out, none), r', st')) →
    ∃ k, 0 < k ∧ k ≤ cs.length ∧ out = output ++ cs.take k ∧
      (cs.take k).getLast? = some 32 ∧ classify (lineFragment out) = true ∧
      ∀ j, 0 < j → j < k → (cs.take j).getLast? = some 32 →
        classify (lineFragment (output ++ cs.take j)) = false := by
  induction fuel with
  | zero => intro output r st cs re out r' st' _ h; simp [ReadUntilPromptLoop] at h
  | succ fuel ih =>
    intro output r st cs re out r' st' hcs h
    by_cases hmem : 32 ∈ cs
    · obtain ⟨w, rest, hsplit, hw⟩ := List.eq_append_cons_of_mem hmem
      rw [hsplit] at hcs
      obtain ⟨r1, h1, h2⟩ := ReadUntilPromptLoop_step (fun d (s : σ) => (classify d, s)) fuel
        output w rest r re st hcs hw
      rw [h2] at h
      have hsmall : ∀ j, 0 < j → j ≤ w.length → (cs.take j).getLast? ≠ some 32 := by
        intro j _ hj
        rw [hsplit, List.take_append_of_le_length hj]
        exact getLast?_take_ne w 32 hw j
      have hk1 : cs.take (w.length + 1) = w ++ [32] := by
        have := take_split_gt w rest 32 0
        simpa [hsplit] using this
      cases hc : classify (lineFragment (output ++ w ++ [32])) with
      | true =>
        simp only [hc, Option.some.injEq, Outcome.ret.injEq, Prod.mk.injEq] at h
        obtain ⟨⟨hout, _⟩, _, _⟩ := h
        refine ⟨w.length + 1, by omega, ?_, ?_, ?_, ?_, ?_⟩
        · rw [hsplit]; simp
        · rw [hk1, ← hout, List.append_assoc]
        · rw [hk1]; simp
        · rw [← hout]; exact hc
        · intro j hj0 hjk hlast
          exact absurd hlast (hsmall j hj0 (by omega))
      | false =>
        simp only [hc] at h
        obtain ⟨k, hk0, hkl, hout, hlast, hcl, hmin⟩ :=
          ih (output ++ w ++ [32]) r1 st rest re out r' st' h1 h
        have hk2 : cs.take (w.length + 1 + k) = w ++ [32] ++ rest.take k := by
          rw [hsplit]; exact take_split_gt w rest 32 k
        have hne : ∀ j, 0 < j → j ≤ rest.length → rest.take j ≠ [] := by
          intro j hj0 hjl hnil
          have := congrArg List.length hnil
          simp only [List.length_take, List.length_nil] at this
          omega
        refine ⟨w.length + 1 + k, by omega, ?_, ?_, ?_, hcl, ?_⟩
        · rw [hsplit]; simp only [List.length_append, List.length_cons]; omega
        · rw [hk2, hout]; simp
        · rw [hk2, List.getLast?_append_of_ne_nil _ (hne k hk0 hkl)]; exact hlast
        · intro j hj0 hjk hl
          rcases Nat.lt_or_ge j (w.length + 1) with hlt | hge
          · exact absurd hl (hsmall j hj0 (by omega))
          · rcases Nat.eq_or_lt_of_le hge with he | hgt
            · rw [← he, hk1, ← List.append_assoc]; exact hc
            · obtain ⟨m, rfl⟩ : ∃ m, j = w.length + 1 + m := ⟨j - (w.length + 1), by omega⟩
              have hj2 : cs.take (w.length + 1 + m) = w ++ [32] ++ rest.take m := by
                rw [hsplit]; exact take_split_gt w rest 32 m
              rw [hj2] at hl ⊢
              rw [List.getLast?_append_of_ne_nil _ (hne m (by omega) (by omega))] at hl
              have := hmin m (by omega) (by omega) hl
              simpa [List.append_assoc] using this
    · rw [ReadUntilPromptLoop_fail _ fuel output cs _ _ r re st hcs hmem] at h
      simp at h

/-! ## Claims on the prompt scanner -/

/-- C6: when `ReadUntilPrompt` with a classifier without effects returns
without error, its output is the shortest prefix `p` of the clean-byte sequence
that ends with a space and whose Line Fragment (the suffix after the last CRLF
of `p`, or all of `p`) the classifier accepts; it is returned as it is. -/
theorem C6_prompt_shortest_prefix {σ : Type} (classify : List Nat → Bool) (r : Reader) (st : σ)
    (cs : List Nat) (re : Reader) (out : List Nat) (r' : Reader) (st' : σ)
    (hcs : readAll r = some (cs, re))
    (hret : ReadUntilPrompt (fun d s => (classify d, s)) r st
      = some (Outcome.ret ((out, none), r', st'))) :
    out <+: cs ∧ out.getLast? = some 32 ∧
      (∃ f, IsLineFragment out f ∧ classify f = true) ∧
      (∀ p f, p <+: cs → p.getLast? = some 32 → IsLineFragment p f → classify f = true →
        out.length ≤ p.length) := by
  rw [ReadUntilPrompt_eq] at hret
  obtain ⟨k, hk0, hkl, hout, hlast, hcl, hmin⟩ :=
    ReadUntilPromptLoop_shortest classify _ [] r st cs re out r' st' hcs hret
  simp only [List.nil_append] at hout hmin
  refine ⟨?_, ?_, ⟨lineFragment out, lineFragment_isLineFragment out, hcl⟩, ?_⟩
  · rw [hout]; exact List.take_prefix k cs
  · rw [hout]; exact hlast
  · intro p f hp hpl hf hcf
    by_contra hlt
    have hlen : out.length = k := by rw [hout, List.length_take]; omega
    have hp2 : p = cs.take p.length := List.prefix_iff_eq_take.mp hp
    have hpos : 0 < p.length := by
      cases p with
      | nil => simp at hpl
      | cons a t => simp
    have h1 := hmin p.length hpos (by omega) (by rw [← hp2]; exact hpl)
    rw [← hp2, ← IsLineFragment_unique hf, hcf] at h1
    cases h1

/-- Witness of C6: the text `ab \r\nc d ` with the classifier "the fragment is `c `". -/
theorem C6_prompt_shortest_prefix_witness :
    [97, 98, 32, 13, 10, 99, 32] <+: [97, 98, 32, 13, 10, 99, 32, 100, 32] ∧
      [97, 98, 32, 13, 10, 99, 32].getLast? = some 32 ∧
      (∃ f, IsLineFragment [97, 98, 32, 13, 10, 99, 32] f ∧
        (fun d => decide (d = [99, 32])) f = true) ∧
      (∀ p f, p <+: [97, 98, 32, 13, 10, 99, 32, 100, 32] → p.getLast? = some 32 →
        IsLineFragment p f → (fun d => decide (d = [99, 32])) f = true →
        [97, 98, 32, 13, 10, 99, 32].length ≤ p.length) :=
  C6_prompt_shortest_prefix (fun d => decide (d = [99, 32]))
    { buf := [97], chunks := [⟨98, [32, 13]⟩, ⟨10, [255, 253, 1, 99, 32, 100, 32]⟩] } ()
    [97, 98, 32, 13, 10, 99, 32, 100, 32] (Reader.ofBytes [])
    [97, 98, 32, 13, 10, 99, 32] (Reader.ofBytes [100, 32]) () (by decide) (by decide)

/-- C7: the result of `ReadUntilPrompt`, output buffer, error and the bytes left
unread, depends only on the byte sequence that arrives, not on how it is cut
into delivered segments or on how much of it is already buffered. -/
theorem C7_chunking_independent {σ : Type} (process : List Nat → σ → Bool × σ)
    (r1 r2 : Reader) (st : σ) (h : r1.pending = r2.pending) :
    observe (ReadUntilPrompt process r1 st) = observe (ReadUntilPrompt process r2 st) := by
  obtain ⟨out, e, r1', st', h1⟩ := ReadUntilPrompt_returns process r1 st
  obtain ⟨r2', h2, hp⟩ := ReadUntilPrompt_sim process h h1
  rw [h1, h2]
  simp only [observe, hp]

/-- Witness of C7: the prompt `Hi: ` after a DO command, delivered whole and
delivered byte by byte, with the classifier "the fragment is `Hi: `". -/
theorem C7_chunking_independent_witness :
    observe (ReadUntilPrompt (fun d (s : Unit) => (decide (d = [72, 105, 58, 32]), s))
        { buf := [], chunks := [⟨255, [253, 3, 72, 105, 58, 32]⟩] } ())
      = observe (ReadUntilPrompt (fun d (s : Unit) => (decide (d = [72, 105, 58, 32]), s))
        { buf := [], chunks := [⟨255, []⟩, ⟨253, []⟩, ⟨3, []⟩, ⟨72, []⟩, ⟨105, []⟩, ⟨58, []⟩,
          ⟨32, []⟩] } ()) :=
  C7_chunking_independent (fun d (s : Unit) => (decide (d = [72, 105, 58, 32]), s))
    { buf := [], chunks := [⟨255, [253, 3, 72, 105, 58, 32]⟩] }
    { buf := [], chunks := [⟨255, []⟩, ⟨253, []⟩, ⟨3, []⟩, ⟨72, []⟩, ⟨105, []⟩, ⟨58, []⟩,
      ⟨32, []⟩] } () (by decide)


/-! ## Patterns: the matcher and the language of a pattern -/

theorem Lang_ne_nil {re : List Atom} {m : List Nat} (hre : re ≠ []) (h : Lang re m) : m ≠ [] := by
  cases re with
  | nil => exact absurd rfl hre
  | cons a rest =>
    cases a with
    | one cls =>
      obtain ⟨c, t, h1, _, _⟩ := h
      rw [h1]; exact List.cons_ne_nil _ _
    | plus cls =>
      obtain ⟨run, t, h1, _, h3, _⟩ := h
      rw [h3]
      intro h4
      exact h1 (List.append_eq_nil.mp h4).1

theorem matchHere_sound (s : List Nat) : ∀ (re : List Atom) (n : Nat),
    matchHere re s = some n → n ≤ s.length ∧ Lang re (s.take n) := by
  induction s with
  | nil =>
    intro re n h
    cases re with
    | nil =>
      simp only [matchHere, Option.some.injEq] at h
      subst h
      exact ⟨le_refl _, rfl⟩
    | cons a rest => simp [matchHere] at h
  | cons c cs ih =>
    intro re n h
    cases re with
    | nil =>
      simp only [matchHere, Option.some.injEq] at h
      subst h
      exact ⟨Nat.zero_le _, rfl⟩
    | cons a rest =>
      cases a with
      | one cls =>
        simp only [matchHere] at h
        by_cases hc : inClass cls c = true
        · simp only [hc, if_true, Option.map_eq_some'] at h
          obtain ⟨n', h1, h2⟩ := h
          obtain ⟨h3, h4⟩ := ih rest n' h1
          subst h2
          exact ⟨by simp only [List.length_cons]; omega, c, cs.take n', rfl, hc, h4⟩
        · simp [hc] at h
      | plus cls =>
        simp only [matchHere] at h
        by_cases hc : inClass cls c = true
        · simp only [hc, if_true] at h
          cases hgo : matchHere (Atom.plus cls :: rest) cs with
          | some n' =>
            rw [hgo] at h
            simp only [Option.some.injEq] at h
            subst h
            obtain ⟨h3, run, t, h5, h6, h7, h8⟩ := ih (Atom.plus cls :: rest) n' hgo
            refine ⟨by simp only [List.length_cons]; omega, c :: run, t, List.cons_ne_nil _ _,
              ?_, ?_, h8⟩
            · intro x hx
              rcases List.mem_cons.mp hx with hx | hx
              · rw [hx]; exact hc
              · exact h6 x hx
            · rw [List.take_succ_cons, h7]; rfl
          | none =>
            rw [hgo] at h
            simp only [Option.map_eq_some'] at h
            obtain ⟨n', h1, h2⟩ := h
            obtain ⟨h3, h4⟩ := ih rest n' h1
            subst h2
            refine ⟨by simp only [List.length_cons]; omega, [c], cs.take n',
              List.cons_ne_nil _ _, ?_, rfl, h4⟩
            intro x hx
            rw [List.mem_singleton.mp hx]; exact hc
        · simp [hc] at h

theorem matchHere_complete (s : List Nat) : ∀ (re : List Atom) (m post : List Nat),
    s = m ++ post → Lang re m → ∃ n, matchHere re s = some n := by
  induction s with
  | nil =>
    intro re m post hs hl
    cases re with
    | nil => exact ⟨0, rfl⟩
    | cons a rest =>
      have hm : m = [] := (List.append_eq_nil.mp hs.symm).1
      exact absurd hm (Lang_ne_nil (List.cons_ne_nil _ _) hl)
  | cons c cs ih =>
    intro re m post hs hl
    cases re with
    | nil => exact ⟨0, rfl⟩
    | cons a rest =>
      cases a with
      | one cls =>
        obtain ⟨c', t, h1, h2, h3⟩ := hl
        subst h1
        simp only [List.cons_append, List.cons.injEq] at hs
        obtain ⟨hc, hcs⟩ := hs
        subst hc
        obtain ⟨n, hn⟩ := ih rest t post hcs h3
        exact ⟨n + 1, by simp [matchHere, h2, hn]⟩
      | plus cls =>
        obtain ⟨run, t, h1, h2, h3, h4⟩ := hl
        cases run with
        | nil => exact absurd rfl h1
        | cons c' run' =>
          subst h3
          simp only [List.cons_append, List.cons.injEq] at hs
          obtain ⟨hc, hcs⟩ := hs
          subst hc
          have hin : inClass cls c = true := h2 c (List.mem_cons_self _ _)
          simp only [matchHere, hin, if_true]
          cases hgo : matchHere (Atom.plus cls :: rest) cs with
          | some n' => exact ⟨n' + 1, rfl⟩
          | none =>
            cases run' with
            | nil =>
              obtain ⟨n, hn⟩ := ih rest t post (by simpa using hcs) h4
              exact ⟨n + 1, by simp [hn]⟩
            | cons c2 run2 =>
              have hl2 : Lang (Atom.plus cls :: rest) ((c2 :: run2) ++ t) :=
                ⟨c2 :: run2, t, List.cons_ne_nil _ _,
                  fun x hx => h2 x (List.mem_cons_of_mem _ hx), rfl, h4⟩
              obtain ⟨n, hn⟩ := ih (Atom.plus cls :: rest) ((c2 :: run2) ++ t) post
                (by rw [hcs]) hl2
              rw [hn] at hgo
              cases hgo

theorem Find_pos_of_Matches {re : List Atom} (hre : re ≠ []) (data : List Nat) :
    Matches re data → 0 < (Find re data).length := by
  induction data with
  | nil =>
    rintro ⟨pre, m, post, h1, h2⟩
    have hm : m = [] := by
      have := List.append_eq_nil.mp h1.symm
      exact (List.append_eq_nil.mp this.1).2
    exact absurd hm (Lang_ne_nil hre h2)
  | cons c cs ih =>
    rintro ⟨pre, m, post, h1, h2⟩
    cases hmh : matchHere re (c :: cs) with
    | some n =>
      obtain ⟨h3, h4⟩ := matchHere_sound (c :: cs) re n hmh
      have h5 := Lang_ne_nil hre h4
      simp only [Find, hmh]
      exact List.length_pos.mpr h5
    | none =>
      simp only [Find, hmh]
      cases pre with
      | nil =>
        obtain ⟨n, hn⟩ := matchHere_complete (c :: cs) re m post (by simpa using h1) h2
        rw [hn] at hmh
        cases hmh
      | cons p pre' =>
        simp only [List.cons_append, List.cons.injEq] at h1
        exact ih ⟨pre', m, post, h1.2, h2⟩

theorem Matches_of_Find_pos (re : List Atom) (data : List Nat) :
    0 < (Find re data).length → Matches re data := by
  induction data with
  | nil => intro h; simp [Find] at h
  | cons c cs ih =>
    intro h
    cases hmh : matchHere re (c :: cs) with
    | some n =>
      obtain ⟨_, h4⟩ := matchHere_sound (c :: cs) re n hmh
      exact ⟨[], (c :: cs).take n, (c :: cs).drop n, by simp, h4⟩
    | none =>
      simp only [Find, hmh] at h
      obtain ⟨pre, m, post, h1, h2⟩ := ih h
      exact ⟨c :: pre, m, post, by rw [h1]; simp, h2⟩

theorem Find_pos_iff {re : List Atom} (hre : re ≠ []) (data : List Nat) :
    0 < (Find re data).length ↔ Matches re data :=
  ⟨Matches_of_Find_pos re data, Find_pos_of_Matches hre data⟩

theorem Matches_append (re : List Atom) (a b : List Nat) {f : List Nat} (h : Matches re f) :
    Matches re (a ++ f ++ b) := by
  obtain ⟨pre, m, post, h1, h2⟩ := h
  exact ⟨a ++ pre, m, post ++ b, by rw [h1]; simp, h2⟩

theorem Matches_lineFragment {re : List Atom} {l : List Nat} (h : Matches re (lineFragment l)) :
    Matches re l := by
  have := Matches_append re (l.take (nextLinePos l 0).toNat) [] h
  simpa [lineFragment] using this

theorem Matches_take {re : List Atom} {l : List Nat} {j : Nat} (h : Matches re (l.take j)) :
    Matches re l := by
  have := Matches_append re [] (l.drop j) h
  simpa using this

theorem Lang_mem (re : List Atom) : ∀ m : List Nat, Lang re m →
    ∀ c ∈ m, ∃ a ∈ re, inClass a.cls c = true := by
  induction re with
  | nil => intro m h c hc; rw [show m = [] from h] at hc; cases hc
  | cons a rest ih =>
    intro m h c hc
    cases a with
    | one cls =>
      obtain ⟨c', t, h1, h2, h3⟩ := h
      subst h1
      rcases List.mem_cons.mp hc with hx | hx
      · exact ⟨Atom.one cls, List.mem_cons_self _ _, by rw [hx]; exact h2⟩
      · obtain ⟨a, ha, hin⟩ := ih t h3 c hx
        exact ⟨a, List.mem_cons_of_mem _ ha, hin⟩
    | plus cls =>
      obtain ⟨run, t, _, h2, h3, h4⟩ := h
      subst h3
      rcases List.mem_append.mp hc with hx | hx
      · exact ⟨Atom.plus cls, List.mem_cons_self _ _, h2 c hx⟩
      · obtain ⟨a, ha, hin⟩ := ih t h4 c hx
        exact ⟨a, List.mem_cons_of_mem _ ha, hin⟩

theorem Lang_append (re1 : List Atom) : ∀ (re2 : List Atom) (m : List Nat),
    Lang (re1 ++ re2) m ↔ ∃ m1 m2, m = m1 ++ m2 ∧ Lang re1 m1 ∧ Lang re2 m2 := by
  induction re1 with
  | nil =>
    intro re2 m
    constructor
    · intro h; exact ⟨[], m, rfl, rfl, h⟩
    · rintro ⟨m1, m2, h1, h2, h3⟩
      rw [show m1 = [] from h2] at h1
      rw [h1]; exact h3
  | cons a rest ih =>
    intro re2 m
    cases a with
    | one cls =>
      constructor
      · rintro ⟨c, t, h1, h2, h3⟩
        obtain ⟨m1, m2, h4, h5, h6⟩ := (ih re2 t).mp h3
        exact ⟨c :: m1, m2, by rw [h1, h4]; rfl, ⟨c, m1, rfl, h2, h5⟩, h6⟩
      · rintro ⟨m1, m2, h1, ⟨c, t, h2, h3, h4⟩, h5⟩
        exact ⟨c, t ++ m2, by rw [h1, h2]; rfl, h3, (ih re2 _).mpr ⟨t, m2, rfl, h4, h5⟩⟩
    | plus cls =>
      constructor
      · rintro ⟨run, t, h1, h2, h3, h4⟩
        obtain ⟨m1, m2, h5, h6, h7⟩ := (ih re2 t).mp h4
        exact ⟨run ++ m1, m2, by rw [h3, h5, List.append_assoc], ⟨run, m1, h1, h2, rfl, h6⟩, h7⟩
      · rintro ⟨m1, m2, h1, ⟨run, t, h2, h3, h4, h5⟩, h6⟩
        exact ⟨run, t ++ m2, h2, h3, by rw [h1, h4, List.append_assoc],
          (ih re2 _).mpr ⟨t, m2, rfl, h5, h6⟩⟩

theorem Lang_of_matchHere {re : List Atom} {s : List Nat}
    (h : matchHere re s = some s.length) : Lang re s := by
  have := (matchHere_sound s re s.length h).2
  simpa using this



theorem loginRe_ne_nil : loginRe ≠ [] := by decide

theorem passwordRe_ne_nil : passwordRe ≠ [] := by decide

theorem bannerRe_ne_nil : bannerRe ≠ [] := by decide

theorem Find_length_eq_zero_iff {re : List Atom} (hre : re ≠ []) (data : List Nat) :
    (Find re data).length = 0 ↔ ¬ Matches re data := by
  rw [← Find_pos_iff hre data]
  omega

theorem findInputPrompt_of_Matches {re : List Atom} (hre : re ≠ []) (responce buffer : List Nat)
    (w : Writer) (h : Matches re buffer) :
    findInputPrompt re responce buffer w = (true, (Write w (responce ++ [13, 10])).2) := by
  have h1 : ¬ ((Find re buffer).length = 0) := by
    rw [Find_length_eq_zero_iff hre]; exact not_not.mpr h
  simp only [findInputPrompt, h1, if_false]

theorem findInputPrompt_of_not_Matches {re : List Atom} (hre : re ≠ []) (responce buffer : List Nat)
    (w : Writer) (h : ¬ Matches re buffer) :
    findInputPrompt re responce buffer w = (false, w) := by
  have h1 : (Find re buffer).length = 0 := (Find_length_eq_zero_iff hre buffer).mpr h
  simp only [findInputPrompt, h1, if_true]

theorem welcomeProcess_login (login password data : List Nat) (w : Writer)
    (h : Matches loginRe data) :
    welcomeProcess login password data w = (false, (Write w (login ++ [13, 10])).2) := by
  simp only [welcomeProcess, findInputPrompt_of_Matches loginRe_ne_nil login data w h]

theorem welcomeProcess_password (login password data : List Nat) (w : Writer)
    (h1 : ¬ Matches loginRe data) (h2 : Matches passwordRe data) :
    welcomeProcess login password data w = (false, (Write w (password ++ [13, 10])).2) := by
  simp only [welcomeProcess, findInputPrompt_of_not_Matches loginRe_ne_nil login data w h1,
    findInputPrompt_of_Matches passwordRe_ne_nil password data w h2]

theorem welcomeProcess_banner (login password data : List Nat) (w : Writer)
    (h1 : ¬ Matches loginRe data) (h2 : ¬ Matches passwordRe data) :
    welcomeProcess login password data w = (decide (0 < (Find bannerRe data).length), w) := by
  simp only [welcomeProcess, findInputPrompt_of_not_Matches loginRe_ne_nil login data w h1,
    findInputPrompt_of_not_Matches passwordRe_ne_nil password data w h2, gt_iff_lt]

theorem Write_sent (w : Writer) (x : List Nat) (h : w.fails = false) :
    (Write w x).2 = { sent := w.sent ++ x, fails := false } := by
  obtain ⟨sent, fails⟩ := w
  simp only at h
  subst h
  simp [Write]

/-! ## Claims on the handshake -/

/-- C9: the callback of `waitWelcomeSigns` decides by strict priority.  When the
login pattern matches in the fragment it writes the login and CRLF, nothing
else, and returns false, whatever the other patterns do; otherwise, when the
password pattern matches, it writes the password and CRLF and returns false;
otherwise it writes nothing and returns true exactly when the banner pattern
matches.  On a transport that accepts writes the bytes sent grow by exactly
the response and CRLF. -/
theorem C9_handshake_priority (login password data : List Nat) (w : Writer) :
    (Matches loginRe data →
        welcomeProcess login password data w = (false, (Write w (login ++ [13, 10])).2) ∧
        (w.fails = false →
          (welcomeProcess login password data w).2.sent = w.sent ++ (login ++ [13, 10]))) ∧
      (¬ Matches loginRe data → Matches passwordRe data →
        welcomeProcess login password data w = (false, (Write w (password ++ [13, 10])).2) ∧
        (w.fails = false →
          (welcomeProcess login password data w).2.sent = w.sent ++ (password ++ [13, 10]))) ∧
      (¬ Matches loginRe data → ¬ Matches passwordRe data →
        (welcomeProcess login password data w).2 = w ∧
        ((welcomeProcess login password data w).1 = true ↔ Matches bannerRe data)) := by
  refine ⟨?_, ?_, ?_⟩
  · intro h
    rw [welcomeProcess_login login password data w h]
    exact ⟨rfl, fun hf => by rw [Write_sent w _ hf]⟩
  · intro h1 h2
    rw [welcomeProcess_password login password data w h1 h2]
    exact ⟨rfl, fun hf => by rw [Write_sent w _ hf]⟩
  · intro h1 h2
    rw [welcomeProcess_banner login password data w h1 h2]
    refine ⟨rfl, ?_⟩
    simp only [decide_eq_true_eq]
    exact Find_pos_iff bannerRe_ne_nil data

/-- Witness of C9: the fragment `h login: Password: a@b:/# ` matches all three
patterns; the login is written and the scan goes on. -/
theorem C9_handshake_priority_witness :
    welcomeProcess [117] [112] [104, 32, 108, 111, 103, 105, 110, 58, 32, 80, 97, 115, 115, 119,
        111, 114, 100, 58, 32, 97, 64, 98, 58, 47, 35, 32] { sent := [], fails := false }
      = (false, (Write { sent := [], fails := false } ([117] ++ [13, 10])).2) ∧
      (Matches passwordRe [104, 32, 108, 111, 103, 105, 110, 58, 32, 80, 97, 115, 115, 119,
        111, 114, 100, 58, 32, 97, 64, 98, 58, 47, 35, 32] ∧
       Matches bannerRe [104, 32, 108, 111, 103, 105, 110, 58, 32, 80, 97, 115, 115, 119,
        111, 114, 100, 58, 32, 97, 64, 98, 58, 47, 35, 32]) :=
  ⟨((C9_handshake_priority [117] [112] [104, 32, 108, 111, 103, 105, 110, 58, 32, 80, 97, 115,
      115, 119, 111, 114, 100, 58, 32, 97, 64, 98, 58, 47, 35, 32]
      { sent := [], fails := false }).1
      ((Find_pos_iff loginRe_ne_nil _).mp (by decide))).1,
    (Find_pos_iff passwordRe_ne_nil _).mp (by decide),
    (Find_pos_iff bannerRe_ne_nil _).mp (by decide)⟩

/-! ## Prompt scanner: where a scan stops -/

theorem ReadUntilPromptLoop_stops {σ : Type} (process : List Nat → σ → Bool × σ)
    (classify : List Nat → Bool) (st : σ) (fuel : Nat) :
    ∀ (output : List Nat) (r : Reader) (cs : List Nat) (re : Reader) (k : Nat),
    readAll r = some (cs, re) → cs.length < fuel → 0 < k → k ≤ cs.length →
    (cs.take k).getLast? = some 32 →
    (∀ j, 0 < j → j ≤ k → (cs.take j).getLast? = some 32 →
      process (lineFragment (output ++ cs.take j)) st
        = (classify (lineFragment (output ++ cs.take j)), st)) →
    classify (lineFragment (output ++ cs.take k)) = true →
    ∃ k' r', 0 < k' ∧ k' ≤ k ∧ (cs.take k').getLast? = some 32 ∧
      classify (lineFragment (output ++ cs.take k')) = true ∧
      (∀ j, 0 < j → j < k' → (cs.take j).getLast? = some 32 →
        classify (lineFragment (output ++ cs.take j)) = false) ∧
      ReadUntilPromptLoop process fuel output output.length (nextLinePos output 0) r st
        = some (Outcome.ret ((output ++ cs.take k', none), r', st)) := by
  induction fuel with
  | zero => intro output r cs re k _ h; omega
  | succ fuel ih =>
    intro output r cs re k hcs hfuel hk0 hkl hlast hproc hcl
    have hmem : 32 ∈ cs := List.mem_of_mem_take (List.mem_of_getLast?_eq_some hlast)
    obtain ⟨w, rest, hsplit, hw⟩ := List.eq_append_cons_of_mem hmem
    have hcs2 := hcs
    rw [hsplit] at hcs2
    obtain ⟨r1, h1, h2⟩ := ReadUntilPromptLoop_step process fuel output w rest r re st hcs2 hw
    have hsmall : ∀ j, j ≤ w.length → (cs.take j).getLast? ≠ some 32 := by
      intro j hj
      rw [hsplit, List.take_append_of_le_length hj]
      exact getLast?_take_ne w 32 hw j
    have hk1 : cs.take (w.length + 1) = w ++ [32] := by
      have := take_split_gt w rest 32 0
      simpa [hsplit] using this
    have hkw : w.length + 1 ≤ k := by
      by_contra hlt
      exact hsmall k (by omega) hlast
    have hl1 : (cs.take (w.length + 1)).getLast? = some 32 := by rw [hk1]; simp
    have hp1 := hproc (w.length + 1) (by omega) hkw hl1
    rw [hk1, ← List.append_assoc] at hp1
    rw [h2, hp1]
    cases hc : classify (lineFragment (output ++ w ++ [32])) with
    | true =>
      refine ⟨w.length + 1, r1, by omega, hkw, hl1, ?_, ?_, ?_⟩
      · rw [hk1, ← List.append_assoc]; exact hc
      · intro j _ hjk hl
        exact absurd hl (hsmall j (by omega))
      · rw [hk1, ← List.append_assoc]
    | false =>
      simp only
      have hkne : k ≠ w.length + 1 := by
        intro he
        rw [he, hk1, ← List.append_assoc, hc] at hcl
        cases hcl
      obtain ⟨m, rfl⟩ : ∃ m, k = w.length + 1 + m := ⟨k - (w.length + 1), by omega⟩
      have htk : ∀ j, cs.take (w.length + 1 + j) = w ++ [32] ++ rest.take j := by
        intro j; rw [hsplit]; exact take_split_gt w rest 32 j
      have hlen : cs.length = w.length + 1 + rest.length := by
        rw [hsplit]; simp only [List.length_append, List.length_cons]; omega
      have hne : ∀ j, 0 < j → j ≤ rest.length → rest.take j ≠ [] := by
        intro j hj0 hjl hnil
        have := congrArg List.length hnil
        simp only [List.length_take, List.length_nil] at this
        omega
      have hlastm : (rest.take m).getLast? = some 32 := by
        rw [htk m, List.getLast?_append_of_ne_nil _ (hne m (by omega) (by omega))] at hlast
        exact hlast
      obtain ⟨k', r', hk0', hkl', hl', hcl', hmin', hres⟩ :=
        ih (output ++ w ++ [32]) r1 rest re m h1 (by omega) (by omega) (by omega) hlastm
          (by
            intro j hj0 hjm hl
            have := hproc (w.length + 1 + j) (by omega) (by omega)
              (by rw [htk j, List.getLast?_append_of_ne_nil _ (hne j hj0 (by omega))]; exact hl)
            rw [htk j] at this
            simpa [List.append_assoc] using this)
          (by
            rw [htk m] at hcl
            simpa [List.append_assoc] using hcl)
      refine ⟨w.length + 1 + k', r', by omega, by omega, ?_, ?_, ?_, ?_⟩
      · rw [htk k', List.getLast?_append_of_ne_nil _ (hne k' hk0' (by omega))]; exact hl'
      · rw [htk k']; simpa [List.append_assoc] using hcl'
      · intro j hj0 hjk hl
        rcases Nat.lt_or_ge j (w.length + 1) with hlt | hge
        · exact absurd hl (hsmall j (by omega))
        · rcases Nat.eq_or_lt_of_le hge with he | hgt
          · rw [← he, hk1, ← List.append_assoc]; exact hc
          · obtain ⟨i, rfl⟩ : ∃ i, j = w.length + 1 + i := ⟨j - (w.length + 1), by omega⟩
            rw [htk i] at hl ⊢
            rw [List.getLast?_append_of_ne_nil _ (hne i (by omega) (by omega))] at hl
            have := hmin' i (by omega) (by omega) hl
            simpa [List.append_assoc] using this
      · rw [hres, htk k']
        simp [List.append_assoc]


/-! ## The banner pattern -/

theorem bannerRe_class_ge : ∀ a ∈ bannerRe, ∀ c, inClass a.cls c = true → 35 ≤ c := by
  intro a ha c hc
  simp only [bannerRe, List.mem_cons, List.mem_singleton, List.not_mem_nil, or_false] at ha
  rcases ha with h | h | h | h | h | h <;> subst h <;>
    simp [Atom.cls, inClass, nameClass, wordClass, digitClass, pathClass] at hc <;> omega

theorem bannerRe_bytes {m : List Nat} (h : Lang bannerRe m) : ∀ c ∈ m, 35 ≤ c := by
  intro c hc
  obtain ⟨a, ha, hin⟩ := Lang_mem bannerRe m h c hc
  exact bannerRe_class_ge a ha c hin

theorem bannerRe_last {m : List Nat} (h : Lang bannerRe m) :
    ∃ m' t, m = m' ++ [t] ∧ (t = 36 ∨ t = 35) ∧ ∀ c ∈ m', 45 ≤ c := by
  have hsplit : bannerRe
      = [Atom.plus nameClass, Atom.one [(64, 64)], Atom.plus nameClass, Atom.one [(58, 58)],
          Atom.plus pathClass] ++ [Atom.one [(36, 36), (35, 35)]] := rfl
  rw [hsplit, Lang_append] at h
  obtain ⟨m1, m2, h1, h2, c, t, h3, h4, h5⟩ := h
  rw [show t = [] from h5] at h3
  refine ⟨m1, c, by rw [h1, h3], ?_, ?_⟩
  · simp [inClass] at h4
    omega
  · intro x hx
    obtain ⟨a, ha, hin⟩ := Lang_mem _ m1 h2 x hx
    simp only [List.mem_cons, List.mem_singleton, List.not_mem_nil, or_false] at ha
    rcases ha with h | h | h | h | h <;> subst h <;>
      simp [Atom.cls, inClass, nameClass, wordClass, digitClass, pathClass] at hin <;> omega

theorem hasPair_false_of_no_cr {l : List Nat} (h : ∀ c ∈ l, c ≠ 13) : hasPair 13 10 l = false := by
  induction l with
  | nil => rfl
  | cons x t ih =>
    have hx : x ≠ 13 := h x (List.mem_cons_self _ _)
    simp only [hasPair, Bool.or_eq_false_iff, Bool.and_eq_false_iff, beq_eq_false_iff_ne, ne_eq]
    exact ⟨Or.inl hx, ih (fun c hc => h c (List.mem_cons_of_mem _ hc))⟩

theorem hasPair_append_clean {a b : List Nat} (ha : hasPair 13 10 a = false)
    (hb : ∀ c ∈ b, c ≠ 13 ∧ c ≠ 10) : hasPair 13 10 (a ++ b) = false := by
  induction a with
  | nil => exact hasPair_false_of_no_cr (fun c hc => (hb c hc).1)
  | cons x t ih =>
    simp only [hasPair, Bool.or_eq_false_iff, Bool.and_eq_false_iff, beq_eq_false_iff_ne,
      ne_eq] at ha
    simp only [List.cons_append, hasPair, Bool.or_eq_false_iff, Bool.and_eq_false_iff,
      beq_eq_false_iff_ne, ne_eq]
    refine ⟨?_, ih ha.2⟩
    rcases ha.1 with h | h
    · exact Or.inl h
    · right
      cases t with
      | nil =>
        cases b with
        | nil => simp
        | cons y b2 =>
          have := (hb y (List.mem_cons_self _ _)).2
          simpa using this
      | cons y t2 => simpa using h

theorem lineFragment_append_clean (a b : List Nat) (hb : ∀ c ∈ b, c ≠ 13 ∧ c ≠ 10) :
    lineFragment (a ++ b) = lineFragment a ++ b := by
  cases h : hasPair 13 10 a with
  | false => rw [lineFragment_none h, lineFragment_none (hasPair_append_clean h hb)]
  | true =>
    obtain ⟨pre, f, h1, h2⟩ := hasPair_split h
    rw [h1, lineFragment_split pre f h2]
    have : pre ++ 13 :: 10 :: f ++ b = pre ++ 13 :: 10 :: (f ++ b) := by simp
    rw [this, lineFragment_split pre (f ++ b) (hasPair_append_clean h2 hb)]

theorem lineFragment_suffix_split (x t : List Nat) :
    ∃ p, t = p ++ lineFragment (x ++ 13 :: 10 :: t) := by
  cases h : hasPair 13 10 t with
  | false => exact ⟨[], by rw [lineFragment_split x t h]; rfl⟩
  | true =>
    obtain ⟨pre, f, h1, h2⟩ := hasPair_split h
    refine ⟨pre ++ [13, 10], ?_⟩
    have : x ++ 13 :: 10 :: t = (x ++ 13 :: 10 :: pre) ++ 13 :: 10 :: f := by rw [h1]; simp
    rw [this, lineFragment_split _ f h2, h1]
    simp

theorem matchHere_bannerRe_prompt {prompt : List Nat} (h : Lang bannerRe prompt) :
    matchHere bannerRe (prompt ++ [32]) = some prompt.length := by
  obtain ⟨n, hn⟩ := matchHere_complete (prompt ++ [32]) bannerRe prompt [32] rfl h
  obtain ⟨hle, hl⟩ := matchHere_sound _ _ _ hn
  obtain ⟨m', t, h1, h2, h3⟩ := bannerRe_last hl
  obtain ⟨p', t0, h4, h5, h6⟩ := bannerRe_last h
  rw [hn]
  have hlen : n = m'.length + 1 := by
    have := congrArg List.length h1
    simp only [List.length_take, List.length_append, List.length_singleton] at this
    simp only [List.length_append, List.length_singleton] at hle
    omega
  have hget : (prompt ++ [32]).getD m'.length 0 = t := by
    have h7 : ((prompt ++ [32]).take n).getD m'.length 0 = t := by
      rw [h1]; simp [List.getD_append_right]
    rw [List.getD_eq_getElem?_getD, List.getElem?_take_of_lt (by omega)] at h7
    rw [List.getD_eq_getElem?_getD]; exact h7
  have hpl : prompt.length = p'.length + 1 := by rw [h4]; simp
  simp only [List.length_append, List.length_singleton] at hle
  rcases Nat.lt_trichotomy m'.length p'.length with hlt | heq | hgt
  · exfalso
    rw [h4, List.append_assoc, List.getD_append _ _ _ _ hlt] at hget
    have hmem : p'.getD m'.length 0 ∈ p' := by
      rw [List.getD_eq_getElem _ _ hlt]; exact List.getElem_mem _
    have := h6 _ hmem
    omega
  · rw [hlen, heq, hpl]
  · exfalso
    have hm : m'.length = p'.length + 1 := by omega
    rw [h4, hm, List.append_assoc, List.getD_append_right _ _ _ _ (by omega)] at hget
    simp at hget
    omega

theorem matchHere_bannerRe_body {b0 prompt s1 s2 : List Nat}
    (hbody : ¬ Matches bannerRe (b0 ++ [13, 10])) (hs : b0 ++ [13, 10] = s1 ++ s2)
    (hne : s2 ≠ []) :
    matchHere bannerRe (s2 ++ (prompt ++ [32])) = none := by
  cases hmh : matchHere bannerRe (s2 ++ (prompt ++ [32])) with
  | none => rfl
  | some n =>
    exfalso
    obtain ⟨hle, hl⟩ := matchHere_sound _ _ _ hmh
    rcases Nat.lt_or_ge s2.length n with h | h
    swap
    · rw [List.take_append_of_le_length h] at hl
      apply hbody
      rw [hs]
      exact ⟨s1, s2.take n, s2.drop n, by simp, hl⟩
    · have h10 : (10 : Nat) ∈ s2 := by
        have hlast : (s1 ++ s2).getLast? = some 10 := by rw [← hs]; simp
        rw [List.getLast?_append_of_ne_nil _ hne] at hlast
        exact List.mem_of_getLast?_eq_some hlast
      have hmem : (10 : Nat) ∈ (s2 ++ (prompt ++ [32])).take n := by
        rw [List.take_append_eq_append_take, List.take_of_length_le (by omega)]
        exact List.mem_append_left _ h10
      have := bannerRe_bytes hl 10 hmem
      omega

/-! ## Removing the banner and trimming -/

theorem ReplaceAllLoop_keep (re : List Atom) (s : List Nat) : ∀ rest : List Nat,
    (∀ s1 s2, s = s1 ++ s2 → s2 ≠ [] → matchHere re (s2 ++ rest) = none) →
    ReplaceAllLoop re 0 (s ++ rest) = s ++ ReplaceAllLoop re 0 rest := by
  induction s with
  | nil => intro rest _; rfl
  | cons c cs ih =>
    intro rest h
    have h1 := h [] (c :: cs) rfl (List.cons_ne_nil _ _)
    simp only [List.cons_append] at h1 ⊢
    rw [ReplaceAllLoop, h1]
    simp only [List.cons.injEq, true_and]
    exact ih rest (fun s1 s2 hs hne => h (c :: s1) s2 (by rw [hs]; rfl) hne)

theorem ReplaceAllLoop_skip (re : List Atom) (xs : List Nat) : ∀ rest : List Nat,
    ReplaceAllLoop re xs.length (xs ++ rest) = ReplaceAllLoop re 0 rest := by
  induction xs with
  | nil => intro rest; rfl
  | cons c cs ih =>
    intro rest
    simp only [List.length_cons, List.cons_append, ReplaceAllLoop]
    exact ih rest

theorem ReplaceAll_banner {b0 prompt : List Nat}
    (hbody : ¬ Matches bannerRe (b0 ++ [13, 10])) (hprompt : Lang bannerRe prompt) :
    ReplaceAll bannerRe (b0 ++ [13, 10] ++ prompt ++ [32]) = b0 ++ [13, 10] ++ [32] := by
  unfold ReplaceAll
  have h1 : b0 ++ [13, 10] ++ prompt ++ [32] = (b0 ++ [13, 10]) ++ (prompt ++ [32]) := by simp
  rw [h1, ReplaceAllLoop_keep bannerRe (b0 ++ [13, 10]) (prompt ++ [32])
    (fun s1 s2 hs hne => matchHere_bannerRe_body hbody hs hne)]
  have h2 := matchHere_bannerRe_prompt hprompt
  cases hp : prompt with
  | nil => exact absurd hp (Lang_ne_nil bannerRe_ne_nil hprompt)
  | cons c p =>
    rw [hp] at h2
    simp only [List.cons_append, List.length_cons] at h2 ⊢
    rw [ReplaceAllLoop, h2]
    simp only
    rw [ReplaceAllLoop_skip bannerRe p [32]]
    rfl

theorem Trim_body (b0 : List Nat) :
    Trim (b0 ++ [13, 10] ++ [32]) 32 = b0.dropWhile (fun b => b == 32) ++ [13, 10] ∧
      Trim (b0 ++ [13, 10]) 32 = b0.dropWhile (fun b => b == 32) ++ [13, 10] := by
  have hd : (b0 ++ [13, 10]).dropWhile (fun b => b == 32)
      = b0.dropWhile (fun b => b == 32) ++ [13, 10] := by
    rw [List.dropWhile_append]
    split
    · rename_i h
      rw [List.isEmpty_iff] at h
      rw [h]; rfl
    · rfl
  have hne : (b0 ++ [13, 10]).dropWhile (fun b => b == 32) ≠ [] := by
    rw [hd]; simp
  have hr : ∀ y : List Nat, (y ++ [13, 10]).rdropWhile (fun b => b == 32) = y ++ [13, 10] := by
    intro y
    have := List.rdropWhile_concat_neg (fun b : Nat => b == 32) (y ++ [13]) 10 (by decide)
    simp only [List.append_assoc, List.singleton_append] at this
    exact this
  constructor
  · unfold Trim
    rw [List.dropWhile_append]
    have hemp : ((b0 ++ [13, 10]).dropWhile (fun b => b == 32)).isEmpty = false := by
      cases hx : (b0 ++ [13, 10]).dropWhile (fun b => b == 32) with
      | nil => exact absurd hx hne
      | cons a t => rfl
    rw [hemp]
    simp only [Bool.false_eq_true, if_false]
    rw [List.rdropWhile_concat_pos _ _ 32 (by decide), hd, hr]
  · unfold Trim
    rw [hd, hr]



/-! ## Claims on banner capture -/

/-- C8, as stated, fails: the input is `body ++ prompt ++ " "` with body
`[255, 255, 13, 10]` (a data byte 255, escaped, and CRLF) and prompt `a@b:/#`;
the body has no banner match and the prompt is a full match, yet the result
is `[13, 10]`, not the body. -/
theorem C8_counterexample :
    ReadUntilBanner (Reader.ofBytes ([255, 255, 13, 10] ++ [97, 64, 98, 58, 47, 35] ++ [32]))
        = some (Outcome.ret (([13, 10], none), Reader.ofBytes [])) ∧
      (Find bannerRe [255, 255, 13, 10]).length = 0 ∧
      matchHere bannerRe [97, 64, 98, 58, 47, 35] = some 6 ∧
      Trim [255, 255, 13, 10] 32 = [255, 255, 13, 10] := by
  decide

/-- C8, amended: when the clean-byte sequence of the input (the input itself
when it holds no byte 255) is `body ++ prompt ++ " "`, where `body` ends in
CRLF and contains no match of the banner pattern and `prompt` is a full match
of it, `ReadUntilBanner` returns without error exactly `body` with leading and
trailing spaces trimmed; the body keeps its CRLF terminators, only its leading
spaces go. -/
theorem C8_banner_capture (b0 prompt : List Nat) (r re : Reader)
    (hcs : readAll r = some (b0 ++ [13, 10] ++ prompt ++ [32], re))
    (hbody : (Find bannerRe (b0 ++ [13, 10])).length = 0)
    (hprompt : Lang bannerRe prompt) :
    ∃ r', ReadUntilBanner r = some (Outcome.ret ((Trim (b0 ++ [13, 10]) 32, none), r')) ∧
      Trim (b0 ++ [13, 10]) 32 = b0.dropWhile (fun b => b == 32) ++ [13, 10] := by
  have hbody2 : ¬ Matches bannerRe (b0 ++ [13, 10]) :=
    (Find_length_eq_zero_iff bannerRe_ne_nil _).mp hbody
  have hpb := bannerRe_bytes hprompt
  have hcseq : b0 ++ [13, 10] ++ prompt ++ [32] = b0 ++ 13 :: 10 :: (prompt ++ [32]) := by simp
  have hfrag : lineFragment (b0 ++ [13, 10] ++ prompt ++ [32]) = prompt ++ [32] := by
    rw [hcseq]
    apply lineFragment_split
    apply hasPair_false_of_no_cr
    intro c hc
    rcases List.mem_append.mp hc with h | h
    · have := hpb c h; omega
    · rw [List.mem_singleton.mp h]; decide
  have hlen := readAll_length_le hcs
  obtain ⟨k', r', hk0, hkl, hl', hcl', _, hres⟩ :=
    ReadUntilPromptLoop_stops (@bannerProcess Unit)
      (fun f => decide ((Find bannerRe f).length > 0)) () (r.pending.length + 1) []
      r (b0 ++ [13, 10] ++ prompt ++ [32]) re (b0 ++ [13, 10] ++ prompt ++ [32]).length
      hcs (by omega) (by simp) (le_refl _)
      (by rw [List.take_length]; exact List.getLast?_concat _)
      (fun j _ _ _ => rfl)
      (by
        simp only [List.nil_append, List.take_length, hfrag, gt_iff_lt, decide_eq_true_eq]
        exact Find_pos_of_Matches bannerRe_ne_nil _ ⟨[], prompt, [32], rfl, hprompt⟩)
  simp only [List.nil_append, gt_iff_lt, decide_eq_true_eq] at hcl' hres
  have hk : k' = (b0 ++ [13, 10] ++ prompt ++ [32]).length := by
    by_contra hne
    have hlt : k' < (b0 ++ [13, 10] ++ prompt ++ [32]).length := by omega
    have hm : Matches bannerRe ((b0 ++ [13, 10] ++ prompt ++ [32]).take k') :=
      Matches_lineFragment (Matches_of_Find_pos _ _ hcl')
    rcases Nat.lt_or_ge (b0 ++ [13, 10]).length k' with h | h
    · have htake : (b0 ++ [13, 10] ++ prompt ++ [32]).take k'
          = (b0 ++ [13, 10]) ++ prompt.take (k' - (b0 ++ [13, 10]).length) := by
        rw [List.append_assoc (b0 ++ [13, 10]), List.take_append_eq_append_take,
          List.take_of_length_le (by omega), List.take_append_of_le_length]
        simp only [List.length_append, List.length_cons, List.length_nil] at hlt h ⊢
        omega
      rw [htake] at hl'
      have hne2 : prompt.take (k' - (b0 ++ [13, 10]).length) ≠ [] := by
        intro hnil
        have := congrArg List.length hnil
        simp only [List.length_take, List.length_nil] at this
        simp only [List.length_append, List.length_cons, List.length_nil] at hlt h this
        omega
      rw [List.getLast?_append_of_ne_nil _ hne2] at hl'
      have := hpb 32 (List.mem_of_mem_take (List.mem_of_getLast?_eq_some hl'))
      omega
    · apply hbody2
      have htake : (b0 ++ [13, 10] ++ prompt ++ [32]).take k' = (b0 ++ [13, 10]).take k' := by
        rw [List.append_assoc (b0 ++ [13, 10]), List.take_append_of_le_length h]
      rw [htake] at hm
      exact Matches_take hm
  rw [hk, List.take_length] at hres
  refine ⟨r', ?_, (Trim_body b0).2⟩
  unfold ReadUntilBanner
  rw [ReadUntilPrompt_eq, hres]
  simp only [ReplaceAll_banner hbody2 hprompt, (Trim_body b0).1, (Trim_body b0).2]

/-- Witness of C8: the output ` f g` and CRLF, then the prompt `a@b:/#`, with a
WILL command inside the stream. -/
theorem C8_banner_capture_witness :
    ∃ r', ReadUntilBanner
        { buf := [32, 102], chunks := [⟨32, [103, 13, 255, 251, 1, 10, 97, 64]⟩,
          ⟨98, [58, 47, 35, 32]⟩] }
        = some (Outcome.ret ((Trim ([32, 102, 32, 103] ++ [13, 10]) 32, none), r')) ∧
      Trim ([32, 102, 32, 103] ++ [13, 10]) 32
        = [32, 102, 32, 103].dropWhile (fun b => b == 32) ++ [13, 10] :=
  C8_banner_capture [32, 102, 32, 103] [97, 64, 98, 58, 47, 35]
    { buf := [32, 102], chunks := [⟨32, [103, 13, 255, 251, 1, 10, 97, 64]⟩,
      ⟨98, [58, 47, 35, 32]⟩] }
    (Reader.ofBytes []) (by decide) (by decide) (Lang_of_matchHere (by decide))


/-! ## The handshake -/

theorem Lang_has_lit (c : Nat) (re : List Atom) : ∀ m : List Nat,
    Atom.one [(c, c)] ∈ re → Lang re m → c ∈ m := by
  induction re with
  | nil => intro m h; cases h
  | cons a rest ih =>
    intro m hmem hl
    cases a with
    | one cls =>
      obtain ⟨c', t, h1, h2, h3⟩ := hl
      subst h1
      rcases List.mem_cons.mp hmem with h | h
      · simp only [Atom.one.injEq] at h
        subst h
        simp [inClass] at h2
        have : c' = c := by omega
        rw [this]; exact List.mem_cons_self _ _
      · exact List.mem_cons_of_mem _ (ih t h h3)
    | plus cls =>
      obtain ⟨run, t, _, _, h3, h4⟩ := hl
      subst h3
      rcases List.mem_cons.mp hmem with h | h
      · cases h
      · exact List.mem_append_right _ (ih t h h4)

theorem not_Matches_without_colon {data : List Nat} (h : 58 ∉ data) :
    ¬ Matches loginRe data ∧ ¬ Matches passwordRe data ∧ ¬ Matches bannerRe data := by
  refine ⟨?_, ?_, ?_⟩ <;>
  · rintro ⟨pre, m, post, h1, h2⟩
    apply h
    rw [h1]
    refine List.mem_append_left _ (List.mem_append_right _ (Lang_has_lit 58 _ m ?_ h2))
    decide

theorem welcomeProcess_quiet (login password : List Nat) {data : List Nat} (w : Writer)
    (h : 58 ∉ data) : welcomeProcess login password data w = (false, w) := by
  obtain ⟨h1, h2, h3⟩ := not_Matches_without_colon h
  rw [welcomeProcess_banner login password data w h1 h2]
  have : ¬ (0 < (Find bannerRe data).length) := by
    rw [Find_pos_iff bannerRe_ne_nil]; exact h3
  simp [this]

theorem nameClass_byte {c : Nat} (h : inClass nameClass c = true) : 45 ≤ c ∧ c ≠ 58 := by
  simp [inClass, nameClass, wordClass, digitClass] at h
  omega

theorem mem_lineFragment {l : List Nat} {c : Nat} (h : c ∈ lineFragment l) : c ∈ l :=
  List.mem_of_mem_drop h

theorem waitWelcomeSigns_scan (login password host text prompt : List Nat) (r re : Reader)
    (w : Writer)
    (hcs : readAll r = some (host ++ [32, 108, 111, 103, 105, 110, 58, 32] ++ [13, 10]
      ++ [80, 97, 115, 115, 119, 111, 114, 100, 58, 32] ++ [13, 10] ++ text ++ prompt ++ [32], re))
    (hne : host ≠ []) (hhost : ∀ c ∈ host, inClass nameClass c = true)
    (hprompt : Lang bannerRe prompt)
    (hlogin : (Find loginRe (text ++ prompt ++ [32])).length = 0)
    (hpass : (Find passwordRe (text ++ prompt ++ [32])).length = 0) :
    ∃ out r', ReadUntilPrompt (welcomeProcess login password) r w
      = some (Outcome.ret ((out, none), r',
          (Write (Write w (login ++ [13, 10])).2 (password ++ [13, 10])).2)) := by
  have hlogin2 : ¬ Matches loginRe (text ++ prompt ++ [32]) :=
    (Find_length_eq_zero_iff loginRe_ne_nil _).mp hlogin
  have hpass2 : ¬ Matches passwordRe (text ++ prompt ++ [32]) :=
    (Find_length_eq_zero_iff passwordRe_ne_nil _).mp hpass
  have hpb := bannerRe_bytes hprompt
  have hshape : host ++ [32, 108, 111, 103, 105, 110, 58, 32] ++ [13, 10]
      ++ [80, 97, 115, 115, 119, 111, 114, 100, 58, 32] ++ [13, 10] ++ text ++ prompt ++ [32]
      = host ++ 32 :: ([108, 111, 103, 105, 110, 58] ++ 32 ::
          ([13, 10, 80, 97, 115, 115, 119, 111, 114, 100, 58] ++ 32 ::
            (13 :: 10 :: (text ++ prompt ++ [32])))) := by
    simp
  have hlen := readAll_length_le hcs
  rw [hshape] at hcs hlen
  simp only [List.length_append, List.length_cons, List.length_nil] at hlen
  obtain ⟨F, hF⟩ : ∃ F, r.pending.length = F + 2 := ⟨r.pending.length - 2, by omega⟩
  have h32host : (32 : Nat) ∉ host := fun h => by have := (nameClass_byte (hhost 32 h)).1; omega
  -- first word: the host name
  obtain ⟨r1, hr1, hA⟩ := ReadUntilPromptLoop_step (welcomeProcess login password) (F + 2)
    [] host _ r re w hcs h32host
  have hqA : welcomeProcess login password (lineFragment ([] ++ host ++ [32])) w = (false, w) := by
    apply welcomeProcess_quiet
    intro h
    have := mem_lineFragment h
    simp only [List.nil_append, List.mem_append, List.mem_singleton] at this
    rcases this with h1 | h1
    · exact (nameClass_byte (hhost 58 h1)).2 rfl
    · omega
  rw [hqA] at hA
  simp only at hA
  -- second word: `login:`
  obtain ⟨r2, hr2, hB⟩ := ReadUntilPromptLoop_step (welcomeProcess login password) (F + 1)
    ([] ++ host ++ [32]) [108, 111, 103, 105, 110, 58] _ r1 re w hr1 (by decide)
  have hfragB : lineFragment ([] ++ host ++ [32] ++ [108, 111, 103, 105, 110, 58] ++ [32])
      = host ++ [32] ++ [108, 111, 103, 105, 110, 58] ++ [32] := by
    rw [List.nil_append]
    apply lineFragment_none
    apply hasPair_false_of_no_cr
    intro c hc
    simp only [List.mem_append, List.mem_cons, List.mem_singleton, List.not_mem_nil,
      or_false] at hc
    rcases hc with ((h | h) | h) | h
    · have := (nameClass_byte (hhost c h)).1; omega
    · omega
    · omega
    · omega
  have hmB : Matches loginRe (host ++ [32] ++ [108, 111, 103, 105, 110, 58] ++ [32]) := by
    refine ⟨[], host ++ [32, 108, 111, 103, 105, 110, 58], [32], by simp, ?_⟩
    exact ⟨host, [32, 108, 111, 103, 105, 110, 58], hne, hhost, rfl,
      Lang_of_matchHere (by decide)⟩
  rw [hfragB, welcomeProcess_login login password _ w hmB] at hB
  simp only at hB
  -- third word: CRLF and `Password:`
  obtain ⟨r3, hr3, hC⟩ := ReadUntilPromptLoop_step (welcomeProcess login password) F
    ([] ++ host ++ [32] ++ [108, 111, 103, 105, 110, 58] ++ [32])
    [13, 10, 80, 97, 115, 115, 119, 111, 114, 100, 58] _ r2 re
    (Write w (login ++ [13, 10])).2 hr2 (by decide)
  have hfragC : lineFragment ([] ++ host ++ [32] ++ [108, 111, 103, 105, 110, 58] ++ [32]
      ++ [13, 10, 80, 97, 115, 115, 119, 111, 114, 100, 58] ++ [32])
      = [80, 97, 115, 115, 119, 111, 114, 100, 58, 32] := by
    have : [] ++ host ++ [32] ++ [108, 111, 103, 105, 110, 58] ++ [32]
        ++ [13, 10, 80, 97, 115, 115, 119, 111, 114, 100, 58] ++ [32]
        = (host ++ [32] ++ [108, 111, 103, 105, 110, 58] ++ [32])
          ++ 13 :: 10 :: [80, 97, 115, 115, 119, 111, 114, 100, 58, 32] := by simp
    rw [this]
    exact lineFragment_split _ _ (by decide)
  have hpC : welcomeProcess login password [80, 97, 115, 115, 119, 111, 114, 100, 58, 32]
      (Write w (login ++ [13, 10])).2
      = (false, (Write (Write w (login ++ [13, 10])).2 (password ++ [13, 10])).2) :=
    welcomeProcess_password login password _ _
      ((Find_length_eq_zero_iff loginRe_ne_nil _).mp (by decide))
      ((Find_pos_iff passwordRe_ne_nil _).mp (by decide))
  rw [hfragC, hpC] at hC
  simp only at hC
  -- the rest: no login or password prompt, and a banner at the end at the latest
  obtain ⟨k', r', _, _, _, _, _, hD⟩ :=
    ReadUntilPromptLoop_stops (welcomeProcess login password)
      (fun f => decide (0 < (Find bannerRe f).length))
      (Write (Write w (login ++ [13, 10])).2 (password ++ [13, 10])).2 F
      ([] ++ host ++ [32] ++ [108, 111, 103, 105, 110, 58] ++ [32]
        ++ [13, 10, 80, 97, 115, 115, 119, 111, 114, 100, 58] ++ [32])
      r3 (13 :: 10 :: (text ++ prompt ++ [32])) re
      (13 :: 10 :: (text ++ prompt ++ [32])).length hr3
      (by simp only [List.length_append, List.length_cons, List.length_nil]; omega)
      (by simp) (le_refl _)
      (by
        rw [List.take_length]
        have : 13 :: 10 :: (text ++ prompt ++ [32]) = (13 :: 10 :: (text ++ prompt)) ++ [32] := by
          simp
        rw [this]; exact List.getLast?_concat _)
      (by
        intro j hj0 hjk hl
        obtain ⟨p, hp⟩ := lineFragment_suffix_split
          ([] ++ host ++ [32] ++ [108, 111, 103, 105, 110, 58] ++ [32]
            ++ [13, 10, 80, 97, 115, 115, 119, 111, 114, 100, 58] ++ [32])
          ((text ++ prompt ++ [32]).take (j - 2))
        have hj : (13 :: 10 :: (text ++ prompt ++ [32])).take j
            = 13 :: 10 :: (text ++ prompt ++ [32]).take (j - 2) := by
          cases j with
          | zero => omega
          | succ j =>
            cases j with
            | zero => simp at hl
            | succ j => simp
        rw [hj]
        have hsub : ∀ re0, Matches re0 (lineFragment
            ([] ++ host ++ [32] ++ [108, 111, 103, 105, 110, 58] ++ [32]
              ++ [13, 10, 80, 97, 115, 115, 119, 111, 114, 100, 58] ++ [32]
              ++ 13 :: 10 :: (text ++ prompt ++ [32]).take (j - 2))) →
            Matches re0 (text ++ prompt ++ [32]) := by
          intro re0 hm
          have h1 := Matches_append re0 p [] hm
          rw [List.append_nil, ← hp] at h1
          exact Matches_take h1
        exact welcomeProcess_banner login password _ _ (fun hm => hlogin2 (hsub _ hm))
          (fun hm => hpass2 (hsub _ hm)))
      (by
        rw [List.take_length]
        have : [] ++ host ++ [32] ++ [108, 111, 103, 105, 110, 58] ++ [32]
            ++ [13, 10, 80, 97, 115, 115, 119, 111, 114, 100, 58] ++ [32]
            ++ 13 :: 10 :: (text ++ prompt ++ [32])
            = ([] ++ host ++ [32] ++ [108, 111, 103, 105, 110, 58] ++ [32]
              ++ [13, 10, 80, 97, 115, 115, 119, 111, 114, 100, 58] ++ [32]
              ++ 13 :: 10 :: text) ++ (prompt ++ [32]) := by simp
        rw [this, lineFragment_append_clean _ _ (by
          intro c hc
          rcases List.mem_append.mp hc with h | h
          · have := hpb c h; omega
          · rw [List.mem_singleton.mp h]; decide)]
        simp only [decide_eq_true_eq]
        apply Find_pos_of_Matches bannerRe_ne_nil
        rw [← List.append_assoc]
        exact Matches_append bannerRe _ [32] ⟨[], prompt, [], by simp, hprompt⟩)
  rw [ReadUntilPrompt_eq, hF, hA, hB, hC, hD]
  exact ⟨_, r', rfl⟩



/-- C10, as stated, fails: after the password prompt the text holds the line
`Last login: x`; its fragment `Last login: ` matches the login pattern, so the
login is written a second time.  The stream is `h login: `, CRLF, `Password: `,
CRLF, `Last login: x`, CRLF and the prompt `a@b:/# `, the login is `u` and the
password `p`; the call returns without error with `u`, `p`, `u` written. -/
theorem C10_counterexample :
    waitWelcomeSigns
        { Login := [117], Password := [112],
          reader := Reader.ofBytes ([104, 32, 108, 111, 103, 105, 110, 58, 32, 13, 10,
            80, 97, 115, 115, 119, 111, 114, 100, 58, 32, 13, 10,
            76, 97, 115, 116, 32, 108, 111, 103, 105, 110, 58, 32, 120, 13, 10,
            97, 64, 98, 58, 47, 35, 32]),
          writer := { sent := [], fails := false } }
      = some (Outcome.ret (none,
        { Login := [117], Password := [112], reader := Reader.ofBytes [],
          writer := { sent := [117, 13, 10, 112, 13, 10, 117, 13, 10], fails := false } })) := by
  decide

/-- C10, amended: when the clean bytes of the stream are `HOST login: ` (a host
name of letters, digits, hyphens and underscores), CRLF, `Password: `, CRLF,
then a text in which neither the login nor the password pattern matches and
which is followed by a full match of the banner pattern and a space,
`waitWelcomeSigns` returns without error having called `Write` exactly twice,
with the login and CRLF and then with the password and CRLF; on a transport
that accepts writes exactly these bytes are sent, in this order. -/
theorem C10_handshake (tc : TelnetClient) (host text prompt : List Nat) (re : Reader)
    (hcs : readAll tc.reader = some (host ++ [32, 108, 111, 103, 105, 110, 58, 32] ++ [13, 10]
      ++ [80, 97, 115, 115, 119, 111, 114, 100, 58, 32] ++ [13, 10] ++ text ++ prompt ++ [32], re))
    (hne : host ≠ []) (hhost : ∀ c ∈ host, inClass nameClass c = true)
    (hprompt : Lang bannerRe prompt)
    (hlogin : (Find loginRe (text ++ prompt ++ [32])).length = 0)
    (hpass : (Find passwordRe (text ++ prompt ++ [32])).length = 0) :
    ∃ tc', waitWelcomeSigns tc = some (Outcome.ret (none, tc')) ∧
      tc'.writer = (Write (Write tc.writer (tc.Login ++ [13, 10])).2 (tc.Password ++ [13, 10])).2 ∧
      (tc.writer.fails = false →
        tc'.writer.sent = tc.writer.sent ++ (tc.Login ++ [13, 10]) ++ (tc.Password ++ [13, 10])) := by
  obtain ⟨out, r', h⟩ := waitWelcomeSigns_scan tc.Login tc.Password host text prompt tc.reader re
    tc.writer hcs hne hhost hprompt hlogin hpass
  refine ⟨{ tc with reader := r', writer :=
    (Write (Write tc.writer (tc.Login ++ [13, 10])).2 (tc.Password ++ [13, 10])).2 }, ?_, rfl, ?_⟩
  · simp only [waitWelcomeSigns, h]
  · intro hf
    simp only [Write_sent tc.writer _ hf, Write_sent { sent := _, fails := false } _ rfl]

/-- Witness of C10: negotiation commands, `h1 login: `, CRLF, `Password: `, two
CRLF, the text `Hi 1:2` and the prompt `a@b:/# `; login `u`, password `p`. -/
theorem C10_handshake_witness :
    ∃ tc', waitWelcomeSigns
        { Login := [117], Password := [112],
          reader := { buf := [], chunks := [⟨255, [253, 3]⟩, ⟨255, [251, 24, 104, 49, 32, 108]⟩,
            ⟨111, [103, 105, 110, 58, 32]⟩, ⟨13, [10, 80, 97, 115, 115, 119, 111, 114, 100, 58, 32]⟩,
            ⟨13, [10, 13, 10, 72, 105, 32, 49, 58, 50, 97, 64, 98, 58, 47, 35, 32]⟩] },
          writer := { sent := [], fails := false } }
        = some (Outcome.ret (none, tc')) ∧
      tc'.writer = (Write (Write { sent := [], fails := false } ([117] ++ [13, 10])).2
        ([112] ++ [13, 10])).2 ∧
      (false = false → tc'.writer.sent = [] ++ ([117] ++ [13, 10]) ++ ([112] ++ [13, 10])) :=
  C10_handshake
    { Login := [117], Password := [112],
      reader := { buf := [], chunks := [⟨255, [253, 3]⟩, ⟨255, [251, 24, 104, 49, 32, 108]⟩,
        ⟨111, [103, 105, 110, 58, 32]⟩, ⟨13, [10, 80, 97, 115, 115, 119, 111, 114, 100, 58, 32]⟩,
        ⟨13, [10, 13, 10, 72, 105, 32, 49, 58, 50, 97, 64, 98, 58, 47, 35, 32]⟩] },
      writer := { sent := [], fails := false } }
    [104, 49] [13, 10, 72, 105, 32, 49, 58, 50] [97, 64, 98, 58, 47, 35] (Reader.ofBytes [])
    (by decide) (by decide) (by decide) (Lang_of_matchHere (by decide)) (by decide) (by decide)

/-! ## Every call returns -/

theorem ReadUntil_returns (data : List Nat) (d : Nat) (r : Reader) :
    ∃ n e data' r', ReadUntil data d r = some ((n, e), data', r') := by
  by_cases hd : d = 0
  · subst hd; exact ⟨0, none, data, r, ReadUntil_zero data r⟩
  · obtain ⟨cs, re, h, _, _⟩ := readAll_total r
    by_cases hmem : d ∈ cs
    · obtain ⟨p1, p2, hsplit, hno⟩ := List.eq_append_cons_of_mem hmem
      rw [hsplit] at h
      obtain ⟨r', h1, _⟩ := ReadUntil_found hd data h hno
      exact ⟨_, _, _, r', h1⟩
    · exact ⟨_, _, _, re, ReadUntil_missing hd data h hmem⟩

theorem ReadUntilBanner_returns (r : Reader) :
    ∃ out e r', ReadUntilBanner r = some (Outcome.ret ((out, e), r')) := by
  obtain ⟨out, e, r', st', h⟩ := ReadUntilPrompt_returns (@bannerProcess Unit) r ()
  simp only [ReadUntilBanner, h]
  exact ⟨_, e, r', rfl⟩

theorem waitWelcomeSigns_returns (tc : TelnetClient) :
    ∃ e tc', waitWelcomeSigns tc = some (Outcome.ret (e, tc')) := by
  obtain ⟨out, e, r', st', h⟩ :=
    ReadUntilPrompt_returns (welcomeProcess tc.Login tc.Password) tc.reader tc.writer
  simp only [waitWelcomeSigns, h]
  exact ⟨e, _, rfl⟩

theorem Execute_returns (tc : TelnetClient) (name : List Nat) (args : List (List Nat)) :
    ∃ out e tc', Execute tc name args = some (Outcome.ret ((out, e), tc')) := by
  obtain ⟨a, ha, _⟩ := Reader.Discard_spec (Reader.Buffered tc.reader) tc.reader
  obtain ⟨out, e, r', h⟩ := ReadUntilBanner_returns a
  have hb : ¬ (tc.reader.pending.length < Reader.Buffered tc.reader) := by
    simp only [Reader.Buffered, Reader.pending, List.length_append]
    omega
  rw [if_neg hb] at ha
  simp only [Execute, ha, h]
  exact ⟨out, e, _, rfl⟩

/-! ## Claims on unknown commands and doubled escape markers -/

/-- C13: when the byte after an escape marker is none of 250..254, `skipCommand`
consumes nothing, the pending input is unchanged; so for every byte `c`
outside 250..255 `ReadByte` on `[255, c] ++ t` returns `c` as data and leaves
`t` unread. -/
theorem C13_unknown_command_left :
    (∀ (r : Reader) (c : Nat) (t : List Nat),
        c ≠ 250 ∧ c ≠ 251 ∧ c ≠ 252 ∧ c ≠ 253 ∧ c ≠ 254 → r.pending = c :: t →
        ∃ r', skipCommand r = some (none, r') ∧ r'.pending = c :: t) ∧
      (∀ (r : Reader) (c : Nat) (t : List Nat),
        (c < 250 ∨ 255 < c) → r.pending = [255, c] ++ t →
        ∃ r', ReadByte r = some ((c, none), r') ∧ r'.pending = t) := by
  constructor
  · intro r c t hc hp
    exact skipCommand_other hp ⟨hc.2.1, hc.2.2.1, hc.2.2.2.1, hc.2.2.2.2, hc.1⟩
  · intro r c t hc hp
    have hcond : c ≠ WILL ∧ c ≠ WONT ∧ c ≠ DO ∧ c ≠ DONT ∧ c ≠ SB := by
      simp only [WILL, WONT, DO, DONT, SB]; omega
    obtain ⟨r1, hp1, h1⟩ := ReadByte_skip (c :: t)
      (show r.pending = IAC :: (c :: t) from hp)
      (fun a ha => skipCommand_other ha hcond)
    have hne : c ≠ IAC := by simp only [IAC]; omega
    obtain ⟨r', h2, hp2⟩ := ReadByte_data hp1 hne
    exact ⟨r', by rw [h1, h2], hp2⟩

/-- Witness of C13: after the escape marker comes the byte 65, in a second
segment; `ReadByte` returns 65 and the tail `[66]` is still to be read. -/
theorem C13_unknown_command_left_witness :
    (∃ r', skipCommand { buf := [65], chunks := [⟨66, []⟩] } = some (none, r') ∧
        r'.pending = 65 :: [66]) ∧
      (∃ r', ReadByte { buf := [255], chunks := [⟨65, [66]⟩] } = some ((65, none), r') ∧
        r'.pending = [66]) :=
  ⟨C13_unknown_command_left.1 { buf := [65], chunks := [⟨66, []⟩] } 65 [66]
      (by decide) (by decide),
    C13_unknown_command_left.2 { buf := [255], chunks := [⟨65, [66]⟩] } 65 [66]
      (by decide) (by decide)⟩

/-- C14: two escape markers in a row are both swallowed.  `ReadByte` on
`[255, 255] ++ t` and on `[255] ++ t` return the same byte and the same error
and leave the same input unread, and a byte returned without error is not
255. -/
theorem C14_double_escape_swallowed (t : List Nat) (r1 r2 : Reader)
    (h1 : r1.pending = [255, 255] ++ t) (h2 : r2.pending = [255] ++ t) :
    ∃ b e r1' r2', ReadByte r1 = some ((b, e), r1') ∧ ReadByte r2 = some ((b, e), r2') ∧
      r1'.pending = r2'.pending ∧ (e = none → b ≠ 255) := by
  have hcond : IAC ≠ WILL ∧ IAC ≠ WONT ∧ IAC ≠ DO ∧ IAC ≠ DONT ∧ IAC ≠ SB := by decide
  obtain ⟨ra, hpa, ha⟩ := ReadByte_skip (IAC :: t)
    (show r1.pending = IAC :: (IAC :: t) from h1)
    (fun a hpa => skipCommand_other hpa hcond)
  obtain ⟨b, e, r1', hb, _, hdata, _⟩ := ReadByte_total ra
  obtain ⟨r2', hb2, hp2⟩ := ReadByte_sim (hpa.trans h2.symm) hb
  exact ⟨b, e, r1', r2', by rw [ha, hb], hb2, hp2.symm, fun he => (hdata he).2⟩

/-- Witness of C14: the tail is the byte 65. -/
theorem C14_double_escape_swallowed_witness :
    ∃ b e r1' r2', ReadByte { buf := [255], chunks := [⟨255, [65]⟩] } = some ((b, e), r1') ∧
      ReadByte (Reader.ofBytes [255, 65]) = some ((b, e), r2') ∧
      r1'.pending = r2'.pending ∧ (e = none → b ≠ 255) :=
  C14_double_escape_swallowed [65] { buf := [255], chunks := [⟨255, [65]⟩] }
    (Reader.ofBytes [255, 65]) (by decide) (by decide)

/-! ## Claims on line boundaries and on the bytes handed out -/

/-- C17: `findNewLinePos` returns -1 exactly when the data has no CR immediately
followed by LF; otherwise it returns the index of the CR of the last CR LF,
that is the length of `pre` in the one way to write the data as
`pre ++ [13, 10] ++ f` with no CR LF in `f`, and `result + 2` is the offset
right behind that pair. -/
theorem C17_findNewLinePos_last_crlf (data : List Nat) :
    (findNewLinePos data = -1 ↔ hasPair 13 10 data = false) ∧
      (∀ j : Nat, findNewLinePos data = (j : Int) ↔
        ∃ pre f, data = pre ++ 13 :: 10 :: f ∧ hasPair 13 10 f = false ∧ pre.length = j) ∧
      (findNewLinePos data = -1 ∨
        ∃ j : Nat, findNewLinePos data = (j : Int) ∧ j + 2 ≤ data.length ∧
          data.drop (j + 2) = lineFragment data) := by
  have hiff : findNewLinePos data = -1 ↔ hasPair 13 10 data = false := by
    constructor
    · intro h
      cases hp : hasPair 13 10 data with
      | false => rfl
      | true =>
        obtain ⟨pre, f, h1, h2⟩ := hasPair_split hp
        rw [h1, findNewLinePos_split pre f h2] at h
        omega
    · exact findNewLinePos_none
  refine ⟨hiff, ?_, ?_⟩
  · intro j
    constructor
    · intro h
      cases hp : hasPair 13 10 data with
      | false => rw [hiff.mpr hp] at h; omega
      | true =>
        obtain ⟨pre, f, h1, h2⟩ := hasPair_split hp
        refine ⟨pre, f, h1, h2, ?_⟩
        rw [h1, findNewLinePos_split pre f h2] at h
        exact_mod_cast h
    · rintro ⟨pre, f, h1, h2, h3⟩
      rw [h1, findNewLinePos_split pre f h2, h3]
  · cases hp : hasPair 13 10 data with
    | false => exact Or.inl (hiff.mpr hp)
    | true =>
      obtain ⟨pre, f, h1, h2⟩ := hasPair_split hp
      refine Or.inr ⟨pre.length, by rw [h1, findNewLinePos_split pre f h2], ?_, ?_⟩
      · rw [h1]; simp only [List.length_append, List.length_cons]; omega
      · rw [h1, lineFragment_split pre f h2, List.drop_append_eq_append_drop]
        simp

/-- C18: a byte that `ReadByte` returns without error is not 255; so the
clean-byte sequence holds no 255, and neither do the bytes that `ReadUntil`
appends to a buffer. -/
theorem C18_no_escape_marker_as_data (r : Reader) :
    (∀ b r', ReadByte r = some ((b, none), r') → b ≠ 255) ∧
      (∀ cs re, readAll r = some (cs, re) → 255 ∉ cs) ∧
      (∀ data d n e data' r', ReadUntil data d r = some ((n, e), data', r') →
        ∃ w, data' = data ++ w ∧ 255 ∉ w) := by
  have hclean : ∀ (cs : List Nat) (r0 re : Reader), readAll r0 = some (cs, re) → 255 ∉ cs := by
    intro cs
    induction cs with
    | nil => intro r0 re _ h; cases h
    | cons c cs ih =>
      intro r0 re h hmem
      obtain ⟨r1, h1, h2⟩ := readAll_cons_inv h
      obtain ⟨b, e, r', hb, _, hdata, _⟩ := ReadByte_total r0
      rw [h1] at hb
      simp only [Option.some.injEq, Prod.mk.injEq] at hb
      obtain ⟨⟨hb1, hb2⟩, _⟩ := hb
      rcases List.mem_cons.mp hmem with hx | hx
      · exact (hdata hb2.symm).2 (by rw [← hb1, ← hx]; rfl)
      · exact ih r1 re h2 hx
  refine ⟨?_, fun cs re h => hclean cs r re h, ?_⟩
  · intro b r' h
    obtain ⟨b0, e, r0, hb, _, hdata, _⟩ := ReadByte_total r
    rw [h] at hb
    simp only [Option.some.injEq, Prod.mk.injEq] at hb
    obtain ⟨⟨hb1, hb2⟩, _⟩ := hb
    rw [hb1]
    exact (hdata hb2.symm).2
  · intro data d n e data' r' h
    by_cases hd : d = 0
    · subst hd
      rw [ReadUntil_zero] at h
      simp only [Option.some.injEq, Prod.mk.injEq] at h
      exact ⟨[], by rw [← h.2.1]; simp, by simp⟩
    · obtain ⟨cs, re, hcs, _, _⟩ := readAll_total r
      have hno := hclean cs r re hcs
      by_cases hmem : d ∈ cs
      · obtain ⟨p1, p2, hsplit, hnop⟩ := List.eq_append_cons_of_mem hmem
        rw [hsplit] at hcs
        obtain ⟨r1, h1, _⟩ := ReadUntil_found hd data hcs hnop
        rw [h1] at h
        simp only [Option.some.injEq, Prod.mk.injEq] at h
        refine ⟨p1 ++ [d], by rw [← h.2.1]; simp, ?_⟩
        intro hx
        apply hno
        rw [hsplit]
        rcases List.mem_append.mp hx with hx | hx
        · exact List.mem_append_left _ hx
        · rw [List.mem_singleton.mp hx]
          exact List.mem_append_right _ (List.mem_cons_self _ _)
      · rw [ReadUntil_missing hd data hcs hmem] at h
        simp only [Option.some.injEq, Prod.mk.injEq] at h
        exact ⟨cs, h.2.1.symm, hno⟩

/-- Witness of C18: the input `[255, 255, 65, 255, 253, 1, 66]` in three
segments; the first byte returned is 65, the clean bytes are `[65, 66]`, and
`ReadUntil` with delimiter 66 appends these two bytes, none of them 255. -/
theorem C18_no_escape_marker_as_data_witness :
    65 ≠ 255 ∧ 255 ∉ [65, 66] ∧ ∃ w, [7, 65, 66] = [7] ++ w ∧ 255 ∉ w :=
  ⟨(C18_no_escape_marker_as_data
      { buf := [255], chunks := [⟨255, [65, 255]⟩, ⟨253, [1, 66]⟩] }).1
      65 { buf := [255], chunks := [⟨253, [1, 66]⟩] } (by decide),
    (C18_no_escape_marker_as_data
      { buf := [255], chunks := [⟨255, [65, 255]⟩, ⟨253, [1, 66]⟩] }).2.1
      [65, 66] (Reader.ofBytes []) (by decide),
    (C18_no_escape_marker_as_data
      { buf := [255], chunks := [⟨255, [65, 255]⟩, ⟨253, [1, 66]⟩] }).2.2
      [7] 66 2 none [7, 65, 66] (Reader.ofBytes []) (by decide)⟩

/-! ## The scan: consumption, outcome and the variables of each iteration -/

theorem ReadUntilLoop_consumes (d : Nat) (fuel : Nat) :
    ∀ (b : Nat) (data : List Nat) (n : Nat) (r : Reader) (n' : Nat) (e : Option Error)
      (data' : List Nat) (r' : Reader),
    ReadUntilLoop d fuel b data n r = some ((n', e), data', r') →
    r'.pending.length + n' ≤ r.pending.length + n := by
  induction fuel with
  | zero => intro b data n r n' e data' r' h; simp [ReadUntilLoop] at h
  | succ fuel ih =>
    intro b data n r n' e data' r' h
    by_cases hb : b = d
    · simp only [ReadUntilLoop, hb, if_true, Option.some.injEq, Prod.mk.injEq] at h
      obtain ⟨⟨h1, _⟩, _, h3⟩ := h
      rw [← h1, ← h3]
    · obtain ⟨b1, e1, r1, hrb, hle, hdata, _⟩ := ReadByte_total r
      simp only [ReadUntilLoop, hb, if_false, hrb] at h
      cases e1 with
      | some err =>
        simp only [Option.some.injEq, Prod.mk.injEq] at h
        obtain ⟨⟨h1, _⟩, _, h3⟩ := h
        rw [← h1, ← h3]
        omega
      | none =>
        simp only at h
        have := ih b1 (data ++ [b1]) (n + 1) r1 n' e data' r' h
        have := (hdata rfl).1
        omega

theorem ReadUntil_consumes {data : List Nat} {d : Nat} {r : Reader} {n : Nat}
    {e : Option Error} {data' : List Nat} {r' : Reader}
    (h : ReadUntil data d r = some ((n, e), data', r')) :
    r'.pending.length + n ≤ r.pending.length :=
  ReadUntilLoop_consumes d _ 0 data 0 r n e data' r' h

theorem ReadUntil_shape {data : List Nat} {d : Nat} (hd : d ≠ 0) {r : Reader} {n : Nat}
    {data' : List Nat} {r' : Reader}
    (h : ReadUntil data d r = some ((n, none), data', r')) :
    ∃ w, d ∉ w ∧ data' = data ++ w ++ [d] ∧ n = w.length + 1 := by
  obtain ⟨cs, re, hcs, _, _⟩ := readAll_total r
  by_cases hmem : d ∈ cs
  · obtain ⟨w, rest, hsplit, hw⟩ := List.eq_append_cons_of_mem hmem
    rw [hsplit] at hcs
    obtain ⟨r1, h1, _⟩ := ReadUntil_found hd data hcs hw
    rw [h1] at h
    simp only [Option.some.injEq, Prod.mk.injEq] at h
    exact ⟨w, hw, h.2.1.symm, h.1.1.symm⟩
  · rw [ReadUntil_missing hd data hcs hmem] at h
    simp at h

theorem ReadUntilPromptLoop_outcome {σ : Type} (process : List Nat → σ → Bool × σ) (fuel : Nat) :
    ∀ (output : List Nat) (r : Reader) (st : σ) (cs : List Nat) (re : Reader),
    readAll r = some (cs, re) → cs.length < fuel →
    ∃ w e r' st', ReadUntilPromptLoop process fuel output output.length
        (nextLinePos output 0) r st = some (Outcome.ret ((output ++ w, e), r', st')) ∧
      ((e = none ∧ ∃ k, 0 < k ∧ k ≤ cs.length ∧ w = cs.take k ∧ w.getLast? = some 32) ∨
        (e = some Error.read ∧ w = cs ∧ r' = re)) := by
  induction fuel with
  | zero => intro output r st cs re _ h; omega
  | succ fuel ih =>
    intro output r st cs re h hlen
    by_cases hmem : 32 ∈ cs
    · obtain ⟨w, rest, hsplit, hw⟩ := List.eq_append_cons_of_mem hmem
      rw [hsplit] at h
      obtain ⟨r1, h1, h2⟩ := ReadUntilPromptLoop_step process fuel output w rest r re st h hw
      rw [h2]
      have hk0 : (w ++ 32 :: rest).take (w.length + 1) = w ++ [32] := by
        have := take_split_gt w rest 32 0
        simpa using this
      rcases hp : process (lineFragment (output ++ w ++ [32])) st with ⟨b, st1⟩
      cases b with
      | true =>
        refine ⟨w ++ [32], none, r1, st1, by simp, Or.inl ⟨rfl, w.length + 1, by omega, ?_, ?_, by simp⟩⟩
        · rw [hsplit]; simp
        · rw [hsplit, hk0]
      | false =>
        simp only
        have hlen2 : rest.length < fuel := by
          rw [hsplit] at hlen
          simp only [List.length_append, List.length_cons] at hlen
          omega
        obtain ⟨w2, e, r', st', h3, h4⟩ := ih (output ++ w ++ [32]) r1 st1 rest re h1 hlen2
        refine ⟨w ++ [32] ++ w2, e, r', st', by rw [h3]; simp, ?_⟩
        rcases h4 with ⟨he, k, hk1, hk2, hk3, hk4⟩ | ⟨he, hw2, hr⟩
        · refine Or.inl ⟨he, w.length + 1 + k, by omega, ?_, ?_, ?_⟩
          · rw [hsplit]; simp only [List.length_append, List.length_cons]; omega
          · rw [hsplit, take_split_gt, hk3]
          · rw [List.getLast?_append_of_ne_nil _ (by
              intro hnil; rw [hnil] at hk4; simp at hk4)]
            exact hk4
        · exact Or.inr ⟨he, by rw [hsplit, hw2]; simp, hr⟩
    · refine ⟨cs, some Error.read, re, st, ?_, Or.inr ⟨rfl, rfl, rfl⟩⟩
      exact ReadUntilPromptLoop_fail process fuel output cs _ _ r re st h hmem

theorem ReadUntilPrompt_outcome {σ : Type} (process : List Nat → σ → Bool × σ) (r : Reader)
    (st : σ) :
    ∃ cs re out e r' st', readAll r = some (cs, re) ∧
      ReadUntilPrompt process r st = some (Outcome.ret ((out, e), r', st')) ∧
      ((e = none ∧ ∃ k, 0 < k ∧ k ≤ cs.length ∧ out = cs.take k ∧ out.getLast? = some 32) ∨
        (e = some Error.read ∧ out = cs ∧ r' = re)) := by
  obtain ⟨cs, re, h1, h2, _⟩ := readAll_total r
  obtain ⟨w, e, r', st', h3, h4⟩ :=
    ReadUntilPromptLoop_outcome process (r.pending.length + 1) [] r st cs re h1 (by omega)
  rw [← ReadUntilPrompt_eq] at h3
  exact ⟨cs, re, w, e, r', st', h1, by simpa using h3, h4⟩

theorem Discard_Buffered (r : Reader) :
    Reader.Discard (Reader.Buffered r) r = ((r.buf.length, none), { buf := [], chunks := r.chunks }) := by
  obtain ⟨buf, chunks⟩ := r
  cases buf with
  | nil => simp [Reader.Discard, Reader.Buffered]
  | cons b bs => simp [Reader.Discard, Reader.Buffered]

theorem Execute_eq (tc : TelnetClient) (name : List Nat) (args : List (List Nat)) :
    ∃ out e r', ReadUntilBanner { buf := [], chunks := tc.reader.chunks }
        = some (Outcome.ret ((out, e), r')) ∧
      Execute tc name args = some (Outcome.ret ((out, e),
        { tc with reader := r',
                  writer := (Write tc.writer
                    (name ++ [32] ++ List.intercalate [32] args ++ [13, 10])).2 })) := by
  obtain ⟨out, e, r', h⟩ := ReadUntilBanner_returns { buf := [], chunks := tc.reader.chunks }
  refine ⟨out, e, r', h, ?_⟩
  simp only [Execute, Discard_Buffered, h]

theorem ReadUntilBanner_outcome (r : Reader) :
    ∃ cs re out e r', readAll r = some (cs, re) ∧
      ReadUntilBanner r = some (Outcome.ret ((out, e), r')) ∧
      ((e = none ∧ ∃ k, 0 < k ∧ k ≤ cs.length ∧
          out = Trim (ReplaceAll bannerRe (cs.take k)) 32) ∨
        (e = some Error.read ∧ out = Trim (ReplaceAll bannerRe cs) 32 ∧ r' = re)) := by
  obtain ⟨cs, re, out, e, r', st', h1, h2, h3⟩ := ReadUntilPrompt_outcome (@bannerProcess Unit) r ()
  have hb : ReadUntilBanner r
      = some (Outcome.ret ((Trim (ReplaceAll bannerRe out) 32, e), r')) := by
    simp only [ReadUntilBanner, h2]
  refine ⟨cs, re, Trim (ReplaceAll bannerRe out) 32, e, r', h1, hb, ?_⟩
  rcases h3 with ⟨he, k, hk1, hk2, hk3, _⟩ | ⟨he, ho, hr⟩
  · exact Or.inl ⟨he, k, hk1, hk2, by rw [hk3]⟩
  · exact Or.inr ⟨he, by rw [ho], hr⟩

/-! ## Claims on the errors of `Execute` -/

/-- On a transport that rejects writes `Write` returns the write error, and
`Execute` does not look at it: it scans the input as after a successful write
and returns what `ReadUntilBanner` returns on the input left by the `Discard`,
the output with no error or with the read error, never the write error. -/
theorem Execute_write_failure_ignored (tc : TelnetClient) (name : List Nat) (args : List (List Nat))
    (h : tc.writer.fails = true) :
    (Write tc.writer (name ++ [32] ++ List.intercalate [32] args ++ [13, 10])).1.2
        = some Error.write ∧
      ∃ out e r',
        ReadUntilBanner (Reader.Discard (Reader.Buffered tc.reader) tc.reader).2
          = some (Outcome.ret ((out, e), r')) ∧
        Execute tc name args = some (Outcome.ret ((out, e), { tc with reader := r' })) ∧
        (e = none ∨ e = some Error.read) := by
  have hw : Write tc.writer (name ++ [32] ++ List.intercalate [32] args ++ [13, 10])
      = (((name ++ [32] ++ List.intercalate [32] args ++ [13, 10]).length, some Error.write),
          tc.writer) := by
    simp only [Write, h, if_true]
  refine ⟨by rw [hw], ?_⟩
  obtain ⟨cs, re, out, e, r', _, h2, h3⟩ :=
    ReadUntilBanner_outcome { buf := [], chunks := tc.reader.chunks }
  obtain ⟨out2, e2, r2, h4, h5⟩ := Execute_eq tc name args
  rw [h2] at h4
  simp only [Option.some.injEq, Outcome.ret.injEq, Prod.mk.injEq] at h4
  obtain ⟨⟨ho, he⟩, hr⟩ := h4
  subst ho he hr
  refine ⟨out, e, r', by rw [Discard_Buffered]; exact h2, ?_, ?_⟩
  · rw [h5, hw]
  · rcases h3 with ⟨he, _⟩ | ⟨he, _⟩
    · exact Or.inl he
    · exact Or.inr he

/-- C11, the code on a transport that rejects writes: the call of `Write` with
the command line `ls `, CRLF returns the write error, and `Execute` goes on,
scans the reply `o`, CRLF, `a@b:/# ` and returns `o`, CRLF with no error,
where the claim requires the write error and no scan.  `Execute` hands on the
errors of `Discard` and of `ReadUntilBanner` and drops the one of `Write`. -/
theorem C11_Execute_write_failure :
    (Write { sent := [], fails := true }
        ([108, 115] ++ [32] ++ List.intercalate [32] [] ++ [13, 10])).1.2
        = some Error.write ∧
      Execute
          { Login := [], Password := [],
            reader := { buf := [], chunks := [⟨111, [13, 10, 97, 64, 98, 58, 47, 35, 32]⟩] },
            writer := { sent := [], fails := true } } [108, 115] []
        = some (Outcome.ret (([111, 13, 10], none),
            { Login := [], Password := [], reader := { buf := [], chunks := [] },
              writer := { sent := [], fails := true } })) := by
  decide

/-- C12, as stated, fails: the reply `ab cd` ends before any fragment matches
the banner pattern; `Execute` returns the read error together with the output
`ab cd`, which is not empty. -/
theorem C12_counterexample :
    Execute
        { Login := [], Password := [],
          reader := { buf := [], chunks := [⟨97, [98, 32, 99, 100]⟩] },
          writer := { sent := [], fails := false } } [108, 115] []
      = some (Outcome.ret (([97, 98, 32, 99, 100], some Error.read),
          { Login := [], Password := [], reader := { buf := [], chunks := [] },
            writer := { sent := [108, 115, 32, 13, 10], fails := false } })) := by
  decide

/-- C12, amended: whenever `Execute` returns an error, it is the read error of
the scan and the partial output is returned with it, not discarded: the output
is the clean-byte sequence of the input left by the `Discard`, all of it, with
every match of the banner pattern removed and the spaces at both ends
trimmed. -/
theorem C12_scan_failure_keeps_output (tc : TelnetClient) (name : List Nat)
    (args : List (List Nat)) (out : List Nat) (err : Error) (tc' : TelnetClient)
    (h : Execute tc name args = some (Outcome.ret ((out, some err), tc'))) :
    err = Error.read ∧
      ∃ cs, readAll (Reader.Discard (Reader.Buffered tc.reader) tc.reader).2
          = some (cs, tc'.reader) ∧
        out = Trim (ReplaceAll bannerRe cs) 32 := by
  obtain ⟨cs, re, out1, e, r', h1, h2, h3⟩ :=
    ReadUntilBanner_outcome { buf := [], chunks := tc.reader.chunks }
  obtain ⟨out2, e2, r2, h4, h5⟩ := Execute_eq tc name args
  rw [h2] at h4
  simp only [Option.some.injEq, Outcome.ret.injEq, Prod.mk.injEq] at h4
  obtain ⟨⟨ho, he⟩, hr⟩ := h4
  subst ho he hr
  rw [h5] at h
  simp only [Option.some.injEq, Outcome.ret.injEq, Prod.mk.injEq] at h
  obtain ⟨⟨ho, he⟩, htc⟩ := h
  rcases h3 with ⟨he2, _⟩ | ⟨he2, hout, hre⟩
  · rw [he2] at he; cases he
  · rw [he2] at he
    simp only [Option.some.injEq] at he
    refine ⟨he.symm, cs, ?_, ?_⟩
    · rw [Discard_Buffered, ← htc, h1, hre]
    · rw [← ho, hout]

/-- Witness of C12: the reply `ab cd`, with one stale byte in the buffer that the
`Discard` drops. -/
theorem C12_scan_failure_keeps_output_witness :
    Error.read = Error.read ∧
      ∃ cs, readAll (Reader.Discard (Reader.Buffered
            { buf := [120], chunks := [⟨97, [98, 32, 99, 100]⟩] })
            { buf := [120], chunks := [⟨97, [98, 32, 99, 100]⟩] }).2
          = some (cs, { buf := [], chunks := [] }) ∧
        [97, 98, 32, 99, 100] = Trim (ReplaceAll bannerRe cs) 32 :=
  C12_scan_failure_keeps_output
    { Login := [], Password := [],
      reader := { buf := [120], chunks := [⟨97, [98, 32, 99, 100]⟩] },
      writer := { sent := [], fails := false } } [108, 115] [] [97, 98, 32, 99, 100] Error.read
    { Login := [], Password := [], reader := { buf := [], chunks := [] },
      writer := { sent := [108, 115, 32, 13, 10], fails := false } } (by decide)

/-! ## The variables of the scan at each slice -/

theorem crlfAt_append_left (l x : List Nat) (k : Nat) (h : crlfAt l k) : crlfAt (l ++ x) k := by
  obtain ⟨h1, h2⟩ := h
  have hk : k + 1 < l.length := by
    by_contra hc
    rw [List.getD_eq_default _ _ (by omega)] at h2
    cases h2
  exact ⟨by rw [List.getD_append _ _ _ _ (by omega)]; exact h1,
    by rw [List.getD_append _ _ _ _ hk]; exact h2⟩

theorem nextLinePos_mono (l x : List Nat) : nextLinePos l 0 ≤ nextLinePos (l ++ x) 0 := by
  rcases findNewLinePos_spec l with ⟨h1, _⟩ | ⟨j, h1, _, h3, _⟩
  · have h0 : nextLinePos l 0 = 0 := by simp [nextLinePos, h1]
    rw [h0]
    exact (nextLinePos_le _).1
  · have hc := crlfAt_append_left l x j h3
    rcases findNewLinePos_spec (l ++ x) with ⟨_, h5⟩ | ⟨j2, h4, _, _, h7⟩
    · exact absurd hc (h5 j)
    · have hle : j ≤ j2 := by
        by_contra hlt
        exact h7 j (by omega) hc
      simp only [nextLinePos, h1, h4]
      have e1 : ((j : Int) ≠ -1) := by omega
      have e2 : ((j2 : Int) ≠ -1) := by omega
      rw [if_pos e1, if_pos e2]
      omega

theorem ReadUntilPromptTraced_result {σ : Type} (process : List Nat → σ → Bool × σ) (fuel : Nat) :
    ∀ (output : List Nat) (dp lp : Int) (r : Reader) (st : σ),
    (ReadUntilPromptTraced process fuel output dp lp r st).2
      = ReadUntilPromptLoop process fuel output dp lp r st := by
  induction fuel with
  | zero => intro output dp lp r st; rfl
  | succ fuel ih =>
    intro output dp lp r st
    simp only [ReadUntilPromptTraced, ReadUntilPromptLoop]
    cases hru : ReadUntil output 32 r with
    | none => rfl
    | some y =>
      obtain ⟨⟨n, e⟩, out1, r1⟩ := y
      cases e with
      | some err => rfl
      | none =>
        simp only
        cases hs : slice out1 (nextLinePos out1 lp) (dp + n) with
        | none => rfl
        | some chunk =>
          simp only
          rcases hp : process chunk st with ⟨b, st1⟩
          cases b with
          | true => rfl
          | false => simp only; exact ih _ _ _ _ _

theorem ReadUntilPromptTraced_step {σ : Type} (process : List Nat → σ → Bool × σ) (fuel : Nat)
    (output w rest : List Nat) (r re : Reader) (st : σ)
    (h : readAll r = some (w ++ 32 :: rest, re)) (hw : 32 ∉ w) :
    ∃ r1, readAll r1 = some (rest, re) ∧
      ReadUntilPromptTraced process (fuel + 1) output output.length (nextLinePos output 0) r st =
        (match process (lineFragment (output ++ w ++ [32])) st with
          | (true, st1) =>
            ([⟨output ++ w ++ [32], ((output ++ w ++ [32]).length : Int),
                nextLinePos (output ++ w ++ [32]) 0⟩],
              some (Outcome.ret ((output ++ w ++ [32], none), r1, st1)))
          | (false, st1) =>
            ((⟨output ++ w ++ [32], ((output ++ w ++ [32]).length : Int),
                nextLinePos (output ++ w ++ [32]) 0⟩ : Pass) ::
              (ReadUntilPromptTraced process fuel (output ++ w ++ [32])
                ((output ++ w ++ [32]).length : Int) (nextLinePos (output ++ w ++ [32]) 0)
                r1 st1).1,
             (ReadUntilPromptTraced process fuel (output ++ w ++ [32])
                ((output ++ w ++ [32]).length : Int) (nextLinePos (output ++ w ++ [32]) 0)
                r1 st1).2)) := by
  obtain ⟨r1, h1, h2⟩ := ReadUntil_found (by decide : (32 : Nat) ≠ 0) output h hw
  refine ⟨r1, h2, ?_⟩
  have hlen : (output.length : Int) + ((w.length + 1 : Nat) : Int)
      = ((output ++ w ++ [32]).length : Int) := by
    simp only [List.length_append, List.length_singleton, Nat.cast_add, Nat.cast_one]
    omega
  have hnl : nextLinePos (output ++ w ++ [32]) (nextLinePos output 0)
      = nextLinePos (output ++ w ++ [32]) 0 := by
    rw [List.append_assoc]; exact nextLinePos_append _ _
  simp only [ReadUntilPromptTraced, h1]
  rw [hlen, hnl, slice_lineFragment]

theorem ReadUntilPromptTraced_fail {σ : Type} (process : List Nat → σ → Bool × σ) (fuel : Nat)
    (output cs : List Nat) (dp lp : Int) (r re : Reader) (st : σ)
    (h : readAll r = some (cs, re)) (hno : 32 ∉ cs) :
    ReadUntilPromptTraced process (fuel + 1) output dp lp r st
      = ([], some (Outcome.ret ((output ++ cs, some Error.read), re, st))) := by
  simp only [ReadUntilPromptTraced, ReadUntil_missing (by decide : (32 : Nat) ≠ 0) output h hno]

theorem ReadUntilPromptTraced_passes {σ : Type} (process : List Nat → σ → Bool × σ) (fuel : Nat) :
    ∀ (output : List Nat) (r : Reader) (st : σ) (cs : List Nat) (re : Reader),
    readAll r = some (cs, re) → cs.length < fuel →
    ∃ ps w e r' st',
      ReadUntilPromptTraced process fuel output output.length (nextLinePos output 0) r st
        = (ps, some (Outcome.ret ((output ++ w, e), r', st'))) ∧
      List.Chain (fun p q : Pass => p.output <+: q.output ∧ p.linePos ≤ q.linePos)
        ⟨output, output.length, nextLinePos output 0⟩ ps ∧
      (∀ p ∈ ps, p.delimPos = p.output.length ∧ p.linePos = nextLinePos p.output 0 ∧
        p.output <+: output ++ w ∧
        ∃ k, 0 < k ∧ k ≤ cs.length ∧ p.output = output ++ cs.take k ∧
          (cs.take k).getLast? = some 32) ∧
      ps.length ≤ cs.length := by
  induction fuel with
  | zero => intro output r st cs re _ h; omega
  | succ fuel ih =>
    intro output r st cs re h hlen
    by_cases hmem : 32 ∈ cs
    · obtain ⟨w, rest, hsplit, hw⟩ := List.eq_append_cons_of_mem hmem
      rw [hsplit] at h
      obtain ⟨r1, h1, h2⟩ := ReadUntilPromptTraced_step process fuel output w rest r re st h hw
      rw [h2]
      have hk0 : (w ++ 32 :: rest).take (w.length + 1) = w ++ [32] := by
        have := take_split_gt w rest 32 0
        simpa using this
      have hR : output <+: output ++ w ++ [32] ∧
          nextLinePos output 0 ≤ nextLinePos (output ++ w ++ [32]) 0 := by
        rw [List.append_assoc]
        exact ⟨List.prefix_append _ _, nextLinePos_mono _ _⟩
      have hcl : cs.length = w.length + 1 + rest.length := by
        rw [hsplit]; simp only [List.length_append, List.length_cons]; omega
      have hp1 : ∃ k, 0 < k ∧ k ≤ cs.length ∧ output ++ w ++ [32] = output ++ cs.take k ∧
          (cs.take k).getLast? = some 32 :=
        ⟨w.length + 1, by omega, by omega, by rw [hsplit, hk0, List.append_assoc],
          by rw [hsplit, hk0]; simp⟩
      rcases hp : process (lineFragment (output ++ w ++ [32])) st with ⟨b, st1⟩
      cases b with
      | true =>
        refine ⟨[⟨output ++ w ++ [32], ((output ++ w ++ [32]).length : Int),
            nextLinePos (output ++ w ++ [32]) 0⟩], w ++ [32], none, r1, st1,
          by simp only [List.append_assoc], ?_, ?_, ?_⟩
        · exact List.Chain.cons hR List.Chain.nil
        · intro p hp
          rw [List.mem_singleton] at hp
          subst hp
          exact ⟨rfl, rfl, by simp, hp1⟩
        · simp only [List.length_singleton]; omega
      | false =>
        simp only
        have hlen2 : rest.length < fuel := by omega
        obtain ⟨ps, w2, e, r', st', h3, h4, h5, h6⟩ :=
          ih (output ++ w ++ [32]) r1 st1 rest re h1 hlen2
        rw [h3]
        refine ⟨⟨output ++ w ++ [32], ((output ++ w ++ [32]).length : Int),
            nextLinePos (output ++ w ++ [32]) 0⟩ :: ps, w ++ [32] ++ w2, e, r', st',
          by simp only [List.append_assoc], ?_, ?_, ?_⟩
        · exact List.Chain.cons hR h4
        · intro p hp
          rcases List.mem_cons.mp hp with hp | hp
          · subst hp
            refine ⟨rfl, rfl, ?_, hp1⟩
            show output ++ w ++ [32] <+: output ++ (w ++ [32] ++ w2)
            rw [← List.append_assoc, ← List.append_assoc]
            exact List.prefix_append _ _
          · obtain ⟨q1, q2, q3, k, hk1, hk2, hk3, hk4⟩ := h5 p hp
            refine ⟨q1, q2, ?_, w.length + 1 + k, by omega, by omega, ?_, ?_⟩
            · simpa [List.append_assoc] using q3
            · rw [hk3, hsplit, take_split_gt]; simp
            · rw [hsplit, take_split_gt, List.getLast?_append_of_ne_nil _ (by
                intro hnil; rw [hnil] at hk4; simp at hk4)]
              exact hk4
        · simp only [List.length_cons]; omega
    · refine ⟨[], cs, some Error.read, re, st, ?_, List.Chain.nil, ?_, by simp⟩
      · exact ReadUntilPromptTraced_fail process fuel output cs _ _ r re st h hmem
      · intro p hp; cases hp

theorem ReadUntilPromptPasses_spec {σ : Type} (process : List Nat → σ → Bool × σ) (r : Reader)
    (st : σ) :
    ∃ cs re out e r' st', readAll r = some (cs, re) ∧
      ReadUntilPrompt process r st = some (Outcome.ret ((out, e), r', st')) ∧
      List.Chain (fun p q : Pass => p.output <+: q.output ∧ p.linePos ≤ q.linePos)
        ⟨[], 0, 0⟩ (ReadUntilPromptPasses process r st) ∧
      (∀ p ∈ ReadUntilPromptPasses process r st,
        p.delimPos = p.output.length ∧ p.linePos = nextLinePos p.output 0 ∧
        p.output <+: out ∧
        ∃ k, 0 < k ∧ k ≤ cs.length ∧ p.output = cs.take k ∧ (cs.take k).getLast? = some 32) ∧
      (ReadUntilPromptPasses process r st).length ≤ cs.length := by
  obtain ⟨cs, re, h1, h2, _⟩ := readAll_total r
  obtain ⟨ps, w, e, r', st', h3, h4, h5, h6⟩ :=
    ReadUntilPromptTraced_passes process (r.pending.length + 1) [] r st cs re h1 (by omega)
  have hres := ReadUntilPromptTraced_result process (r.pending.length + 1) [] 0 0 r st
  rw [nextLinePos_nil] at h3 h4
  simp only [List.length_nil, Nat.cast_zero] at h3 h4
  have hps : ReadUntilPromptPasses process r st = ps := by
    simp only [ReadUntilPromptPasses, h3]
  rw [h3] at hres
  refine ⟨cs, re, w, e, r', st', h1, ?_, ?_, ?_, ?_⟩
  · simp only [ReadUntilPrompt]
    rw [← hres]; simp
  · rw [hps]; exact h4
  · rw [hps]
    intro p hp
    obtain ⟨q1, q2, q3, k, hk1, hk2, hk3, hk4⟩ := h5 p hp
    exact ⟨q1, q2, by simpa using q3, k, hk1, hk2, by simpa using hk3, hk4⟩
  · rw [hps]; exact h6

theorem lineFragment_no_crlf (l : List Nat) : hasPair 13 10 (lineFragment l) = false := by
  rcases lineFragment_isLineFragment l with ⟨h1, h2⟩ | ⟨pre, _, h2⟩
  · rw [h2]; exact h1
  · exact h2

theorem lineFragment_last (l : List Nat) (h : l.getLast? = some 32) :
    (lineFragment l).getLast? = some 32 := by
  rcases lineFragment_isLineFragment l with ⟨_, h2⟩ | ⟨pre, h1, _⟩
  · rw [h2]; exact h
  · generalize lineFragment l = f at h1
    cases f with
    | nil =>
      rw [h1] at h
      have : (pre ++ [13, 10]).getLast? = some 10 := by
        rw [List.getLast?_append_of_ne_nil _ (by simp)]; rfl
      rw [this] at h
      cases h
    | cons a t =>
      rw [h1] at h
      have e : pre ++ 13 :: 10 :: a :: t = (pre ++ [13, 10]) ++ (a :: t) := by simp
      rw [e, List.getLast?_append_of_ne_nil _ (by simp)] at h
      exact h

theorem ReadUntilPromptLoop_unfold {σ : Type} (process : List Nat → σ → Bool × σ) (fuel : Nat)
    (output w : List Nat) (r r1 : Reader) (st : σ)
    (h1 : ReadUntil output 32 r = some ((w.length + 1, none), output ++ w ++ [32], r1)) :
    ReadUntilPromptLoop process (fuel + 1) output output.length (nextLinePos output 0) r st =
      (match process (lineFragment (output ++ w ++ [32])) st with
        | (true, st1) => some (Outcome.ret ((output ++ w ++ [32], none), r1, st1))
        | (false, st1) =>
          ReadUntilPromptLoop process fuel (output ++ w ++ [32])
            ((output ++ w ++ [32]).length : Int) (nextLinePos (output ++ w ++ [32]) 0)
            r1 st1) := by
  have hlen : (output.length : Int) + ((w.length + 1 : Nat) : Int)
      = ((output ++ w ++ [32]).length : Int) := by
    simp only [List.length_append, List.length_singleton, Nat.cast_add, Nat.cast_one]
    omega
  have hnl : nextLinePos (output ++ w ++ [32]) (nextLinePos output 0)
      = nextLinePos (output ++ w ++ [32]) 0 := by
    rw [List.append_assoc]; exact nextLinePos_append _ _
  simp only [ReadUntilPromptLoop, h1]
  rw [hlen, hnl, slice_lineFragment]

theorem ReadUntilPromptLoop_record {σ : Type} (process : List Nat → σ → Bool × σ) (fuel : Nat) :
    ∀ (output : List Nat) (r : Reader) (st : σ) (log : List (List Nat)) (cs : List Nat)
      (re : Reader),
    readAll r = some (cs, re) → cs.length < fuel →
    ∃ out e r' st' fs,
      ReadUntilPromptLoop (record process) fuel output output.length (nextLinePos output 0) r
          (st, log) = some (Outcome.ret ((out, e), r', (st', log ++ fs))) ∧
      ReadUntilPromptLoop process fuel output output.length (nextLinePos output 0) r st
        = some (Outcome.ret ((out, e), r', st')) ∧
      ∀ f ∈ fs, ∃ k, 0 < k ∧ k ≤ cs.length ∧ (cs.take k).getLast? = some 32 ∧
        f = lineFragment (output ++ cs.take k) := by
  induction fuel with
  | zero => intro output r st log cs re _ h; omega
  | succ fuel ih =>
    intro output r st log cs re h hlen
    by_cases hmem : 32 ∈ cs
    · obtain ⟨w, rest, hsplit, hw⟩ := List.eq_append_cons_of_mem hmem
      rw [hsplit] at h
      obtain ⟨r1, h1, h2⟩ := ReadUntil_found (by decide : (32 : Nat) ≠ 0) output h hw
      rw [ReadUntilPromptLoop_unfold (record process) fuel output w r r1 (st, log) h1,
        ReadUntilPromptLoop_unfold process fuel output w r r1 st h1]
      have hk0 : (w ++ 32 :: rest).take (w.length + 1) = w ++ [32] := by
        have := take_split_gt w rest 32 0
        simpa using this
      have hcl : cs.length = w.length + 1 + rest.length := by
        rw [hsplit]; simp only [List.length_append, List.length_cons]; omega
      have hf1 : ∃ k, 0 < k ∧ k ≤ cs.length ∧ (cs.take k).getLast? = some 32 ∧
          lineFragment (output ++ w ++ [32]) = lineFragment (output ++ cs.take k) :=
        ⟨w.length + 1, by omega, by omega, by rw [hsplit, hk0]; simp,
          by rw [hsplit, hk0, List.append_assoc]⟩
      have hrec : record process (lineFragment (output ++ w ++ [32])) (st, log)
          = ((process (lineFragment (output ++ w ++ [32])) st).1,
              ((process (lineFragment (output ++ w ++ [32])) st).2,
                log ++ [lineFragment (output ++ w ++ [32])])) := rfl
      rw [hrec]
      rcases hp : process (lineFragment (output ++ w ++ [32])) st with ⟨b, st1⟩
      cases b with
      | true =>
        refine ⟨output ++ w ++ [32], none, r1, st1, [lineFragment (output ++ w ++ [32])],
          rfl, rfl, ?_⟩
        intro f hf
        rw [List.mem_singleton] at hf
        rw [hf]
        exact hf1
      | false =>
        simp only
        obtain ⟨out, e, r', st', fs, h3, h4, h5⟩ :=
          ih (output ++ w ++ [32]) r1 st1 (log ++ [lineFragment (output ++ w ++ [32])]) rest re
            h2 (by omega)
        refine ⟨out, e, r', st', lineFragment (output ++ w ++ [32]) :: fs, ?_, h4, ?_⟩
        · rw [h3]; simp
        · intro f hf
          rcases List.mem_cons.mp hf with hf | hf
          · rw [hf]; exact hf1
          · obtain ⟨k, hk1, hk2, hk3, hk4⟩ := h5 f hf
            refine ⟨w.length + 1 + k, by omega, by omega, ?_, ?_⟩
            · rw [hsplit, take_split_gt, List.getLast?_append_of_ne_nil _ (by
                intro hnil; rw [hnil] at hk3; simp at hk3)]
              exact hk3
            · rw [hk4, hsplit, take_split_gt]; simp
    · refine ⟨output ++ cs, some Error.read, re, st, [], ?_, ?_, ?_⟩
      · rw [List.append_nil]
        exact ReadUntilPromptLoop_fail (record process) fuel output cs _ _ r re (st, log) h hmem
      · exact ReadUntilPromptLoop_fail process fuel output cs _ _ r re st h hmem
      · intro f hf; cases hf

theorem ReadUntilPrompt_record {σ : Type} (process : List Nat → σ → Bool × σ) (r : Reader)
    (st : σ) :
    ∃ cs re out e r' st' fs, readAll r = some (cs, re) ∧
      ReadUntilPrompt (record process) r (st, []) = some (Outcome.ret ((out, e), r', (st', fs))) ∧
      ReadUntilPrompt process r st = some (Outcome.ret ((out, e), r', st')) ∧
      ∀ f ∈ fs, ∃ k, 0 < k ∧ k ≤ cs.length ∧ (cs.take k).getLast? = some 32 ∧
        f = lineFragment (cs.take k) := by
  obtain ⟨cs, re, h1, h2, _⟩ := readAll_total r
  obtain ⟨out, e, r', st', fs, h3, h4, h5⟩ :=
    ReadUntilPromptLoop_record process (r.pending.length + 1) [] r st [] cs re h1 (by omega)
  rw [← ReadUntilPrompt_eq] at h3 h4
  refine ⟨cs, re, out, e, r', st', fs, h1, by simpa using h3, h4, ?_⟩
  intro f hf
  obtain ⟨k, hk1, hk2, hk3, hk4⟩ := h5 f hf
  exact ⟨k, hk1, hk2, hk3, by simpa using hk4⟩

/-! ## The scan with a classifier that writes to its argument -/

theorem overwrite_length (chunk chunk1 : List Nat) :
    (overwrite chunk chunk1).length = chunk.length := by
  simp only [overwrite, List.length_append, List.length_take, List.length_drop]
  omega

theorem overwrite_self (chunk : List Nat) : overwrite chunk chunk = chunk := by
  simp [overwrite]

theorem writeBack_self (output : List Nat) (lo hi : Int) (chunk : List Nat)
    (h : slice output lo hi = some chunk) : writeBack output lo chunk chunk = output := by
  simp only [slice] at h
  split at h
  · rename_i hb
    obtain ⟨h0, h1, h2⟩ := hb
    simp only [Option.some.injEq] at h
    have hlen : chunk.length = hi.toNat - lo.toNat := by
      rw [← h, List.length_drop, List.length_take]
      omega
    have hle : lo.toNat ≤ hi.toNat := by omega
    have hhi : hi.toNat ≤ output.length := by omega
    simp only [writeBack, overwrite_self]
    rw [hlen, ← h]
    have e1 : lo.toNat + (hi.toNat - lo.toNat) = hi.toNat := by omega
    rw [e1]
    have e2 : List.take lo.toNat output = List.take lo.toNat (List.take hi.toNat output) := by
      rw [List.take_take, Nat.min_eq_left hle]
    rw [e2, List.take_append_drop, List.take_append_drop]
  · cases h

theorem writeBack_lineFragment (o1 chunk1 : List Nat) :
    (writeBack o1 (nextLinePos o1 0) (lineFragment o1) chunk1).length = o1.length ∧
      (writeBack o1 (nextLinePos o1 0) (lineFragment o1) chunk1).take (nextLinePos o1 0).toNat
        = o1.take (nextLinePos o1 0).toNat := by
  have hle := nextLinePos_le o1
  have hn : (nextLinePos o1 0).toNat ≤ o1.length := by omega
  have hfl : (lineFragment o1).length = o1.length - (nextLinePos o1 0).toNat := by
    simp only [lineFragment, List.length_drop]
  constructor
  · simp only [writeBack, List.length_append, List.length_take, overwrite_length,
      List.length_drop, hfl]
    omega
  · simp only [writeBack, List.append_assoc]
    rw [List.take_append_of_le_length (by rw [List.length_take]; omega)]
    rw [List.take_take, Nat.min_self]

theorem writeBack_lineFragment_self (o1 : List Nat) :
    writeBack o1 (nextLinePos o1 0) (lineFragment o1) (lineFragment o1) = o1 :=
  writeBack_self o1 (nextLinePos o1 0) o1.length (lineFragment o1) (slice_lineFragment o1)

theorem crlfAt_of_take_eq (l l2 : List Nat) (n j : Nat) (hj : j + 2 ≤ n)
    (h : l2.take n = l.take n) (hc : crlfAt l j) : crlfAt l2 j := by
  have key : ∀ k, k < n → l2.getD k 0 = l.getD k 0 := by
    intro k hk
    have e1 : (l2.take n)[k]? = l2[k]? := by rw [List.getElem?_take, if_pos hk]
    have e2 : (l.take n)[k]? = l[k]? := by rw [List.getElem?_take, if_pos hk]
    rw [h] at e1
    simp only [List.getD_eq_getElem?_getD]
    rw [← e1, e2]
  exact ⟨by rw [key j (by omega)]; exact hc.1, by rw [key (j + 1) (by omega)]; exact hc.2⟩

theorem nextLinePos_start (l : List Nat) :
    nextLinePos l 0 = 0 ∨ ∃ j : Nat, nextLinePos l 0 = (j : Int) + 2 ∧ crlfAt l j := by
  rcases findNewLinePos_spec l with ⟨h1, _⟩ | ⟨j, h1, _, h3, _⟩
  · left; simp [nextLinePos, h1]
  · right
    refine ⟨j, ?_, h3⟩
    simp only [nextLinePos, h1]
    rw [if_pos (by omega)]

theorem nextLinePos_from (output x : List Nat) (lp : Int)
    (h : lp = 0 ∨ ∃ j : Nat, lp = (j : Int) + 2 ∧ crlfAt output j) :
    nextLinePos (output ++ x) lp = nextLinePos (output ++ x) 0 ∧
      lp ≤ nextLinePos (output ++ x) 0 := by
  rcases h with h0 | ⟨j, hj, hc⟩
  · rw [h0]; exact ⟨rfl, (nextLinePos_le _).1⟩
  · have hc2 := crlfAt_append_left output x j hc
    rcases findNewLinePos_spec (output ++ x) with ⟨_, h5⟩ | ⟨j2, h4, _, _, h7⟩
    · exact absurd hc2 (h5 j)
    · have hle : j ≤ j2 := by
        by_contra hlt
        exact h7 j (by omega) hc2
      simp only [nextLinePos, h4]
      have e2 : ((j2 : Int) ≠ -1) := by omega
      rw [if_pos e2]
      exact ⟨rfl, by omega⟩

theorem ReadUntilPromptTracedShared_result {σ : Type}
    (process : List Nat → σ → (Bool × List Nat) × σ) (fuel : Nat) :
    ∀ (output : List Nat) (dp lp : Int) (r : Reader) (st : σ),
    (ReadUntilPromptTracedShared process fuel output dp lp r st).2
      = ReadUntilPromptLoopShared process fuel output dp lp r st := by
  induction fuel with
  | zero => intro output dp lp r st; rfl
  | succ fuel ih =>
    intro output dp lp r st
    simp only [ReadUntilPromptTracedShared, ReadUntilPromptLoopShared]
    cases hru : ReadUntil output 32 r with
    | none => rfl
    | some y =>
      obtain ⟨⟨n, e⟩, out1, r1⟩ := y
      cases e with
      | some err => rfl
      | none =>
        simp only
        cases hs : slice out1 (nextLinePos out1 lp) (dp + n) with
        | none => rfl
        | some chunk =>
          simp only
          rcases hp : process chunk st with ⟨⟨b, c1⟩, st1⟩
          cases b with
          | true => rfl
          | false => simp only; exact ih _ _ _ _ _

theorem ReadUntilPromptLoopShared_noWrite {σ : Type} (process : List Nat → σ → Bool × σ)
    (fuel : Nat) :
    ∀ (output : List Nat) (dp lp : Int) (r : Reader) (st : σ),
    ReadUntilPromptLoopShared (noWrite process) fuel output dp lp r st
      = ReadUntilPromptLoop process fuel output dp lp r st := by
  induction fuel with
  | zero => intro output dp lp r st; rfl
  | succ fuel ih =>
    intro output dp lp r st
    simp only [ReadUntilPromptLoopShared, ReadUntilPromptLoop]
    cases hru : ReadUntil output 32 r with
    | none => rfl
    | some y =>
      obtain ⟨⟨n, e⟩, out1, r1⟩ := y
      cases e with
      | some err => rfl
      | none =>
        simp only
        cases hs : slice out1 (nextLinePos out1 lp) (dp + n) with
        | none => rfl
        | some chunk =>
          simp only
          have hw := writeBack_self out1 _ _ chunk hs
          rcases hp : process chunk st with ⟨b, st1⟩
          have hn : noWrite process chunk st = ((b, chunk), st1) := by
            simp only [noWrite, hp]
          rw [hn]
          cases b with
          | true => simp only [hw]
          | false => simp only [hw]; exact ih _ _ _ _ _

theorem ReadUntilPromptShared_noWrite {σ : Type} (process : List Nat → σ → Bool × σ)
    (r : Reader) (st : σ) :
    ReadUntilPromptShared (noWrite process) r st = ReadUntilPrompt process r st :=
  ReadUntilPromptLoopShared_noWrite process _ [] 0 0 r st

theorem ReadUntilPromptTracedShared_unfold {σ : Type}
    (process : List Nat → σ → (Bool × List Nat) × σ) (fuel : Nat)
    (output w : List Nat) (lp : Int) (r r1 : Reader) (st : σ)
    (hlp : lp = 0 ∨ ∃ j : Nat, lp = (j : Int) + 2 ∧ crlfAt output j)
    (h1 : ReadUntil output 32 r = some ((w.length + 1, none), output ++ w ++ [32], r1)) :
    ReadUntilPromptTracedShared process (fuel + 1) output output.length lp r st =
      (match process (lineFragment (output ++ w ++ [32])) st with
        | ((true, chunk1), st1) =>
          ([⟨output ++ w ++ [32], ((output ++ w ++ [32]).length : Int),
              nextLinePos (output ++ w ++ [32]) 0, r1.pending.length, true,
              writeBack (output ++ w ++ [32]) (nextLinePos (output ++ w ++ [32]) 0)
                (lineFragment (output ++ w ++ [32])) chunk1⟩],
            some (Outcome.ret
              ((writeBack (output ++ w ++ [32]) (nextLinePos (output ++ w ++ [32]) 0)
                (lineFragment (output ++ w ++ [32])) chunk1, none), r1, st1)))
        | ((false, chunk1), st1) =>
          ((⟨output ++ w ++ [32], ((output ++ w ++ [32]).length : Int),
              nextLinePos (output ++ w ++ [32]) 0, r1.pending.length, false,
              writeBack (output ++ w ++ [32]) (nextLinePos (output ++ w ++ [32]) 0)
                (lineFragment (output ++ w ++ [32])) chunk1⟩ : Visit) ::
            (ReadUntilPromptTracedShared process fuel
              (writeBack (output ++ w ++ [32]) (nextLinePos (output ++ w ++ [32]) 0)
                (lineFragment (output ++ w ++ [32])) chunk1)
              ((output ++ w ++ [32]).length : Int) (nextLinePos (output ++ w ++ [32]) 0)
              r1 st1).1,
           (ReadUntilPromptTracedShared process fuel
              (writeBack (output ++ w ++ [32]) (nextLinePos (output ++ w ++ [32]) 0)
                (lineFragment (output ++ w ++ [32])) chunk1)
              ((output ++ w ++ [32]).length : Int) (nextLinePos (output ++ w ++ [32]) 0)
              r1 st1).2)) := by
  have hlen : (output.length : Int) + ((w.length + 1 : Nat) : Int)
      = ((output ++ w ++ [32]).length : Int) := by
    simp only [List.length_append, List.length_singleton, Nat.cast_add, Nat.cast_one]
    omega
  have hnl : nextLinePos (output ++ w ++ [32]) lp = nextLinePos (output ++ w ++ [32]) 0 := by
    rw [List.append_assoc]; exact (nextLinePos_from output (w ++ [32]) lp hlp).1
  simp only [ReadUntilPromptTracedShared, h1]
  rw [hlen, hnl, slice_lineFragment]

theorem ReadUntilPromptTracedShared_visits {σ : Type}
    (process : List Nat → σ → (Bool × List Nat) × σ) (fuel : Nat) :
    ∀ (output : List Nat) (lp : Int) (r : Reader) (st : σ) (cs : List Nat) (re : Reader),
    readAll r = some (cs, re) → cs.length < fuel →
    (lp = 0 ∨ ∃ j : Nat, lp = (j : Int) + 2 ∧ crlfAt output j) →
    ∃ vs out e r' st',
      ReadUntilPromptTracedShared process fuel output output.length lp r st
        = (vs, some (Outcome.ret ((out, e), r', st'))) ∧
      List.Chain (fun v w : Visit =>
          v.after <+: w.output ∧ v.linePos ≤ w.linePos ∧ w.unread < v.unread)
        ⟨output, output.length, lp, r.pending.length, false, output⟩ vs ∧
      (∀ v ∈ vs, v.delimPos = v.output.length ∧ v.linePos = nextLinePos v.output 0 ∧
        v.after.length = v.output.length ∧
        v.after.take v.linePos.toNat = v.output.take v.linePos.toNat ∧
        ∃ s c1, (process (lineFragment v.output) s).1 = (v.accepted, c1) ∧
          v.after = writeBack v.output v.linePos (lineFragment v.output) c1) ∧
      (∀ v ∈ vs.dropLast, v.accepted = false) ∧
      ((e = none ∧ ∃ v, vs.getLast? = some v ∧ v.accepted = true ∧ out = v.after) ∨
        (e = some Error.read ∧ (∀ v ∈ vs, v.accepted = false) ∧
          out.length = output.length + cs.length ∧ r' = re ∧
          ((∀ v ∈ vs, v.after = v.output) → out = output ++ cs))) := by
  induction fuel with
  | zero => intro output lp r st cs re _ h; omega
  | succ fuel ih =>
    intro output lp r st cs re h hlen hlp
    by_cases hmem : 32 ∈ cs
    · obtain ⟨w, rest, hsplit, hw⟩ := List.eq_append_cons_of_mem hmem
      rw [hsplit] at h
      obtain ⟨r1, h1, h2⟩ := ReadUntil_found (by decide : (32 : Nat) ≠ 0) output h hw
      rw [ReadUntilPromptTracedShared_unfold process fuel output w lp r r1 st hlp h1]
      have hcons := ReadUntil_consumes h1
      have hcl : cs.length = w.length + 1 + rest.length := by
        rw [hsplit]; simp only [List.length_append, List.length_cons]; omega
      have hol : (output ++ w ++ [32]).length = output.length + w.length + 1 := by
        simp only [List.length_append, List.length_singleton]
      have hfrom := nextLinePos_from output (w ++ [32]) lp hlp
      rw [← List.append_assoc] at hfrom
      rcases hp : process (lineFragment (output ++ w ++ [32])) st with ⟨⟨b, c1⟩, st1⟩
      obtain ⟨hwl, hwt⟩ := writeBack_lineFragment (output ++ w ++ [32]) c1
      obtain ⟨after, hafter⟩ : ∃ a, writeBack (output ++ w ++ [32])
          (nextLinePos (output ++ w ++ [32]) 0) (lineFragment (output ++ w ++ [32])) c1 = a :=
        ⟨_, rfl⟩
      rw [hafter] at hwl hwt
      have hR : output <+: output ++ w ++ [32] ∧ lp ≤ nextLinePos (output ++ w ++ [32]) 0 ∧
          r1.pending.length < r.pending.length :=
        ⟨by rw [List.append_assoc]; exact List.prefix_append _ _, hfrom.2, by omega⟩
      cases b with
      | true =>
        simp only [hafter]
        refine ⟨[⟨output ++ w ++ [32], ((output ++ w ++ [32]).length : Int),
            nextLinePos (output ++ w ++ [32]) 0, r1.pending.length, true, after⟩],
          after, none, r1, st1, rfl, List.Chain.cons hR List.Chain.nil, ?_, ?_, ?_⟩
        · intro v hv
          rw [List.mem_singleton] at hv
          subst hv
          exact ⟨rfl, rfl, hwl, hwt, st, c1, by rw [hp], hafter.symm⟩
        · intro v hv
          simp at hv
        · exact Or.inl ⟨rfl, _, rfl, rfl, rfl⟩
      | false =>
        simp only [hafter]
        have hstart : nextLinePos (output ++ w ++ [32]) 0 = 0 ∨
            ∃ j : Nat, nextLinePos (output ++ w ++ [32]) 0 = (j : Int) + 2 ∧ crlfAt after j := by
          rcases nextLinePos_start (output ++ w ++ [32]) with h0 | ⟨j, hj, hc⟩
          · exact Or.inl h0
          · refine Or.inr ⟨j, hj, ?_⟩
            exact crlfAt_of_take_eq _ _ (nextLinePos (output ++ w ++ [32]) 0).toNat j
              (by rw [hj]; omega) hwt hc
        have hdp : (((output ++ w ++ [32]).length : Nat) : Int) = ((after.length : Nat) : Int) := by
          rw [hwl]
        obtain ⟨vs, out, e, r', st', h3, h4, h5, h6, h7⟩ :=
          ih after (nextLinePos (output ++ w ++ [32]) 0) r1 st1 rest re h2 (by omega) hstart
        rw [← hdp] at h3
        rw [h3]
        refine ⟨⟨output ++ w ++ [32], ((output ++ w ++ [32]).length : Int),
            nextLinePos (output ++ w ++ [32]) 0, r1.pending.length, false, after⟩ :: vs,
          out, e, r', st', rfl, List.Chain.cons hR ?_, ?_, ?_, ?_⟩
        · cases h4 with
          | nil => exact List.Chain.nil
          | cons hr ht => exact List.Chain.cons hr ht
        · intro v hv
          rcases List.mem_cons.mp hv with hv | hv
          · subst hv
            exact ⟨rfl, rfl, hwl, hwt, st, c1, by rw [hp], hafter.symm⟩
          · exact h5 v hv
        · intro v hv
          cases vs with
          | nil => simp at hv
          | cons a t =>
            rw [List.dropLast_cons₂] at hv
            rcases List.mem_cons.mp hv with hv | hv
            · subst hv; rfl
            · exact h6 v hv
        · rcases h7 with ⟨he, v, hv1, hv2, hv3⟩ | ⟨he, hall, hl, hr, hnw⟩
          · refine Or.inl ⟨he, v, ?_, hv2, hv3⟩
            cases vs with
            | nil => simp at hv1
            | cons a t => rw [List.getLast?_cons_cons]; exact hv1
          · refine Or.inr ⟨he, ?_, ?_, hr, ?_⟩
            · intro v hv
              rcases List.mem_cons.mp hv with hv | hv
              · subst hv; rfl
              · exact hall v hv
            · rw [hl, hwl, hol]; omega
            · intro hpure
              have ha : after = output ++ w ++ [32] :=
                hpure _ (List.mem_cons_self _ _)
              rw [hnw (fun v hv => hpure v (List.mem_cons_of_mem _ hv)), ha, hsplit]
              simp
    · have hf : ReadUntilPromptTracedShared process (fuel + 1) output output.length lp r st
          = ([], some (Outcome.ret ((output ++ cs, some Error.read), re, st))) := by
        simp only [ReadUntilPromptTracedShared,
          ReadUntil_missing (by decide : (32 : Nat) ≠ 0) output h hmem]
      refine ⟨[], output ++ cs, some Error.read, re, st, hf, List.Chain.nil, ?_, ?_, ?_⟩
      · intro v hv; cases hv
      · intro v hv; simp at hv
      · refine Or.inr ⟨rfl, ?_, List.length_append _ _, rfl, fun _ => rfl⟩
        intro v hv; cases hv

theorem chain_of_mem {R R2 : Visit → Visit → Prop} {P : Visit → Prop}
    (himp : ∀ v w, P v → R v w → R2 v w) :
    ∀ (l : List Visit) (a : Visit), List.Chain R a l → (∀ v ∈ a :: l, P v) →
      List.Chain R2 a l := by
  intro l
  induction l with
  | nil => intro a _ _; exact List.Chain.nil
  | cons b t ih =>
    intro a h hP
    cases h with
    | cons hr ht =>
      exact List.Chain.cons (himp a b (hP a (List.mem_cons_self _ _)) hr)
        (ih b ht (fun v hv => hP v (List.mem_cons_of_mem _ hv)))

theorem ReadUntilPromptTracedShared_noWrite {σ : Type} (process : List Nat → σ → Bool × σ)
    (fuel : Nat) :
    ∀ (output : List Nat) (dp lp : Int) (r : Reader) (st : σ),
    ∀ v ∈ (ReadUntilPromptTracedShared (noWrite process) fuel output dp lp r st).1,
      v.after = v.output := by
  induction fuel with
  | zero => intro output dp lp r st v hv; cases hv
  | succ fuel ih =>
    intro output dp lp r st v hv
    simp only [ReadUntilPromptTracedShared] at hv
    cases hru : ReadUntil output 32 r with
    | none => rw [hru] at hv; cases hv
    | some y =>
      obtain ⟨⟨n, e⟩, out1, r1⟩ := y
      rw [hru] at hv
      cases e with
      | some err => cases hv
      | none =>
        simp only at hv
        cases hs : slice out1 (nextLinePos out1 lp) (dp + n) with
        | none => rw [hs] at hv; cases hv
        | some chunk =>
          rw [hs] at hv
          simp only at hv
          have hw := writeBack_self out1 _ _ chunk hs
          rcases hp : process chunk st with ⟨b, st1⟩
          have hn : noWrite process chunk st = ((b, chunk), st1) := by
            simp only [noWrite, hp]
          rw [hn] at hv
          cases b with
          | true =>
            simp only [hw, List.mem_singleton] at hv
            rw [hv]
          | false =>
            simp only [hw, List.mem_cons] at hv
            rcases hv with hv | hv
            · rw [hv]
            · exact ih _ _ _ _ _ v hv

theorem ReadUntilPromptVisits_spec {σ : Type} (process : List Nat → σ → (Bool × List Nat) × σ)
    (r : Reader) (st : σ) :
    ∃ cs re out e r' st', readAll r = some (cs, re) ∧
      ReadUntilPromptShared process r st = some (Outcome.ret ((out, e), r', st')) ∧
      List.Chain (fun v w : Visit =>
          v.after <+: w.output ∧ v.linePos ≤ w.linePos ∧ w.unread < v.unread)
        ⟨[], 0, 0, r.pending.length, false, []⟩ (ReadUntilPromptVisits process r st) ∧
      (∀ v ∈ ReadUntilPromptVisits process r st,
        v.delimPos = v.output.length ∧ v.linePos = nextLinePos v.output 0 ∧
        v.after.length = v.output.length ∧
        v.after.take v.linePos.toNat = v.output.take v.linePos.toNat ∧
        ∃ s c1, (process (lineFragment v.output) s).1 = (v.accepted, c1) ∧
          v.after = writeBack v.output v.linePos (lineFragment v.output) c1) ∧
      (∀ v ∈ (ReadUntilPromptVisits process r st).dropLast, v.accepted = false) ∧
      ((e = none ∧ ∃ v, (ReadUntilPromptVisits process r st).getLast? = some v ∧
          v.accepted = true ∧ out = v.after) ∨
        (e = some Error.read ∧ (∀ v ∈ ReadUntilPromptVisits process r st, v.accepted = false) ∧
          out.length = cs.length ∧ r' = re ∧
          ((∀ v ∈ ReadUntilPromptVisits process r st, v.after = v.output) → out = cs))) := by
  obtain ⟨cs, re, h1, h2, _⟩ := readAll_total r
  obtain ⟨vs, out, e, r', st', h3, h4, h5, h6, h7⟩ :=
    ReadUntilPromptTracedShared_visits process (r.pending.length + 1) [] 0 r st cs re h1
      (by omega) (Or.inl rfl)
  have hres := ReadUntilPromptTracedShared_result process (r.pending.length + 1) [] 0 0 r st
  simp only [List.length_nil, Nat.cast_zero] at h3 h4
  have hvs : ReadUntilPromptVisits process r st = vs := by
    simp only [ReadUntilPromptVisits, h3]
  rw [h3] at hres
  rw [hvs]
  refine ⟨cs, re, out, e, r', st', h1, ?_, h4, h5, h6, ?_⟩
  · simp only [ReadUntilPromptShared]
    rw [← hres]
  · rcases h7 with h7 | ⟨he, hall, hl, hr, hnw⟩
    · exact Or.inl h7
    · exact Or.inr ⟨he, hall, by simpa using hl, hr, fun hp => by simpa using hnw hp⟩

/-! ## Claims on the iterations of the scan -/

/-- C15, as stated, fails: the fragment handed to the classifier shares its
bytes with the output buffer, so a classifier that writes to its argument
changes the buffer.  On the text `ab cd ` with a classifier that puts `X` into
the first byte of its argument and returns false, the buffer is `ab ` at the
first slice and `Xb cd ` at the second: the first is not a prefix of the
second. -/
theorem C15_counterexample :
    ReadUntilPromptVisits (fun d (s : Unit) => ((false, 88 :: d.drop 1), s))
        (Reader.ofBytes [97, 98, 32, 99, 100, 32]) ()
      = [⟨[97, 98, 32], 3, 0, 3, false, [88, 98, 32]⟩,
         ⟨[88, 98, 32, 99, 100, 32], 6, 0, 0, false, [88, 98, 32, 99, 100, 32]⟩] ∧
      ¬ ([97, 98, 32] <+: [88, 98, 32, 99, 100, 32]) := by
  decide

/-- C15, amended: across the iterations of one call of `ReadUntilPrompt`, for
every input and every classifier that reaches the buffer only through the
fragment it is given, reading or writing its bytes during the call, the output
buffer never gets shorter, the bytes before `linePos` are
never changed (the buffer up to `linePos` at one slice is a prefix of the
buffer at the next) and `linePos` never decreases; and the whole buffer at one
slice is a prefix of the buffer at the next whenever the classifier has left
the fragment of that iteration as it was.  The chain starts from the initial
values, the empty buffer and `linePos` 0.  The recorder does not change the
result, and for a classifier that does not write the result is that of
`ReadUntilPrompt` and every iteration leaves the buffer as it was. -/
theorem C15_output_grows_linePos_monotone {σ : Type}
    (process : List Nat → σ → (Bool × List Nat) × σ) (r : Reader) (st : σ) :
    List.Chain (fun v w : Visit =>
          v.output.length ≤ w.output.length ∧
          v.output.take v.linePos.toNat <+: w.output ∧
          v.linePos ≤ w.linePos ∧
          (v.after = v.output → v.output <+: w.output))
        ⟨[], 0, 0, r.pending.length, false, []⟩ (ReadUntilPromptVisits process r st) ∧
      (ReadUntilPromptTracedShared process (r.pending.length + 1) [] 0 0 r st).2
        = ReadUntilPromptShared process r st ∧
      (∀ {τ : Type} (p : List Nat → τ → Bool × τ) (s : τ),
        ReadUntilPromptShared (noWrite p) r s = ReadUntilPrompt p r s ∧
        ∀ v ∈ ReadUntilPromptVisits (noWrite p) r s, v.after = v.output) := by
  obtain ⟨cs, re, out, e, r', st', _, _, h3, h4, _, _⟩ := ReadUntilPromptVisits_spec process r st
  refine ⟨?_, ReadUntilPromptTracedShared_result process _ [] 0 0 r st, ?_⟩
  · refine @chain_of_mem
      (fun v w : Visit => v.after <+: w.output ∧ v.linePos ≤ w.linePos ∧ w.unread < v.unread)
      _ (fun v => v.after.length = v.output.length ∧
        v.after.take v.linePos.toNat = v.output.take v.linePos.toNat) ?_ _ _ h3 ?_
    · intro v w hP hR
      obtain ⟨hl, ht⟩ := hP
      obtain ⟨hpre, hlp, _⟩ := hR
      refine ⟨?_, ?_, hlp, ?_⟩
      · rw [← hl]; exact hpre.length_le
      · rw [← ht]; exact (List.take_prefix _ _).trans hpre
      · intro heq; rw [← heq]; exact hpre
    · intro v hv
      rcases List.mem_cons.mp hv with hv | hv
      · rw [hv]; exact ⟨rfl, rfl⟩
      · exact ⟨(h4 v hv).2.2.1, (h4 v hv).2.2.2.1⟩
  · intro τ p s
    exact ⟨ReadUntilPromptShared_noWrite p r s,
      ReadUntilPromptTracedShared_noWrite p _ [] 0 0 r s⟩

/-- Witness of C15: the text `ab `, CRLF, `c d ` behind a DO command, with a
classifier that puts `X` into the first byte of its argument and accepts the
fragment `c `: two iterations, with `linePos` 0 and 5; the first buffer `ab `
becomes `Xb `, which the second buffer starts with. -/
theorem C15_output_grows_linePos_monotone_witness :
    ReadUntilPromptVisits (fun d (s : Unit) => ((decide (d = [99, 32]), 88 :: d.drop 1), s))
        { buf := [97], chunks := [⟨98, [32, 13]⟩, ⟨10, [255, 253, 1, 99, 32, 100, 32]⟩] } ()
      = [⟨[97, 98, 32], 3, 0, 9, false, [88, 98, 32]⟩,
         ⟨[88, 98, 32, 13, 10, 99, 32], 7, 5, 2, true, [88, 98, 32, 13, 10, 88, 32]⟩] ∧
    List.Chain (fun v w : Visit =>
          v.output.length ≤ w.output.length ∧
          v.output.take v.linePos.toNat <+: w.output ∧
          v.linePos ≤ w.linePos ∧
          (v.after = v.output → v.output <+: w.output))
        ⟨[], 0, 0,
          ({ buf := [97], chunks := [⟨98, [32, 13]⟩, ⟨10, [255, 253, 1, 99, 32, 100, 32]⟩] }
            : Reader).pending.length, false, []⟩
        (ReadUntilPromptVisits (fun d (s : Unit) => ((decide (d = [99, 32]), 88 :: d.drop 1), s))
          { buf := [97], chunks := [⟨98, [32, 13]⟩, ⟨10, [255, 253, 1, 99, 32, 100, 32]⟩] } ()) :=
  ⟨by decide,
    (C15_output_grows_linePos_monotone
      (fun d (s : Unit) => ((decide (d = [99, 32]), 88 :: d.drop 1), s))
      { buf := [97], chunks := [⟨98, [32, 13]⟩, ⟨10, [255, 253, 1, 99, 32, 100, 32]⟩] } ()).1⟩

/-- C16, as stated, fails in its last part: on the text `ab cd`, which ends
before the classifier accepts, with a classifier that puts `X` into the first
byte of its argument, the call returns the read error with the buffer `Xb cd`,
not the clean bytes `ab cd`. -/
theorem C16_counterexample :
    ReadUntilPromptShared (fun d (s : Unit) => ((false, 88 :: d.drop 1), s))
        (Reader.ofBytes [97, 98, 32, 99, 100]) ()
      = some (Outcome.ret (([88, 98, 32, 99, 100], some Error.read), Reader.ofBytes [], ())) ∧
      readAll (Reader.ofBytes [97, 98, 32, 99, 100])
        = some ([97, 98, 32, 99, 100], Reader.ofBytes []) := by
  decide

/-- C16, amended: `ReadUntilPrompt` returns on every finite input for every
classifier that itself returns, does not read from the connection and reaches
the buffer only through the fragment it is given, reading or writing its bytes
during the call.  Every iteration
that reaches the classifier has consumed at least one input byte more than the
one before (the count of unread bytes falls strictly, starting from the whole
input).  The classifier rejects in every iteration but the last; the call ends
without error exactly when the classifier accepts in the last iteration, and
then returns the buffer as that iteration leaves it.  When the input is
exhausted before the classifier accepts, the call returns the read error
together with the whole buffer, which has one byte for each clean byte of the
input and is the clean-byte sequence itself when no iteration has changed the
buffer.  Verdict and written bytes of every iteration are those of a call of
the classifier on the Line Fragment of the buffer.  For a classifier that does
not write, the result is that of `ReadUntilPrompt` and no iteration changes
the buffer. -/
theorem C16_ReadUntilPrompt_terminates {σ : Type}
    (process : List Nat → σ → (Bool × List Nat) × σ) (r : Reader) (st : σ) :
    (∃ cs re out e r' st', readAll r = some (cs, re) ∧
        ReadUntilPromptShared process r st = some (Outcome.ret ((out, e), r', st')) ∧
        (∀ v ∈ (ReadUntilPromptVisits process r st).dropLast, v.accepted = false) ∧
        ((e = none ∧ ∃ v, (ReadUntilPromptVisits process r st).getLast? = some v ∧
            v.accepted = true ∧ out = v.after) ∨
          (e = some Error.read ∧
            (∀ v ∈ ReadUntilPromptVisits process r st, v.accepted = false) ∧
            out.length = cs.length ∧ r' = re ∧
            ((∀ v ∈ ReadUntilPromptVisits process r st, v.after = v.output) → out = cs)))) ∧
      List.Chain (fun v w : Visit => w.unread < v.unread)
        ⟨[], 0, 0, r.pending.length, false, []⟩ (ReadUntilPromptVisits process r st) ∧
      (∀ v ∈ ReadUntilPromptVisits process r st,
        ∃ s c1, (process (lineFragment v.output) s).1 = (v.accepted, c1) ∧
          v.after = writeBack v.output v.linePos (lineFragment v.output) c1) ∧
      (ReadUntilPromptTracedShared process (r.pending.length + 1) [] 0 0 r st).2
        = ReadUntilPromptShared process r st ∧
      (∀ {τ : Type} (p : List Nat → τ → Bool × τ) (s : τ),
        ReadUntilPromptShared (noWrite p) r s = ReadUntilPrompt p r s ∧
        ∀ v ∈ ReadUntilPromptVisits (noWrite p) r s, v.after = v.output) := by
  obtain ⟨cs, re, out, e, r', st', h1, h2, h3, h4, h5, h6⟩ :=
    ReadUntilPromptVisits_spec process r st
  refine ⟨⟨cs, re, out, e, r', st', h1, h2, h5, h6⟩, ?_, ?_,
    ReadUntilPromptTracedShared_result process _ [] 0 0 r st, ?_⟩
  · exact @chain_of_mem
      (fun v w : Visit => v.after <+: w.output ∧ v.linePos ≤ w.linePos ∧ w.unread < v.unread)
      _ (fun _ => True) (fun v w _ hR => hR.2.2) _ _ h3 (fun _ _ => trivial)
  · intro v hv
    exact (h4 v hv).2.2.2.2
  · intro τ p s
    exact ⟨ReadUntilPromptShared_noWrite p r s,
      ReadUntilPromptTracedShared_noWrite p _ [] 0 0 r s⟩

/-- Witness of C16: the text `ab cd` behind a DO command, with a classifier that
never accepts and does not write; one iteration reaches the classifier, with
2 of the 8 input bytes unread, and the call returns the read error with the
clean bytes `ab cd`. -/
theorem C16_ReadUntilPrompt_terminates_witness :
    ReadUntilPromptVisits (noWrite (fun _ (s : Unit) => (false, s)))
        { buf := [255], chunks := [⟨253, [1, 97]⟩, ⟨98, [32, 99, 100]⟩] } ()
      = [⟨[97, 98, 32], 3, 0, 2, false, [97, 98, 32]⟩] ∧
    ReadUntilPrompt (fun _ (s : Unit) => (false, s))
        { buf := [255], chunks := [⟨253, [1, 97]⟩, ⟨98, [32, 99, 100]⟩] } ()
      = some (Outcome.ret (([97, 98, 32, 99, 100], some Error.read), Reader.ofBytes [], ())) ∧
    (∃ cs re out e r' st',
      readAll { buf := [255], chunks := [⟨253, [1, 97]⟩, ⟨98, [32, 99, 100]⟩] } = some (cs, re) ∧
      ReadUntilPromptShared (noWrite (fun _ (s : Unit) => (false, s)))
          { buf := [255], chunks := [⟨253, [1, 97]⟩, ⟨98, [32, 99, 100]⟩] } ()
        = some (Outcome.ret ((out, e), r', st')) ∧
      (∀ v ∈ (ReadUntilPromptVisits (noWrite (fun _ (s : Unit) => (false, s)))
          { buf := [255], chunks := [⟨253, [1, 97]⟩, ⟨98, [32, 99, 100]⟩] } ()).dropLast,
        v.accepted = false) ∧
      ((e = none ∧ ∃ v, (ReadUntilPromptVisits (noWrite (fun _ (s : Unit) => (false, s)))
            { buf := [255], chunks := [⟨253, [1, 97]⟩, ⟨98, [32, 99, 100]⟩] } ()).getLast? = some v ∧
          v.accepted = true ∧ out = v.after) ∨
        (e = some Error.read ∧
          (∀ v ∈ ReadUntilPromptVisits (noWrite (fun _ (s : Unit) => (false, s)))
              { buf := [255], chunks := [⟨253, [1, 97]⟩, ⟨98, [32, 99, 100]⟩] } (),
            v.accepted = false) ∧
          out.length = cs.length ∧ r' = re ∧
          ((∀ v ∈ ReadUntilPromptVisits (noWrite (fun _ (s : Unit) => (false, s)))
              { buf := [255], chunks := [⟨253, [1, 97]⟩, ⟨98, [32, 99, 100]⟩] } (),
            v.after = v.output) → out = cs)))) ∧
    List.Chain (fun v w : Visit => w.unread < v.unread)
      ⟨[], 0, 0,
        ({ buf := [255], chunks := [⟨253, [1, 97]⟩, ⟨98, [32, 99, 100]⟩] } : Reader).pending.length,
        false, []⟩
      (ReadUntilPromptVisits (noWrite (fun _ (s : Unit) => (false, s)))
        { buf := [255], chunks := [⟨253, [1, 97]⟩, ⟨98, [32, 99, 100]⟩] } ()) :=
  ⟨by decide, by decide,
    (C16_ReadUntilPrompt_terminates (noWrite (fun _ (s : Unit) => (false, s)))
      { buf := [255], chunks := [⟨253, [1, 97]⟩, ⟨98, [32, 99, 100]⟩] } ()).1,
    (C16_ReadUntilPrompt_terminates (noWrite (fun _ (s : Unit) => (false, s)))
      { buf := [255], chunks := [⟨253, [1, 97]⟩, ⟨98, [32, 99, 100]⟩] } ()).2.1⟩

/-- C19: in every iteration of `ReadUntilPrompt`, for every input and every
classifier, `0 <= linePos <= delimPos = len(output)` holds at the slice, so
`output[linePos:delimPos]` is in bounds (it is the Line Fragment of the
buffer), and the call never panics: it returns. -/
theorem C19_slice_in_bounds {σ : Type} (process : List Nat → σ → Bool × σ)
    (r : Reader) (st : σ) :
    (∀ p ∈ ReadUntilPromptPasses process r st,
        0 ≤ p.linePos ∧ p.linePos ≤ p.delimPos ∧ p.delimPos = p.output.length ∧
        slice p.output p.linePos p.delimPos = some (lineFragment p.output)) ∧
      ReadUntilPrompt process r st ≠ some Outcome.panic ∧
      (ReadUntilPromptTraced process (r.pending.length + 1) [] 0 0 r st).2
        = ReadUntilPrompt process r st ∧
      ∃ out e r' st', ReadUntilPrompt process r st = some (Outcome.ret ((out, e), r', st')) := by
  obtain ⟨cs, re, out, e, r', st', _, h2, _, h4, _⟩ := ReadUntilPromptPasses_spec process r st
  refine ⟨?_, by rw [h2]; simp, ReadUntilPromptTraced_result process _ [] 0 0 r st,
    out, e, r', st', h2⟩
  intro p hp
  obtain ⟨q1, q2, _⟩ := h4 p hp
  have hle := nextLinePos_le p.output
  refine ⟨by rw [q2]; exact hle.1, by rw [q1, q2]; exact hle.2, q1, ?_⟩
  rw [q1, q2]
  exact slice_lineFragment _

/-- Witness of C19: the second iteration on the text `ab `, CRLF, `c d `, where
`linePos` is 5 and `delimPos` 7. -/
theorem C19_slice_in_bounds_witness :
    (0 : Int) ≤ 5 ∧ (5 : Int) ≤ 7 ∧
      (7 : Int) = (([97, 98, 32, 13, 10, 99, 32] : List Nat).length : Int) ∧
      slice [97, 98, 32, 13, 10, 99, 32] 5 7 = some (lineFragment [97, 98, 32, 13, 10, 99, 32]) :=
  (C19_slice_in_bounds (fun d (s : Unit) => (decide (d = [99, 32]), s))
    { buf := [97], chunks := [⟨98, [32, 13]⟩, ⟨10, [255, 253, 1, 99, 32, 100, 32]⟩] } ()).1
    ⟨[97, 98, 32, 13, 10, 99, 32], 7, 5⟩ (by decide)

/-- C20: every fragment that `ReadUntilPrompt` passes to the classifier is
non-empty, ends with a space and contains no CR immediately followed by LF; it
is the Line Fragment of a prefix of the clean bytes that ends with a space, so
text not followed by a space is never offered on its own.  The fragments are
those noted by the recording classifier, which leaves the result of the call
as it is. -/
theorem C20_fragments_end_with_space {σ : Type} (process : List Nat → σ → Bool × σ)
    (r : Reader) (st : σ) :
    ∃ cs re out e r' st' fs, readAll r = some (cs, re) ∧
      ReadUntilPrompt (record process) r (st, []) = some (Outcome.ret ((out, e), r', (st', fs))) ∧
      ReadUntilPrompt process r st = some (Outcome.ret ((out, e), r', st')) ∧
      ∀ f ∈ fs, f ≠ [] ∧ f.getLast? = some 32 ∧ hasPair 13 10 f = false ∧
        ∃ k, 0 < k ∧ k ≤ cs.length ∧ (cs.take k).getLast? = some 32 ∧
          f = lineFragment (cs.take k) := by
  obtain ⟨cs, re, out, e, r', st', fs, h1, h2, h3, h4⟩ := ReadUntilPrompt_record process r st
  refine ⟨cs, re, out, e, r', st', fs, h1, h2, h3, ?_⟩
  intro f hf
  obtain ⟨k, hk1, hk2, hk3, hk4⟩ := h4 f hf
  have hl : f.getLast? = some 32 := by rw [hk4]; exact lineFragment_last _ hk3
  refine ⟨?_, hl, by rw [hk4]; exact lineFragment_no_crlf _, k, hk1, hk2, hk3, hk4⟩
  intro hnil
  rw [hnil] at hl
  cases hl

/-- Witness of C20: on the text `ab `, CRLF, `c d ` the classifier is given the
fragments `ab ` and `c `. -/
theorem C20_fragments_end_with_space_witness :
    ReadUntilPrompt (record (fun d (s : Unit) => (decide (d = [99, 32]), s)))
        { buf := [97], chunks := [⟨98, [32, 13]⟩, ⟨10, [255, 253, 1, 99, 32, 100, 32]⟩] } ((), [])
      = some (Outcome.ret (([97, 98, 32, 13, 10, 99, 32], none), Reader.ofBytes [100, 32],
          ((), [[97, 98, 32], [99, 32]]))) ∧
    ∃ cs re out e r' st' fs,
      readAll { buf := [97], chunks := [⟨98, [32, 13]⟩, ⟨10, [255, 253, 1, 99, 32, 100, 32]⟩] } = some (cs, re) ∧
      ReadUntilPrompt (record (fun d (s : Unit) => (decide (d = [99, 32]), s)))
          { buf := [97], chunks := [⟨98, [32, 13]⟩, ⟨10, [255, 253, 1, 99, 32, 100, 32]⟩] } ((), [])
        = some (Outcome.ret ((out, e), r', (st', fs))) ∧
      ReadUntilPrompt (fun d (s : Unit) => (decide (d = [99, 32]), s))
          { buf := [97], chunks := [⟨98, [32, 13]⟩, ⟨10, [255, 253, 1, 99, 32, 100, 32]⟩] } ()
        = some (Outcome.ret ((out, e), r', st')) ∧
      ∀ f ∈ fs, f ≠ [] ∧ f.getLast? = some 32 ∧ hasPair 13 10 f = false ∧
        ∃ k, 0 < k ∧ k ≤ cs.length ∧ (cs.take k).getLast? = some 32 ∧
          f = lineFragment (cs.take k) :=
  ⟨by rfl,
    C20_fragments_end_with_space (fun d (s : Unit) => (decide (d = [99, 32]), s))
      { buf := [97], chunks := [⟨98, [32, 13]⟩, ⟨10, [255, 253, 1, 99, 32, 100, 32]⟩] } ()⟩

end Telnet
